import Mathlib

/-!
Verification of the algebraic range-query engine of `math-optim_rs`:
the `Monoid` / `MonoidAction` interfaces, the static segment tree
(`src/ds/segtree.rs`) and the lazy segment tree (`src/ds/lazy_segtree.rs`).

The Rust structures are shallowly embedded: the flat `Box<[T]>` buffers
become total functions `Nat → α` (all indexing in the source stays inside
`[1, 2m)`, so the representation is faithful on every slot the code can
touch), in-place mutation becomes functional update, and every `while` /
`for` loop of the source becomes a structurally recursive function with an
explicit fuel argument chosen at the call site to dominate the source
loop's iteration count.
-/

/-- The `Monoid` trait of `src/algebra/monoid.rs`: a carrier with an
identity and a binary operation.  The algebraic laws are kept separate in
`IsMonoid`, mirroring the fact that the Rust trait documents but never
checks them. -/
structure MonoidImpl (α : Type) where
  identity : α
  op : α → α → α

/-- The documented contract of the `Monoid` trait: associativity and the
two identity laws. -/
structure IsMonoid {α : Type} (M : MonoidImpl α) : Prop where
  assoc : ∀ a b c : α, M.op (M.op a b) c = M.op a (M.op b c)
  id_op : ∀ a : α, M.op M.identity a = a
  op_id : ∀ a : α, M.op a M.identity = a

/-- The `MonoidAction` trait of `src/algebra/monoid_action.rs`: a value
monoid `(S, op_s, identity_s)`, an operator monoid `(F, op_f, identity_f)`
and an action `apply : S → F → S` (the Rust `apply(&mut S, &F)` written
functionally). -/
structure MonoidActionImpl (σ φ : Type) where
  identity_s : σ
  identity_f : φ
  op_s : σ → σ → σ
  op_f : φ → φ → φ
  apply : σ → φ → σ

/-- The documented contract of `MonoidAction`: the value monoid laws, the
identity operator acts trivially, composed operators act left-then-right
(this is the convention the lazy tree and the repository's instances use:
`apply(x, op_f(f, g)) = apply(apply(x, f), g)`), and each operator is a
homomorphism of the value monoid. -/
structure IsAction {σ φ : Type} (A : MonoidActionImpl σ φ) : Prop where
  assoc_s : ∀ a b c : σ, A.op_s (A.op_s a b) c = A.op_s a (A.op_s b c)
  id_op_s : ∀ a : σ, A.op_s A.identity_s a = a
  op_id_s : ∀ a : σ, A.op_s a A.identity_s = a
  apply_id : ∀ x : σ, A.apply x A.identity_f = x
  apply_comp : ∀ (x : σ) (f g : φ), A.apply x (A.op_f f g) = A.apply (A.apply x f) g
  apply_hom : ∀ (a b : σ) (f : φ), A.apply (A.op_s a b) f = A.op_s (A.apply a f) (A.apply b f)

/-- The value monoid carried by a monoid action. -/
def MonoidActionImpl.valueMonoid {σ φ : Type} (A : MonoidActionImpl σ φ) : MonoidImpl σ :=
  { identity := A.identity_s, op := A.op_s }

/-- Functional update: the in-place slot assignment `data[i] = v` of the
Rust code on a buffer modelled as a function. -/
def upd {α : Type} (f : Nat → α) (i : Nat) (v : α) : Nat → α :=
  fun j => if j = i then v else f j

/-- The exponent of the least power of two `≥ n` (ceiling log2), written
with fuel so that it evaluates by kernel reduction; any fuel `≥ n` is
exact. -/
def npotExp : Nat → Nat → Nat
  | 0, _ => 0
  | fuel + 1, n => if n ≤ 1 then 0 else npotExp fuel ((n + 1) / 2) + 1

/-- Rust's `usize::next_power_of_two`: the least power of two that is
`≥ n` (with `0 → 1`). -/
def nextPowerOfTwo (n : Nat) : Nat := 2 ^ npotExp n n

/-- `foldRangeAux M v t i` folds `v i, v (i+1), …` (`t` terms) with `M`,
left values first: `v i ⋆ (v (i+1) ⋆ (… ⋆ e))`. -/
def foldRangeAux {α : Type} (M : MonoidImpl α) (v : Nat → α) : Nat → Nat → α
  | 0, _ => M.identity
  | t + 1, i => M.op (v i) (foldRangeAux M v t (i + 1))

/-- The reference left-to-right fold `v lo ⋆ v (lo+1) ⋆ … ⋆ v (hi-1)` of a
half-open index range: the specification value of `range_fold`. -/
def foldRange {α : Type} (M : MonoidImpl α) (v : Nat → α) (lo hi : Nat) : α :=
  foldRangeAux M v (hi - lo) lo

/-- A `RangeBounds<usize>` bound: Rust's `Bound::{Unbounded, Included,
Excluded}` for one end of a range argument. -/
inductive RBound where
  | unbounded : RBound
  | included : Nat → RBound
  | excluded : Nat → RBound

/-- Normalization of the start bound, from `range_fold` / `range_apply`:
`Unbounded => 0, Included(x) => x, Excluded(x) => x + 1`. -/
def RBound.startIndex : RBound → Nat
  | .unbounded => 0
  | .included x => x
  | .excluded x => x + 1

/-- Normalization of the end bound, from `range_fold` / `range_apply`:
`Unbounded => n, Included(x) => x + 1, Excluded(x) => x`. -/
def RBound.endIndex (n : Nat) : RBound → Nat
  | .unbounded => n
  | .included x => x + 1
  | .excluded x => x

/-- The `SegTree<T>` struct: length `n`, capacity `m` (next power of two
`≥ n`) and the flat aggregate buffer of conceptual size `2m`. -/
structure SegTree (α : Type) where
  n : Nat
  m : Nat
  data : Nat → α

/-- `SegTree::new(n)`: the identity sequence of length `n` (the whole
buffer holds the identity). -/
def SegTree.new {α : Type} (M : MonoidImpl α) (n : Nat) : SegTree α :=
  { n := n, m := nextPowerOfTwo n, data := fun _ => M.identity }

/-- The bottom-up build loop of `SegTree::from_vec`:
`for i in (1..m).rev() { data[i] = op(&data[2i], &data[2i+1]) }`:
`buildLoop M i` performs the writes for indices `i, i-1, …, 1`. -/
def buildLoop {α : Type} (M : MonoidImpl α) : Nat → (Nat → α) → (Nat → α)
  | 0, d => d
  | i + 1, d => buildLoop M i (upd d (i + 1) (M.op (d (2 * (i + 1))) (d (2 * (i + 1) + 1))))

/-- `SegTree::from_vec(a)`: leaves `[m, m+n)` get the input sequence,
the rest of the buffer the identity, then every internal aggregate is
computed bottom-up. -/
def SegTree.from_vec {α : Type} (M : MonoidImpl α) (a : List α) : SegTree α :=
  let n := a.length
  let m := nextPowerOfTwo n
  { n := n, m := m,
    data := buildLoop M (m - 1)
      (fun k => if m ≤ k ∧ k < m + n then a.getD (k - m) M.identity else M.identity) }

/-- The ancestor-recomputation loop of `SegTree::set`:
`while i > 0 { data[i] = op(&data[2i], &data[2i+1]); i >>= 1 }`,
with fuel (each step halves `i`, so any fuel `≥ log2 i + 1` is exact). -/
def pullLoop {α : Type} (M : MonoidImpl α) : Nat → Nat → (Nat → α) → (Nat → α)
  | 0, _, d => d
  | fuel + 1, i, d =>
    if i = 0 then d
    else pullLoop M fuel (i / 2) (upd d i (M.op (d (2 * i)) (d (2 * i + 1))))

/-- `SegTree::set(i, x)`: overwrite leaf `i + m`, then recompute every
ancestor from that leaf's parent up to the root. -/
def SegTree.set {α : Type} (M : MonoidImpl α) (st : SegTree α) (i : Nat) (x : α) : SegTree α :=
  { st with data := pullLoop M st.m ((i + st.m) / 2) (upd st.data (i + st.m) x) }

/-- `SegTree::get(i)`: direct read of slot `i + m`. -/
def SegTree.get {α : Type} (st : SegTree α) (i : Nat) : α :=
  st.data (i + st.m)

/-- The two-accumulator boundary walk shared by `SegTree::range_fold` and
`LazySegTree::range_fold`:
`while l < r { if l odd fold data[l] into left; if r odd fold data[r-1]
into right; halve l and r }`, with fuel (`r` strictly decreases, so fuel
`≥ r` is exact). -/
def foldLoop {α : Type} (M : MonoidImpl α) (d : Nat → α) : Nat → Nat → Nat → α → α → α
  | 0, _, _, accl, accr => M.op accl accr
  | fuel + 1, l, r, accl, accr =>
    if l < r then
      foldLoop M d fuel
        ((if l % 2 = 1 then l + 1 else l) / 2)
        ((if r % 2 = 1 then r - 1 else r) / 2)
        (if l % 2 = 1 then M.op accl (d l) else accl)
        (if r % 2 = 1 then M.op (d (r - 1)) accr else accr)
    else M.op accl accr

/-- `SegTree::range_fold(range)`: normalize the bounds, shift into tree
slot space by `+ m`, then run the boundary walk with two identity
accumulators. -/
def SegTree.range_fold {α : Type} (M : MonoidImpl α) (st : SegTree α) (sb eb : RBound) : α :=
  let l := sb.startIndex + st.m
  let r := RBound.endIndex st.n eb + st.m
  foldLoop M st.data r l r M.identity M.identity

/-- `SegTree::all_fold()`: the root aggregate. -/
def SegTree.all_fold {α : Type} (st : SegTree α) : α :=
  st.data 1

/-- `SegTree::set` together with its `debug_assert!(i < self.n)` guard:
`none` models the assertion failure. -/
def SegTree.setChecked {α : Type} (M : MonoidImpl α) (st : SegTree α) (i : Nat) (x : α) :
    Option (SegTree α) :=
  if i < st.n then some (SegTree.set M st i x) else none

/-- `SegTree::get` together with its `debug_assert!(i < self.n)` guard. -/
def SegTree.getChecked {α : Type} (st : SegTree α) (i : Nat) : Option α :=
  if i < st.n then some (SegTree.get st i) else none

/-- `SegTree::range_fold` together with its two range guards
(`debug_assert!(l <= r)` and `debug_assert!(r <= n + m)`, both stated on
the `+ m`-shifted bounds). -/
def SegTree.range_foldChecked {α : Type} (M : MonoidImpl α) (st : SegTree α) (sb eb : RBound) :
    Option α :=
  let l := sb.startIndex + st.m
  let r := RBound.endIndex st.n eb + st.m
  if l ≤ r ∧ r ≤ st.n + st.m then some (SegTree.range_fold M st sb eb) else none

/-- The internal-node invariant of the aggregate buffer (`data[k] ==
op(data[2k], data[2k+1])` for `1 ≤ k < m`), the central invariant of the
static structure. -/
def SegInv {α : Type} (M : MonoidImpl α) (m : Nat) (d : Nat → α) : Prop :=
  ∀ k : Nat, 1 ≤ k → k < m → d k = M.op (d (2 * k)) (d (2 * k + 1))

/-- The padding invariant: slots `[m + n, 2m)` hold the identity. -/
def SegPad {α : Type} (M : MonoidImpl α) (n m : Nat) (d : Nat → α) : Prop :=
  ∀ j : Nat, m + n ≤ j → j < 2 * m → d j = M.identity

/-- Well-formedness of a static tree state: positive capacity at least the
length, plus the two buffer invariants. -/
def SegOk {α : Type} (M : MonoidImpl α) (st : SegTree α) : Prop :=
  1 ≤ st.m ∧ st.n ≤ st.m ∧ SegInv M st.m st.data ∧ SegPad M st.n st.m st.data

/-- The `LazySegTree<T>` struct: length `n`, capacity `m`, the aggregate
buffer `data` and the pending-operator buffer `func`, both of conceptual
size `2m`. -/
structure LazySegTree (σ φ : Type) where
  n : Nat
  m : Nat
  data : Nat → σ
  func : Nat → φ

/-- Rust's `usize::trailing_zeros`, with fuel (any fuel `≥ n` is exact):
the number of low-order zero bits, i.e. the tree height `L` when applied
to the capacity `m = 2^L`. -/
def ctz : Nat → Nat → Nat
  | 0, _ => 0
  | fuel + 1, n => if n % 2 = 0 ∧ n ≠ 0 then ctz fuel (n / 2) + 1 else 0

/-- `LazySegTree::new(n)`: identity values, identity pending operators. -/
def LazySegTree.new {σ φ : Type} (A : MonoidActionImpl σ φ) (n : Nat) : LazySegTree σ φ :=
  { n := n, m := nextPowerOfTwo n,
    data := fun _ => A.identity_s, func := fun _ => A.identity_f }

/-- `LazySegTree::from_slice(a)`: like `SegTree::from_vec` on the value
monoid; the pending buffer is all-identity. -/
def LazySegTree.from_slice {σ φ : Type} (A : MonoidActionImpl σ φ) (a : List σ) :
    LazySegTree σ φ :=
  let n := a.length
  let m := nextPowerOfTwo n
  { n := n, m := m,
    data := buildLoop A.valueMonoid (m - 1)
      (fun k => if m ≤ k ∧ k < m + n then a.getD (k - m) A.identity_s else A.identity_s),
    func := fun _ => A.identity_f }

/-- `LazySegTree::push(k)`: take `k`'s pending operator, apply it to both
children's aggregates, compose it into both children's pending operators,
and reset `k`'s pending operator to the identity. -/
def LazySegTree.push {σ φ : Type} (A : MonoidActionImpl σ φ) (st : LazySegTree σ φ) (k : Nat) :
    LazySegTree σ φ :=
  let f := st.func k
  { st with
    data := upd (upd st.data (2 * k) (A.apply (st.data (2 * k)) f))
      (2 * k + 1) (A.apply (st.data (2 * k + 1)) f),
    func := upd (upd (upd st.func k A.identity_f)
      (2 * k) (A.op_f (st.func (2 * k)) f))
      (2 * k + 1) (A.op_f (st.func (2 * k + 1)) f) }

/-- One level `k` of the top-down push phase shared by `range_fold` and
`range_apply`: push the ancestor of `l` if `l` is not aligned at level
`k`, then likewise for the node just left of `r`. -/
def pushStep {σ φ : Type} (A : MonoidActionImpl σ φ) (l r k : Nat) (st : LazySegTree σ φ) :
    LazySegTree σ φ :=
  let st1 := if (l / 2 ^ k) * 2 ^ k ≠ l then LazySegTree.push A st (l / 2 ^ k) else st
  if (r / 2 ^ k) * 2 ^ k ≠ r then LazySegTree.push A st1 ((r - 1) / 2 ^ k) else st1

/-- The top-down push phase `for k in (1..=m.trailing_zeros()).rev()`:
`pushDownLoop A l r t` runs `pushStep` for levels `t, t-1, …, 1`. -/
def pushDownLoop {σ φ : Type} (A : MonoidActionImpl σ φ) (l r : Nat) :
    Nat → LazySegTree σ φ → LazySegTree σ φ
  | 0, st => st
  | k + 1, st => pushDownLoop A l r k (pushStep A l r (k + 1) st)

/-- The left-cursor body of the boundary-application loop of
`range_apply`: if the current `l` slot is a right child, apply `f` to its
aggregate and compose `f` into its pending operator. -/
def applyStepL {σ φ : Type} (A : MonoidActionImpl σ φ) (f : φ) (l : Nat)
    (st : LazySegTree σ φ) : LazySegTree σ φ :=
  if l % 2 = 1 then
    { st with data := upd st.data l (A.apply (st.data l) f),
              func := upd st.func l (A.op_f (st.func l) f) }
  else st

/-- The right-cursor body of the boundary-application loop of
`range_apply`: if the current `r` cursor is odd, apply `f` to the
aggregate one slot to its left and compose `f` into that slot's pending
operator. -/
def applyStepR {σ φ : Type} (A : MonoidActionImpl σ φ) (f : φ) (r : Nat)
    (st : LazySegTree σ φ) : LazySegTree σ φ :=
  if r % 2 = 1 then
    { st with data := upd st.data (r - 1) (A.apply (st.data (r - 1)) f),
              func := upd st.func (r - 1) (A.op_f (st.func (r - 1)) f) }
  else st

/-- The boundary-application loop of `range_apply`: at every level, if the
current `l` slot is a right child apply `f` to its aggregate and compose
`f` into its pending operator, symmetrically one slot left of `r`; then
move both cursors one level up.  Fuel `≥ r` is exact. -/
def applyLoop {σ φ : Type} (A : MonoidActionImpl σ φ) (f : φ) :
    Nat → Nat → Nat → LazySegTree σ φ → LazySegTree σ φ
  | 0, _, _, st => st
  | fuel + 1, l, r, st =>
    if l < r then
      applyLoop A f fuel
        ((if l % 2 = 1 then l + 1 else l) / 2)
        ((if r % 2 = 1 then r - 1 else r) / 2)
        (applyStepR A f r (applyStepL A f l st))
    else st

/-- The left half of one level of the bottom-up repair phase of
`range_apply`: if `l` is not aligned at level `k`, recompute the
aggregate of `l`'s level-`k` ancestor from its children. -/
def pullStepL {σ φ : Type} (A : MonoidActionImpl σ φ) (l k : Nat) (st : LazySegTree σ φ) :
    LazySegTree σ φ :=
  if (l / 2 ^ k) * 2 ^ k ≠ l then
    { st with data := upd st.data (l / 2 ^ k) (A.op_s (st.data (2 * (l / 2 ^ k))) (st.data (2 * (l / 2 ^ k) + 1))) }
  else st

/-- The right half of `pullStep`: recompute the aggregate of the level-`k`
ancestor of `r - 1` when `r` is not aligned at level `k`. -/
def pullStepR {σ φ : Type} (A : MonoidActionImpl σ φ) (r k : Nat) (st : LazySegTree σ φ) :
    LazySegTree σ φ :=
  if (r / 2 ^ k) * 2 ^ k ≠ r then
    { st with data := upd st.data ((r - 1) / 2 ^ k) (A.op_s (st.data (2 * ((r - 1) / 2 ^ k))) (st.data (2 * ((r - 1) / 2 ^ k) + 1))) }
  else st

/-- One level `k` of the bottom-up repair phase of `range_apply`: the
left-cursor recomputation followed by the right-cursor recomputation. -/
def pullStep {σ φ : Type} (A : MonoidActionImpl σ φ) (l r k : Nat) (st : LazySegTree σ φ) :
    LazySegTree σ φ :=
  pullStepR A r k (pullStepL A l k st)

/-- The bottom-up repair phase `for k in 1..=m.trailing_zeros()`:
`pullUpLoop A l r t` runs `pullStep` for levels `1, 2, …, t`. -/
def pullUpLoop {σ φ : Type} (A : MonoidActionImpl σ φ) (l r : Nat) :
    Nat → LazySegTree σ φ → LazySegTree σ φ
  | 0, st => st
  | k + 1, st => pullStep A l r (k + 1) (pullUpLoop A l r k st)

/-- `LazySegTree::range_fold(range)`: normalize and shift the bounds, run
the top-down push phase, then the two-accumulator boundary walk on the
value monoid.  Returns the fold value together with the mutated
structure. -/
def LazySegTree.range_fold {σ φ : Type} (A : MonoidActionImpl σ φ) (st : LazySegTree σ φ)
    (sb eb : RBound) : σ × LazySegTree σ φ :=
  let l := sb.startIndex + st.m
  let r := RBound.endIndex st.n eb + st.m
  let st1 := pushDownLoop A l r (ctz st.m st.m) st
  (foldLoop A.valueMonoid st1.data r l r A.identity_s A.identity_s, st1)

/-- `LazySegTree::range_apply(range, f)`: normalize and shift the bounds,
run the top-down push phase, apply `f` at every boundary node, then repair
the touched ancestors bottom-up. -/
def LazySegTree.range_apply {σ φ : Type} (A : MonoidActionImpl σ φ) (st : LazySegTree σ φ)
    (sb eb : RBound) (f : φ) : LazySegTree σ φ :=
  let l := sb.startIndex + st.m
  let r := RBound.endIndex st.n eb + st.m
  let st1 := pushDownLoop A l r (ctz st.m st.m) st
  let st2 := applyLoop A f r l r st1
  pullUpLoop A l r (ctz st.m st.m) st2

/-- `LazySegTree::range_fold` together with its two range guards
(`debug_assert!` on the shifted bounds). -/
def LazySegTree.range_foldChecked {σ φ : Type} (A : MonoidActionImpl σ φ)
    (st : LazySegTree σ φ) (sb eb : RBound) : Option (σ × LazySegTree σ φ) :=
  let l := sb.startIndex + st.m
  let r := RBound.endIndex st.n eb + st.m
  if l ≤ r ∧ r ≤ st.n + st.m then some (LazySegTree.range_fold A st sb eb) else none

/-- `LazySegTree::range_apply` together with its two range guards. -/
def LazySegTree.range_applyChecked {σ φ : Type} (A : MonoidActionImpl σ φ)
    (st : LazySegTree σ φ) (sb eb : RBound) (f : φ) : Option (LazySegTree σ φ) :=
  let l := sb.startIndex + st.m
  let r := RBound.endIndex st.n eb + st.m
  if l ≤ r ∧ r ≤ st.n + st.m then some (LazySegTree.range_apply A st sb eb f) else none

/-- The list of boundary nodes visited (and modified) by the
two-accumulator walk on `(l, r)`: the same recursion as `applyLoop` /
`foldLoop`, recording the touched slots instead of updating them. -/
def bnodes : Nat → Nat → Nat → List Nat
  | 0, _, _ => []
  | fuel + 1, l, r =>
    if l < r then
      (if l % 2 = 1 then [l] else []) ++ (if r % 2 = 1 then [r - 1] else []) ++
        bnodes fuel ((if l % 2 = 1 then l + 1 else l) / 2) ((if r % 2 = 1 then r - 1 else r) / 2)
    else []

/-- The left cursor of the boundary walk after `k` levels: `lsc l k` is
`⌈l / 2^k⌉` computed exactly as the loop does. -/
def lsc : Nat → Nat → Nat
  | l, 0 => l
  | l, k + 1 => lsc ((if l % 2 = 1 then l + 1 else l) / 2) k

/-- `chainApply A g t k x`: apply the pending operators `g k, g (k/2), …`
found on the ancestor path from node `k` to the root to the value `x`
(nearest ancestor first).  Fuel `≥ log2 k + 1` is exact. -/
def chainApply {σ φ : Type} (A : MonoidActionImpl σ φ) (g : Nat → φ) : Nat → Nat → σ → σ
  | 0, _, x => x
  | t + 1, k, x => if k = 0 then x else chainApply A g t (k / 2) (A.apply x (g k))

/-- The abstract value of leaf slot `p`: its raw aggregate with every
ancestor's pending operator applied, nearest ancestor first.  This is the
sequence element the lazy structure conceptually stores at position
`p - m`. -/
def absLeaf {σ φ : Type} (A : MonoidActionImpl σ φ) (st : LazySegTree σ φ) (p : Nat) : σ :=
  chainApply A st.func st.m (p / 2) (st.data p)

/-- The internal-node invariant of the lazy structure: an internal node's
aggregate is its children's combined aggregates with its own pending
operator already applied on top. -/
def LazyInv {σ φ : Type} (A : MonoidActionImpl σ φ) (m : Nat) (d : Nat → σ) (g : Nat → φ) :
    Prop :=
  ∀ k : Nat, 1 ≤ k → k < m → d k = A.apply (A.op_s (d (2 * k)) (d (2 * k + 1))) (g k)

/-- Well-formedness of a lazy tree state: power-of-two capacity at least
the length, plus the internal-node invariant. -/
def LazyOk {σ φ : Type} (A : MonoidActionImpl σ φ) (st : LazySegTree σ φ) : Prop :=
  (∃ L : Nat, st.m = 2 ^ L) ∧ st.n ≤ st.m ∧ LazyInv A st.m st.data st.func

/-- The naive `O(n)` reference update: apply `f` element-wise to every
position of `[l, r)`. -/
def naiveApply {σ φ : Type} (A : MonoidActionImpl σ φ) (a : Nat → σ) (l r : Nat) (f : φ) :
    Nat → σ :=
  fun i => if l ≤ i ∧ i < r then A.apply (a i) f else a i

/-- Run a list of `range_apply` operations `(l, r, f)` on the lazy tree. -/
def applyOpsTree {σ φ : Type} (A : MonoidActionImpl σ φ) :
    List (Nat × Nat × φ) → LazySegTree σ φ → LazySegTree σ φ
  | [], st => st
  | (l, r, f) :: ops, st =>
    applyOpsTree A ops (LazySegTree.range_apply A st (.included l) (.excluded r) f)

/-- Run the same list of operations on the naive reference array. -/
def applyOpsNaive {σ φ : Type} (A : MonoidActionImpl σ φ) :
    List (Nat × Nat × φ) → (Nat → σ) → (Nat → σ)
  | [], a => a
  | (l, r, f) :: ops, a => applyOpsNaive A ops (naiveApply A a l r f)

/-- Every operation of a list is a valid range of a length-`n` sequence. -/
def opsValid {φ : Type} (n : Nat) (ops : List (Nat × Nat × φ)) : Prop :=
  ∀ o ∈ ops, o.1 ≤ o.2.1 ∧ o.2.1 ≤ n

/-- Two lazy states that agree everywhere except possibly on the pending
operators of leaf slots (slots `≥ m`): the relation used to show that
leaf pending entries are never read. -/
def AgreeBelow {σ φ : Type} (m : Nat) (st1 st2 : LazySegTree σ φ) : Prop :=
  st1.n = st2.n ∧ st1.m = m ∧ st2.m = m ∧ (∀ j, st1.data j = st2.data j) ∧
    ∀ j, j < m → st1.func j = st2.func j

/-- The `(Nat, max, 0)` monoid: a concrete conforming monoid used to
instantiate theorems. -/
def natMaxMonoid : MonoidImpl Nat :=
  { identity := 0, op := fun a b => max a b }

/-- The `(Nat, +, 0)` monoid. -/
def natAddMonoid : MonoidImpl Nat :=
  { identity := 0, op := fun a b => a + b }

/-- List concatenation on `List Nat`: a concrete non-commutative
monoid. -/
def listCatMonoid : MonoidImpl (List Nat) :=
  { identity := [], op := fun a b => a ++ b }

/-- A concrete conforming monoid action: values under `max`, operators
under `+`, an operator `f` acting by adding `f`.  `max (a + f) (b + f) =
max a b + f`, so the homomorphism law holds. -/
def maxAddAction : MonoidActionImpl Nat Nat :=
  { identity_s := 0, identity_f := 0,
    op_s := fun a b => max a b, op_f := fun f g => f + g,
    apply := fun x f => x + f }

/-- Arithmetic characterization of the boundary nodes visited by the
two-accumulator walk on the half-open tree-space range `[l, r)`: at level
`k` the walk folds the left cursor `lsc l k` when it is odd and the slot
left of the right cursor `r / 2^k` when that cursor is odd. -/
def BChar (l r b k : Nat) : Prop :=
  lsc l k < r / 2 ^ k ∧
    ((b = lsc l k ∧ b % 2 = 1) ∨ (b = r / 2 ^ k - 1 ∧ (r / 2 ^ k) % 2 = 1))

/-- Arithmetic characterization of the ancestors pushed by the top-down
phase and recomputed by the bottom-up phase of `range_apply`: the level-`k`
ancestors of `l` and of `r - 1` at unaligned levels `1 ≤ k ≤ t`. -/
def WChar (l r t j : Nat) : Prop :=
  ∃ k : Nat, 1 ≤ k ∧ k ≤ t ∧
    ((j = l / 2 ^ k ∧ l % 2 ^ k ≠ 0) ∨ (j = (r - 1) / 2 ^ k ∧ r % 2 ^ k ≠ 0))

theorem upd_same {α : Type} (f : Nat → α) (i : Nat) (v : α) : upd f i v i = v := by
  simp [upd]

theorem upd_ne {α : Type} (f : Nat → α) (i : Nat) (v : α) (j : Nat) (h : j ≠ i) :
    upd f i v j = f j := by
  simp [upd, h]

theorem foldRangeAux_congr {α : Type} (M : MonoidImpl α) (v w : Nat → α) :
    ∀ (t i : Nat), (∀ j, i ≤ j → j < i + t → v j = w j) →
      foldRangeAux M v t i = foldRangeAux M w t i := by
  intro t
  induction t with
  | zero => intro i _; rfl
  | succ t ih =>
    intro i h
    simp only [foldRangeAux]
    rw [h i (le_refl i) (by omega), ih (i + 1) (fun j h1 h2 => h j (by omega) (by omega))]

theorem foldRange_congr {α : Type} (M : MonoidImpl α) (v w : Nat → α) (lo hi : Nat)
    (h : ∀ j, lo ≤ j → j < hi → v j = w j) : foldRange M v lo hi = foldRange M w lo hi := by
  unfold foldRange
  exact foldRangeAux_congr M v w (hi - lo) lo (fun j h1 h2 => h j h1 (by omega))

theorem foldRange_empty {α : Type} (M : MonoidImpl α) (v : Nat → α) (lo hi : Nat)
    (h : hi ≤ lo) : foldRange M v lo hi = M.identity := by
  unfold foldRange
  rw [Nat.sub_eq_zero_of_le h]
  rfl

theorem foldRange_succ_left {α : Type} (M : MonoidImpl α) (v : Nat → α) (lo hi : Nat)
    (h : lo < hi) : foldRange M v lo hi = M.op (v lo) (foldRange M v (lo + 1) hi) := by
  unfold foldRange
  have e : hi - lo = (hi - (lo + 1)) + 1 := by omega
  rw [e]
  rfl

theorem foldRange_split_aux {α : Type} {M : MonoidImpl α} (hM : IsMonoid M) (v : Nat → α) :
    ∀ (t lo mid hi : Nat), mid = lo + t → mid ≤ hi →
      foldRange M v lo hi = M.op (foldRange M v lo mid) (foldRange M v mid hi) := by
  intro t
  induction t with
  | zero =>
    intro lo mid hi h1 _
    have e : mid = lo := by omega
    subst e
    rw [foldRange_empty M v mid mid (le_refl mid), hM.id_op]
  | succ t ih =>
    intro lo mid hi h1 h2
    have hlm : lo < mid := by omega
    have hlh : lo < hi := by omega
    rw [foldRange_succ_left M v lo hi hlh, ih (lo + 1) mid hi (by omega) h2,
      ← hM.assoc, ← foldRange_succ_left M v lo mid hlm]

theorem foldRange_split {α : Type} {M : MonoidImpl α} (hM : IsMonoid M) (v : Nat → α)
    (lo mid hi : Nat) (h1 : lo ≤ mid) (h2 : mid ≤ hi) :
    foldRange M v lo hi = M.op (foldRange M v lo mid) (foldRange M v mid hi) :=
  foldRange_split_aux hM v (mid - lo) lo mid hi (by omega) h2

theorem foldRange_single {α : Type} {M : MonoidImpl α} (hM : IsMonoid M) (v : Nat → α)
    (lo : Nat) : foldRange M v lo (lo + 1) = v lo := by
  rw [foldRange_succ_left M v lo (lo + 1) (by omega),
    foldRange_empty M v (lo + 1) (lo + 1) (le_refl _), hM.op_id]

theorem foldRangeAux_id {α : Type} {M : MonoidImpl α} (hM : IsMonoid M) :
    ∀ (t lo : Nat), foldRangeAux M (fun _ => M.identity) t lo = M.identity := by
  intro t
  induction t with
  | zero => intro lo; rfl
  | succ t ih => intro lo; simp only [foldRangeAux]; rw [ih (lo + 1), hM.op_id]

theorem foldRange_all_id {α : Type} {M : MonoidImpl α} (hM : IsMonoid M) (v : Nat → α)
    (lo hi : Nat) (h : ∀ j, lo ≤ j → j < hi → v j = M.identity) :
    foldRange M v lo hi = M.identity := by
  rw [foldRange_congr M v (fun _ => M.identity) lo hi h]
  exact foldRangeAux_id hM (hi - lo) lo

theorem foldRangeAux_shift {α : Type} (M : MonoidImpl α) (v : Nat → α) (c : Nat) :
    ∀ (t lo : Nat), foldRangeAux M v t (lo + c) = foldRangeAux M (fun i => v (i + c)) t lo := by
  intro t
  induction t with
  | zero => intro lo; rfl
  | succ t ih =>
    intro lo
    simp only [foldRangeAux]
    rw [show lo + c + 1 = (lo + 1) + c by omega, ih (lo + 1)]

theorem foldRange_shift {α : Type} (M : MonoidImpl α) (v : Nat → α) (c : Nat) (lo hi : Nat) :
    foldRange M v (lo + c) (hi + c) = foldRange M (fun i => v (i + c)) lo hi := by
  unfold foldRange
  have e : hi + c - (lo + c) = hi - lo := by omega
  rw [e]
  exact foldRangeAux_shift M v c (hi - lo) lo

theorem npotExp_ge : ∀ (fuel n : Nat), n ≤ fuel → n ≤ 2 ^ npotExp fuel n := by
  intro fuel
  induction fuel with
  | zero => intro n h; simp only [npotExp]; omega
  | succ fuel ih =>
    intro n h
    by_cases h1 : n ≤ 1
    · simp only [npotExp, if_pos h1]
      omega
    · simp only [npotExp, if_neg h1]
      have hrec := ih ((n + 1) / 2) (by omega)
      have ep : (2:Nat) ^ (npotExp fuel ((n + 1) / 2) + 1) =
          2 * 2 ^ npotExp fuel ((n + 1) / 2) := by rw [pow_succ]; ring
      omega

theorem npot_ge (n : Nat) : n ≤ nextPowerOfTwo n := npotExp_ge n n (le_refl n)

theorem npot_pos (n : Nat) : 1 ≤ nextPowerOfTwo n := Nat.one_le_two_pow

theorem npot_pow2 (n : Nat) : ∃ L : Nat, nextPowerOfTwo n = 2 ^ L := ⟨npotExp n n, rfl⟩

theorem ctz_two_pow : ∀ (L fuel : Nat), 2 ^ L ≤ fuel → ctz fuel (2 ^ L) = L := by
  intro L
  induction L with
  | zero =>
    intro fuel h
    match fuel, h with
    | fuel + 1, _ => simp [ctz]
  | succ L ih =>
    intro fuel h
    have h2 : 2 ^ L + 1 ≤ fuel := by
      have := Nat.one_le_two_pow (n := L)
      calc 2 ^ L + 1 ≤ 2 ^ L + 2 ^ L := by omega
      _ = 2 ^ (L + 1) := by rw [pow_succ]; omega
      _ ≤ fuel := h
    match fuel, h2 with
    | fuel + 1, _ =>
      have hcond : 2 ^ (L + 1) % 2 = 0 ∧ 2 ^ (L + 1) ≠ 0 := by
        have hpos : 0 < 2 ^ (L + 1) := Nat.pos_pow_of_pos _ (by omega)
        constructor
        · rw [pow_succ]; omega
        · omega
      simp only [ctz, if_pos hcond]
      have e : 2 ^ (L + 1) / 2 = 2 ^ L := by rw [pow_succ]; omega
      rw [e, ih fuel (by omega)]

theorem buildLoop_high {α : Type} (M : MonoidImpl α) :
    ∀ (i : Nat) (d : Nat → α) (k : Nat), i < k → buildLoop M i d k = d k := by
  intro i
  induction i with
  | zero => intro d k _; rfl
  | succ i ih =>
    intro d k h
    simp only [buildLoop]
    rw [ih _ k (by omega), upd_ne _ _ _ _ (by omega)]

theorem buildLoop_node {α : Type} (M : MonoidImpl α) :
    ∀ (i : Nat) (d : Nat → α) (k : Nat), 1 ≤ k → k ≤ i →
      buildLoop M i d k = M.op (buildLoop M i d (2 * k)) (buildLoop M i d (2 * k + 1)) := by
  intro i
  induction i with
  | zero => intro d k h1 h2; omega
  | succ i ih =>
    intro d k h1 h2
    by_cases hk : k ≤ i
    · simp only [buildLoop]
      exact ih _ k h1 hk
    · have hk2 : k = i + 1 := by omega
      subst hk2
      simp only [buildLoop]
      rw [buildLoop_high M i _ (i + 1) (by omega), buildLoop_high M i _ (2 * (i + 1)) (by omega),
        buildLoop_high M i _ (2 * (i + 1) + 1) (by omega), upd_same,
        upd_ne _ _ _ _ (show 2 * (i + 1) ≠ i + 1 by omega),
        upd_ne _ _ _ _ (show 2 * (i + 1) + 1 ≠ i + 1 by omega)]

theorem pullLoop_high {α : Type} (M : MonoidImpl α) :
    ∀ (fuel i : Nat) (d : Nat → α) (j : Nat), i < j → pullLoop M fuel i d j = d j := by
  intro fuel
  induction fuel with
  | zero => intro i d j _; rfl
  | succ fuel ih =>
    intro i d j h
    simp only [pullLoop]
    by_cases hi : i = 0
    · simp [hi]
    · simp only [if_neg hi]
      rw [ih (i / 2) _ j (by omega), upd_ne _ _ _ _ (by omega)]

theorem pullLoop_inv {α : Type} (M : MonoidImpl α) (m : Nat) :
    ∀ (fuel i : Nat) (d : Nat → α), i < 2 ^ fuel →
      (∀ k, 1 ≤ k → k < m → (∀ e : Nat, k ≠ i / 2 ^ e) →
        d k = M.op (d (2 * k)) (d (2 * k + 1))) →
      SegInv M m (pullLoop M fuel i d) := by
  intro fuel
  induction fuel with
  | zero =>
    intro i d hi hd
    have hi0 : i = 0 := by simpa using hi
    subst hi0
    intro k h1 h2
    exact hd k h1 h2 (fun e => by rw [Nat.zero_div]; omega)
  | succ fuel ih =>
    intro i d hi hd
    simp only [pullLoop]
    by_cases hzero : i = 0
    · subst hzero
      simp only [if_pos rfl]
      intro k h1 h2
      exact hd k h1 h2 (fun e => by rw [Nat.zero_div]; omega)
    · simp only [if_neg hzero]
      have hdivpow : ∀ e : Nat, i / 2 / 2 ^ e = i / 2 ^ (e + 1) := by
        intro e
        rw [Nat.div_div_eq_div_mul, pow_succ, mul_comm (2 ^ e) 2]
      apply ih (i / 2) _ (by rw [pow_succ] at hi; omega)
      intro k h1 h2 hchain
      by_cases hk : k = i
      · subst hk
        rw [upd_same]
        rw [upd_ne _ _ _ _ (show 2 * k ≠ k by omega)]
        rw [upd_ne _ _ _ _ (show 2 * k + 1 ≠ k by omega)]
      · have hchain2 : ∀ e : Nat, k ≠ i / 2 ^ e := by
          intro e
          cases e with
          | zero => simpa using hk
          | succ e =>
            have := hchain e
            rw [hdivpow e] at this
            exact this
        have hk2 : k ≠ i / 2 := by
          have := hchain 0
          simpa using this
        have base := hd k h1 h2 hchain2
        rw [upd_ne _ _ _ _ hk, upd_ne _ _ _ _ (by omega), upd_ne _ _ _ _ (by omega)]
        exact base

theorem SegOk_new {α : Type} {M : MonoidImpl α} (hM : IsMonoid M) (n : Nat) :
    SegOk M (SegTree.new M n) := by
  refine ⟨npot_pos n, npot_ge n, ?_, ?_⟩
  · intro k _ _
    exact (hM.op_id M.identity).symm
  · intro j _ _
    rfl

theorem from_vec_data {α : Type} (M : MonoidImpl α) (a : List α) :
    (SegTree.from_vec M a).data = buildLoop M (nextPowerOfTwo a.length - 1)
      (fun k => if nextPowerOfTwo a.length ≤ k ∧ k < nextPowerOfTwo a.length + a.length
        then a.getD (k - nextPowerOfTwo a.length) M.identity else M.identity) := rfl

theorem from_vec_leaf {α : Type} (M : MonoidImpl α) (a : List α) (k : Nat)
    (hk : nextPowerOfTwo a.length ≤ k) :
    (SegTree.from_vec M a).data k =
      if k < nextPowerOfTwo a.length + a.length
        then a.getD (k - nextPowerOfTwo a.length) M.identity else M.identity := by
  rw [from_vec_data, buildLoop_high M _ _ k (by have := npot_pos a.length; omega)]
  by_cases h2 : k < nextPowerOfTwo a.length + a.length <;> simp [hk, h2]

theorem SegOk_from_vec {α : Type} {M : MonoidImpl α} (hM : IsMonoid M) (a : List α) :
    SegOk M (SegTree.from_vec M a) := by
  have em : (SegTree.from_vec M a).m = nextPowerOfTwo a.length := rfl
  have en : (SegTree.from_vec M a).n = a.length := rfl
  refine ⟨npot_pos a.length, npot_ge a.length, ?_, ?_⟩
  · intro k h1 h2
    rw [em] at h2
    exact buildLoop_node M (nextPowerOfTwo a.length - 1) _ k h1 (by omega)
  · intro j hj1 hj2
    rw [em, en] at hj1
    rw [from_vec_leaf M a j (by omega)]
    rw [if_neg (by omega)]

theorem SegOk_set {α : Type} {M : MonoidImpl α} (hM : IsMonoid M) (st : SegTree α)
    (hok : SegOk M st) (i : Nat) (x : α) (hi : i < st.n) : SegOk M (SegTree.set M st i x) := by
  obtain ⟨hm, hnm, hinv, hpad⟩ := hok
  refine ⟨hm, hnm, ?_, ?_⟩
  · apply pullLoop_inv M st.m st.m ((i + st.m) / 2) _
    · have h1 : (i + st.m) / 2 < st.m := by omega
      have h2 : st.m < 2 ^ st.m := Nat.lt_two_pow st.m
      omega
    · intro k h1 h2 hchain
      have hkne : k ≠ i + st.m := by omega
      have hc0 := hchain 0
      simp only [pow_zero, Nat.div_one] at hc0
      have h2k : 2 * k ≠ i + st.m := by omega
      have h2k1 : 2 * k + 1 ≠ i + st.m := by omega
      rw [upd_ne _ _ _ _ hkne, upd_ne _ _ _ _ h2k, upd_ne _ _ _ _ h2k1]
      exact hinv k h1 h2
  · intro j hj1 hj2
    simp only [SegTree.set] at hj1 hj2 ⊢
    rw [pullLoop_high M st.m _ _ j (by omega), upd_ne _ _ _ _ (by omega)]
    exact hpad j hj1 hj2

theorem get_set_same {α : Type} (M : MonoidImpl α) (st : SegTree α) (i : Nat) (x : α)
    (hm : 1 ≤ st.m) : SegTree.get (SegTree.set M st i x) i = x := by
  simp only [SegTree.get, SegTree.set]
  rw [pullLoop_high M st.m _ _ (i + st.m) (by omega), upd_same]

theorem get_set_ne {α : Type} (M : MonoidImpl α) (st : SegTree α) (i j : Nat) (x : α)
    (hi : i < st.n) (hnm : st.n ≤ st.m) (hne : j ≠ i) :
    SegTree.get (SegTree.set M st i x) j = SegTree.get st j := by
  simp only [SegTree.get, SegTree.set]
  rw [pullLoop_high M st.m _ _ (j + st.m) (by omega), upd_ne _ _ _ _ (by omega)]

theorem lsc_zero (l : Nat) : lsc l 0 = l := rfl

theorem lsc_succ (l k : Nat) : lsc l (k + 1) = lsc ((if l % 2 = 1 then l + 1 else l) / 2) k := rfl

theorem lsc_bounds : ∀ (k l : Nat), l ≤ lsc l k * 2 ^ k ∧ lsc l k * 2 ^ k < l + 2 ^ k := by
  intro k
  induction k with
  | zero => intro l; rw [lsc_zero]; simp
  | succ k ih =>
    intro l
    obtain ⟨ih1, ih2⟩ := ih ((if l % 2 = 1 then l + 1 else l) / 2)
    have e : 2 * ((if l % 2 = 1 then l + 1 else l) / 2) = l + l % 2 := by
      by_cases hp : l % 2 = 1
      · simp only [if_pos hp]; omega
      · simp only [if_neg hp]; omega
    have e2 : lsc l (k + 1) * 2 ^ (k + 1) =
        lsc ((if l % 2 = 1 then l + 1 else l) / 2) k * 2 ^ k * 2 := by
      rw [lsc_succ, pow_succ, ← mul_assoc]
    have ep : (2:Nat) ^ (k + 1) = 2 * 2 ^ k := by rw [pow_succ]; ring
    rw [e2]
    omega

theorem nodeFold {α : Type} {M : MonoidImpl α} (hM : IsMonoid M) (m : Nat) (d : Nat → α)
    (hinv : SegInv M m d) (hm : 1 ≤ m) :
    ∀ (h b : Nat), m ≤ b * 2 ^ h → (b + 1) * 2 ^ h ≤ 2 * m →
      d b = foldRange M d (b * 2 ^ h) ((b + 1) * 2 ^ h) := by
  intro h
  induction h with
  | zero =>
    intro b h1 h2
    simp only [pow_zero, mul_one]
    exact (foldRange_single hM d b).symm
  | succ h ih =>
    intro b h1 h2
    have ep : (2:Nat) ^ (h + 1) = 2 * 2 ^ h := by rw [pow_succ]; ring
    have hp : 1 ≤ 2 ^ h := Nat.one_le_two_pow
    have e1 : b * 2 ^ (h + 1) = 2 * b * 2 ^ h := by rw [ep]; ring
    have e2 : (b + 1) * 2 ^ (h + 1) = (2 * b + 1 + 1) * 2 ^ h := by rw [ep]; ring
    have hb1 : 1 ≤ b := by
      rcases Nat.eq_zero_or_pos b with hb | hb
      · subst hb; simp at h1; omega
      · exact hb
    have hbm : b < m := by
      by_contra hge
      push_neg at hge
      have c1 : (m + 1) * 2 ^ (h + 1) ≤ (b + 1) * 2 ^ (h + 1) :=
        Nat.mul_le_mul_right _ (by omega)
      have c2 : (m + 1) * 2 ^ (h + 1) = 2 * m * 2 ^ h + 2 * 2 ^ h := by rw [ep]; ring
      have c3 : 2 * m < 2 * m * 2 ^ h + 2 * 2 ^ h := by nlinarith
      omega
    have hinvb := hinv b hb1 hbm
    have ihl := ih (2 * b) (by rw [e1] at h1; exact h1)
      (by
        have : (2 * b + 1) * 2 ^ h ≤ (2 * b + 1 + 1) * 2 ^ h := Nat.mul_le_mul_right _ (by omega)
        rw [e2] at h2; omega)
    have ihr := ih (2 * b + 1)
      (by
        have : 2 * b * 2 ^ h ≤ (2 * b + 1) * 2 ^ h := Nat.mul_le_mul_right _ (by omega)
        rw [e1] at h1; omega)
      (by rw [e2] at h2; exact h2)
    rw [hinvb, ihl, ihr, e1, e2]
    exact (foldRange_split hM d (2 * b * 2 ^ h) ((2 * b + 1) * 2 ^ h) ((2 * b + 1 + 1) * 2 ^ h)
      (Nat.mul_le_mul_right _ (by omega)) (Nat.mul_le_mul_right _ (by omega))).symm

theorem foldLoop_eq {α : Type} {M : MonoidImpl α} (hM : IsMonoid M) (d v : Nat → α) :
    ∀ (fuel h l r : Nat) (accl accr : α), r ≤ fuel → l ≤ r →
      (∀ k b : Nat, lsc l k < r / 2 ^ k →
        ((b = lsc l k ∧ b % 2 = 1) ∨ (b = r / 2 ^ k - 1 ∧ (r / 2 ^ k) % 2 = 1)) →
        d b = foldRange M v (b * 2 ^ (h + k)) ((b + 1) * 2 ^ (h + k))) →
      foldLoop M d fuel l r accl accr =
        M.op accl (M.op (foldRange M v (l * 2 ^ h) (r * 2 ^ h)) accr) := by
  intro fuel
  induction fuel with
  | zero =>
    intro h l r accl accr hfuel hlr _
    have hr0 : r = 0 := by omega
    have hl0 : l = 0 := by omega
    subst hr0; subst hl0
    simp only [foldLoop]
    rw [foldRange_empty M v _ _ (le_refl _), hM.id_op]
  | succ fuel ih =>
    intro h l r accl accr hfuel hlr hd
    by_cases hlt : l < r
    · simp only [foldLoop, if_pos hlt]
      have ep : (2:Nat) ^ (h + 1) = 2 * 2 ^ h := by rw [pow_succ]; ring
      have hrhalf : (if r % 2 = 1 then r - 1 else r) / 2 = r / 2 := by
        by_cases hp : r % 2 = 1
        · simp only [if_pos hp]; omega
        · simp only [if_neg hp]
      have el2 : 2 * ((if l % 2 = 1 then l + 1 else l) / 2) = l + l % 2 := by
        by_cases hp : l % 2 = 1
        · simp only [if_pos hp]; omega
        · simp only [if_neg hp]; omega
      have er2 : 2 * ((if r % 2 = 1 then r - 1 else r) / 2) = r - r % 2 := by
        by_cases hp : r % 2 = 1
        · simp only [if_pos hp]; omega
        · simp only [if_neg hp]; omega
      have hfuel2 : (if r % 2 = 1 then r - 1 else r) / 2 ≤ fuel := by rw [hrhalf]; omega
      have hlr2 : (if l % 2 = 1 then l + 1 else l) / 2 ≤ (if r % 2 = 1 then r - 1 else r) / 2 := by
        rw [hrhalf]; omega
      have hd2 : ∀ k b : Nat,
          lsc ((if l % 2 = 1 then l + 1 else l) / 2) k <
            (if r % 2 = 1 then r - 1 else r) / 2 / 2 ^ k →
          ((b = lsc ((if l % 2 = 1 then l + 1 else l) / 2) k ∧ b % 2 = 1) ∨
            (b = (if r % 2 = 1 then r - 1 else r) / 2 / 2 ^ k - 1 ∧
              ((if r % 2 = 1 then r - 1 else r) / 2 / 2 ^ k) % 2 = 1)) →
          d b = foldRange M v (b * 2 ^ (h + 1 + k)) ((b + 1) * 2 ^ (h + 1 + k)) := by
        intro k b hk hb
        have edd : (if r % 2 = 1 then r - 1 else r) / 2 / 2 ^ k = r / 2 ^ (k + 1) := by
          rw [hrhalf, Nat.div_div_eq_div_mul, pow_succ, mul_comm (2 ^ k) 2]
        rw [edd] at hk hb
        rw [← lsc_succ] at hk hb
        have eexp : h + 1 + k = h + (k + 1) := by omega
        rw [eexp]
        exact hd (k + 1) b hk hb
      rw [ih (h + 1) _ _ _ _ hfuel2 hlr2 hd2]
      have eL : (if l % 2 = 1 then l + 1 else l) / 2 * 2 ^ (h + 1) = (l + l % 2) * 2 ^ h := by
        rw [ep, ← mul_assoc, mul_comm ((if l % 2 = 1 then l + 1 else l) / 2) 2, el2]
      have eR : (if r % 2 = 1 then r - 1 else r) / 2 * 2 ^ (h + 1) = (r - r % 2) * 2 ^ h := by
        rw [ep, ← mul_assoc, mul_comm ((if r % 2 = 1 then r - 1 else r) / 2) 2, er2]
      rw [eL, eR]
      have hdl : l % 2 = 1 → d l = foldRange M v (l * 2 ^ h) ((l + 1) * 2 ^ h) := by
        intro hp
        have hh := hd 0 l (by rw [lsc_zero, pow_zero, Nat.div_one]; exact hlt)
          (Or.inl ⟨rfl, hp⟩)
        simpa using hh
      have hdr : r % 2 = 1 → d (r - 1) = foldRange M v ((r - 1) * 2 ^ h) (r * 2 ^ h) := by
        intro hp
        have hh := hd 0 (r - 1) (by rw [lsc_zero, pow_zero, Nat.div_one]; exact hlt)
          (Or.inr ⟨by rw [pow_zero, Nat.div_one], by rw [pow_zero, Nat.div_one]; exact hp⟩)
        have er : r - 1 + 1 = r := by omega
        rw [er] at hh
        simpa using hh
      by_cases hl2 : l % 2 = 1 <;> by_cases hr2 : r % 2 = 1
      · simp only [if_pos hl2, if_pos hr2]
        rw [hl2, hr2, hdl hl2, hdr hr2]
        rw [foldRange_split hM v (l * 2 ^ h) ((l + 1) * 2 ^ h) (r * 2 ^ h)
          (Nat.mul_le_mul_right _ (by omega)) (Nat.mul_le_mul_right _ (by omega))]
        rw [foldRange_split hM v ((l + 1) * 2 ^ h) ((r - 1) * 2 ^ h) (r * 2 ^ h)
          (Nat.mul_le_mul_right _ (by omega)) (Nat.mul_le_mul_right _ (by omega))]
        simp only [hM.assoc]
      · simp only [if_pos hl2, if_neg hr2]
        have hr0 : r % 2 = 0 := by omega
        rw [hl2, hr0, Nat.sub_zero, hdl hl2]
        rw [foldRange_split hM v (l * 2 ^ h) ((l + 1) * 2 ^ h) (r * 2 ^ h)
          (Nat.mul_le_mul_right _ (by omega)) (Nat.mul_le_mul_right _ (by omega))]
        simp only [hM.assoc]
      · simp only [if_neg hl2, if_pos hr2]
        have hl0 : l % 2 = 0 := by omega
        rw [hl0, add_zero, hr2, hdr hr2]
        rw [foldRange_split hM v (l * 2 ^ h) ((r - 1) * 2 ^ h) (r * 2 ^ h)
          (Nat.mul_le_mul_right _ (by omega)) (Nat.mul_le_mul_right _ (by omega))]
        simp only [hM.assoc]
      · simp only [if_neg hl2, if_neg hr2]
        have hl0 : l % 2 = 0 := by omega
        have hr0 : r % 2 = 0 := by omega
        rw [hl0, add_zero, hr0, Nat.sub_zero]
    · have heq : l = r := by omega
      subst heq
      simp only [foldLoop, if_neg (lt_irrefl l)]
      rw [foldRange_empty M v _ _ (le_refl _), hM.id_op]

theorem segtree_foldLoop_spec {α : Type} {M : MonoidImpl α} (hM : IsMonoid M) (st : SegTree α)
    (hok : SegOk M st) (l r : Nat) (h1 : l ≤ r) (h2 : r ≤ st.n) :
    foldLoop M st.data (r + st.m) (l + st.m) (r + st.m) M.identity M.identity =
      foldRange M (fun i => st.data (i + st.m)) l r := by
  obtain ⟨hm, hnm, hinv, _⟩ := hok
  have hmain := foldLoop_eq hM st.data st.data (r + st.m) 0 (l + st.m) (r + st.m)
    M.identity M.identity (le_refl _) (by omega) ?_
  · rw [hmain, hM.id_op]
    have e0 : (2:Nat) ^ 0 = 1 := pow_zero 2
    rw [e0, mul_one, mul_one, hM.op_id]
    rw [foldRange_shift M st.data st.m l r]
  · intro k b hk hb
    have hlb := lsc_bounds k (l + st.m)
    have hdm : (r + st.m) / 2 ^ k * 2 ^ k ≤ r + st.m := Nat.div_mul_le_self _ _
    have hpow : 1 ≤ 2 ^ k := Nat.one_le_two_pow
    have ez : 0 + k = k := by omega
    rw [ez]
    rcases hb with ⟨hbe, _⟩ | ⟨hbe, _⟩
    · subst hbe
      apply nodeFold hM st.m st.data hinv hm k _ (by omega) ?_
      have hb1 : lsc (l + st.m) k + 1 ≤ (r + st.m) / 2 ^ k := by omega
      have := Nat.mul_le_mul_right (2 ^ k) hb1
      omega
    · subst hbe
      have hq1 : 1 ≤ (r + st.m) / 2 ^ k := by omega
      have hbq : (r + st.m) / 2 ^ k - 1 + 1 = (r + st.m) / 2 ^ k := by omega
      apply nodeFold hM st.m st.data hinv hm k _ ?_ ?_
      · have hle : lsc (l + st.m) k ≤ (r + st.m) / 2 ^ k - 1 := by omega
        have := Nat.mul_le_mul_right (2 ^ k) hle
        omega
      · rw [hbq]
        omega

theorem range_fold_spec {α : Type} {M : MonoidImpl α} (hM : IsMonoid M) (st : SegTree α)
    (hok : SegOk M st) (sb eb : RBound)
    (h1 : sb.startIndex ≤ RBound.endIndex st.n eb) (h2 : RBound.endIndex st.n eb ≤ st.n) :
    SegTree.range_fold M st sb eb =
      foldRange M (fun i => st.data (i + st.m)) sb.startIndex (RBound.endIndex st.n eb) := by
  show foldLoop M st.data (RBound.endIndex st.n eb + st.m) (sb.startIndex + st.m)
    (RBound.endIndex st.n eb + st.m) M.identity M.identity = _
  exact segtree_foldLoop_spec hM st hok sb.startIndex (RBound.endIndex st.n eb) h1 h2

theorem natAddMonoid_is : IsMonoid natAddMonoid :=
  ⟨fun a b c => Nat.add_assoc a b c, fun a => Nat.zero_add a, fun a => Nat.add_zero a⟩

theorem natMaxMonoid_is : IsMonoid natMaxMonoid :=
  ⟨fun a b c => Nat.max_assoc a b c, fun a => Nat.zero_max a, fun a => Nat.max_zero a⟩

theorem listCatMonoid_is : IsMonoid listCatMonoid :=
  ⟨fun a b c => List.append_assoc a b c, fun a => List.nil_append a, fun a => List.append_nil a⟩

theorem maxAddAction_is : IsAction maxAddAction := by
  refine ⟨fun a b c => Nat.max_assoc a b c, fun a => Nat.zero_max a, fun a => Nat.max_zero a,
    fun x => Nat.add_zero x, fun x f g => (Nat.add_assoc x f g).symm, fun a b f => ?_⟩
  show max a b + f = max (a + f) (b + f)
  omega

/-- C2: for a well-formed tree over a conforming monoid and any of the
standard interval forms whose normalization `[l, r)` satisfies
`l ≤ r ≤ n`, `range_fold` returns the left-to-right fold
`op(a[l], …, a[r-1])` of the managed sequence `a i = data[i + m]`. -/
theorem claim_C2 {α : Type} {M : MonoidImpl α} (hM : IsMonoid M) (st : SegTree α)
    (hok : SegOk M st) (sb eb : RBound)
    (h1 : sb.startIndex ≤ RBound.endIndex st.n eb) (h2 : RBound.endIndex st.n eb ≤ st.n) :
    SegTree.range_fold M st sb eb =
      foldRange M (fun i => st.data (i + st.m)) sb.startIndex (RBound.endIndex st.n eb) :=
  range_fold_spec hM st hok sb eb h1 h2

theorem claim_C2_witness :
    IsMonoid listCatMonoid ∧
    SegOk listCatMonoid (SegTree.from_vec listCatMonoid [[0], [1], [2]]) ∧
    SegTree.range_fold listCatMonoid (SegTree.from_vec listCatMonoid [[0], [1], [2]])
      RBound.unbounded RBound.unbounded = [0, 1, 2] := by
  refine ⟨listCatMonoid_is, SegOk_from_vec listCatMonoid_is _, ?_⟩
  have h := claim_C2 listCatMonoid_is (SegTree.from_vec listCatMonoid [[0], [1], [2]])
    (SegOk_from_vec listCatMonoid_is _) RBound.unbounded RBound.unbounded
    (by decide) (by decide)
  exact h.trans (by decide)

/-- C3: the aggregate-buffer invariant (`data[k] = op(data[2k], data[2k+1])`
for internal slots, identity padding above `m + n`) holds after `new`,
after `from_vec`, and after every completed `set`. -/
theorem claim_C3 {α : Type} {M : MonoidImpl α} (hM : IsMonoid M) (n : Nat) (a : List α)
    (st : SegTree α) (hok : SegOk M st) (i : Nat) (x : α) (hi : i < st.n) :
    SegOk M (SegTree.new M n) ∧ SegOk M (SegTree.from_vec M a) ∧
      SegOk M (SegTree.set M st i x) :=
  ⟨SegOk_new hM n, SegOk_from_vec hM a, SegOk_set hM st hok i x hi⟩

theorem claim_C3_witness :
    IsMonoid natAddMonoid ∧ (0 : Nat) < (SegTree.from_vec natAddMonoid [1, 2, 3, 4, 5]).n ∧
    SegOk natAddMonoid (SegTree.set natAddMonoid
      (SegTree.from_vec natAddMonoid [1, 2, 3, 4, 5]) 0 10) := by
  refine ⟨natAddMonoid_is, by decide, ?_⟩
  exact (claim_C3 natAddMonoid_is 3 [1, 2]
    (SegTree.from_vec natAddMonoid [1, 2, 3, 4, 5])
    (SegOk_from_vec natAddMonoid_is _) 0 10 (by decide)).2.2

/-- C6: immediately after `set(i, x)` on a well-formed tree, `get(i)`
returns `x` and `range_fold(i..i+1)` returns `x`. -/
theorem claim_C6 {α : Type} {M : MonoidImpl α} (hM : IsMonoid M) (st : SegTree α)
    (hok : SegOk M st) (i : Nat) (x : α) (hi : i < st.n) :
    SegTree.get (SegTree.set M st i x) i = x ∧
    SegTree.range_fold M (SegTree.set M st i x) (RBound.included i)
      (RBound.excluded (i + 1)) = x := by
  have hok2 := SegOk_set hM st hok i x hi
  constructor
  · exact get_set_same M st i x hok.1
  · have hspec := range_fold_spec hM (SegTree.set M st i x) hok2
      (RBound.included i) (RBound.excluded (i + 1)) (by simp [RBound.startIndex, RBound.endIndex])
      (by simp only [RBound.endIndex]; exact hi)
    rw [hspec]
    show foldRange M _ i (i + 1) = x
    rw [foldRange_single hM]
    exact get_set_same M st i x hok.1

theorem claim_C6_witness :
    IsMonoid natAddMonoid ∧ (0 : Nat) < (SegTree.from_vec natAddMonoid [1, 2, 3, 4, 5]).n ∧
    SegTree.get (SegTree.set natAddMonoid
      (SegTree.from_vec natAddMonoid [1, 2, 3, 4, 5]) 0 10) 0 = 10 ∧
    SegTree.range_fold natAddMonoid (SegTree.set natAddMonoid
      (SegTree.from_vec natAddMonoid [1, 2, 3, 4, 5]) 0 10)
      (RBound.included 0) (RBound.excluded 1) = 10 :=
  ⟨natAddMonoid_is, by decide,
    claim_C6 natAddMonoid_is (SegTree.from_vec natAddMonoid [1, 2, 3, 4, 5])
      (SegOk_from_vec natAddMonoid_is _) 0 10 (by decide)⟩

/-- C7: splitting consistency of `range_fold` at any `l ≤ mid ≤ r ≤ n`,
with operands in left-to-right order. -/
theorem claim_C7 {α : Type} {M : MonoidImpl α} (hM : IsMonoid M) (st : SegTree α)
    (hok : SegOk M st) (l mid r : Nat) (h1 : l ≤ mid) (h2 : mid ≤ r) (h3 : r ≤ st.n) :
    SegTree.range_fold M st (RBound.included l) (RBound.excluded r) =
      M.op (SegTree.range_fold M st (RBound.included l) (RBound.excluded mid))
        (SegTree.range_fold M st (RBound.included mid) (RBound.excluded r)) := by
  rw [range_fold_spec hM st hok (RBound.included l) (RBound.excluded r)
      (by simp only [RBound.startIndex, RBound.endIndex]; omega) h3,
    range_fold_spec hM st hok (RBound.included l) (RBound.excluded mid)
      (by simp only [RBound.startIndex, RBound.endIndex]; omega)
      (by simp only [RBound.endIndex]; omega),
    range_fold_spec hM st hok (RBound.included mid) (RBound.excluded r)
      (by simp only [RBound.startIndex, RBound.endIndex]; omega) h3]
  exact foldRange_split hM _ l mid r h1 h2

theorem claim_C7_witness :
    IsMonoid listCatMonoid ∧
    SegTree.range_fold listCatMonoid (SegTree.from_vec listCatMonoid [[0], [1], [2]])
        (RBound.included 0) (RBound.excluded 3) =
      listCatMonoid.op
        (SegTree.range_fold listCatMonoid (SegTree.from_vec listCatMonoid [[0], [1], [2]])
          (RBound.included 0) (RBound.excluded 2))
        (SegTree.range_fold listCatMonoid (SegTree.from_vec listCatMonoid [[0], [1], [2]])
          (RBound.included 2) (RBound.excluded 3)) :=
  ⟨listCatMonoid_is,
    claim_C7 listCatMonoid_is (SegTree.from_vec listCatMonoid [[0], [1], [2]])
      (SegOk_from_vec listCatMonoid_is _) 0 2 3 (by decide) (by decide) (by decide)⟩

/-- C9: a valid `set(i, x)` changes only position `i` of the managed
sequence: every other valid position reads the same value before and
after. -/
theorem claim_C9 {α : Type} (M : MonoidImpl α) (st : SegTree α) (hnm : st.n ≤ st.m)
    (i j : Nat) (x : α) (hi : i < st.n) (hj : j < st.n) (hne : j ≠ i) :
    SegTree.get (SegTree.set M st i x) j = SegTree.get st j :=
  get_set_ne M st i j x hi hnm hne

theorem claim_C9_witness :
    (SegTree.from_vec natAddMonoid [1, 2, 3, 4, 5]).n ≤
      (SegTree.from_vec natAddMonoid [1, 2, 3, 4, 5]).m ∧
    SegTree.get (SegTree.set natAddMonoid
      (SegTree.from_vec natAddMonoid [1, 2, 3, 4, 5]) 0 10) 3 = 4 := by
  refine ⟨by decide, ?_⟩
  have h := claim_C9 natAddMonoid (SegTree.from_vec natAddMonoid [1, 2, 3, 4, 5])
    (by decide) 0 3 10 (by decide) (by decide) (by decide)
  exact h.trans (by decide)

theorem div_div_pow (x a b : Nat) : x / 2 ^ a / 2 ^ b = x / 2 ^ (a + b) := by
  rw [Nat.div_div_eq_div_mul, pow_add]

theorem succ_div_pow2 (x j : Nat) (h : (x + 1) % 2 ^ j ≠ 0) : (x + 1) / 2 ^ j = x / 2 ^ j := by
  rw [Nat.succ_div, if_neg (fun hdvd => h ((Nat.mod_eq_zero_of_dvd hdvd)))]
  omega

theorem odd_mod_pow (x j : Nat) (hx : x % 2 = 1) (hj : 1 ≤ j) : x % 2 ^ j ≠ 0 := by
  intro h
  have hdvd : 2 ^ j ∣ x := Nat.dvd_of_mod_eq_zero h
  have h2 : (2:Nat) ∣ 2 ^ j := dvd_pow_self 2 (by omega)
  have := h2.trans hdvd
  omega

theorem mod_pow_mono (x a b : Nat) (hab : a ≤ b) (h : x % 2 ^ a ≠ 0) : x % 2 ^ b ≠ 0 := by
  intro hb
  apply h
  have hdvd : 2 ^ a ∣ 2 ^ b := pow_dvd_pow 2 hab
  exact Nat.mod_eq_zero_of_dvd (hdvd.trans (Nat.dvd_of_mod_eq_zero hb))

theorem div_pow_mod_ne (x a j : Nat) (h : x % 2 ^ (a + j) ≠ 0) (hj : True) :
    x % 2 ^ a = 0 → (x / 2 ^ a) % 2 ^ j ≠ 0 := by
  intro ha hj2
  apply h
  obtain ⟨c, hc⟩ := Nat.dvd_of_mod_eq_zero ha
  obtain ⟨e, he⟩ := Nat.dvd_of_mod_eq_zero hj2
  apply Nat.mod_eq_zero_of_dvd
  refine ⟨e, ?_⟩
  have hx : x / 2 ^ a = c := by
    rw [hc, Nat.mul_div_cancel_left c (Nat.pos_pow_of_pos a (by omega))]
  rw [hc, pow_add, hx.symm, he]
  ring

theorem chainApply_k0 {σ φ : Type} (A : MonoidActionImpl σ φ) (g : Nat → φ) :
    ∀ (t : Nat) (x : σ), chainApply A g t 0 x = x := by
  intro t x
  cases t with
  | zero => rfl
  | succ t => simp [chainApply]

theorem div_two_pow_succ (k d : Nat) : k / 2 / 2 ^ d = k / 2 ^ (d + 1) := by
  have e := div_div_pow k 1 d
  rw [pow_one] at e
  rw [show 1 + d = d + 1 by omega] at e
  exact e

theorem chainApply_congr {σ φ : Type} (A : MonoidActionImpl σ φ) (g1 g2 : Nat → φ) :
    ∀ (t k : Nat) (x : σ),
      (∀ d : Nat, d < t → k / 2 ^ d ≠ 0 → g1 (k / 2 ^ d) = g2 (k / 2 ^ d)) →
      chainApply A g1 t k x = chainApply A g2 t k x := by
  intro t
  induction t with
  | zero => intro k x _; rfl
  | succ t ih =>
    intro k x h
    by_cases hk : k = 0
    · subst hk; simp [chainApply]
    · simp only [chainApply, if_neg hk]
      have h0 := h 0 (by omega) (by simpa using hk)
      simp only [pow_zero, Nat.div_one] at h0
      rw [h0]
      apply ih
      intro d hd hne
      have e := div_two_pow_succ k d
      rw [e]
      rw [e] at hne
      exact h (d + 1) (by omega) hne

theorem chainApply_all_id {σ φ : Type} {A : MonoidActionImpl σ φ} (hA : IsAction A)
    (g : Nat → φ) :
    ∀ (t k : Nat) (x : σ), (∀ d : Nat, k / 2 ^ d ≠ 0 → g (k / 2 ^ d) = A.identity_f) →
      chainApply A g t k x = x := by
  intro t
  induction t with
  | zero => intro k x _; rfl
  | succ t ih =>
    intro k x h
    by_cases hk : k = 0
    · subst hk; simp [chainApply]
    · simp only [chainApply, if_neg hk]
      have h0 := h 0 (by simpa using hk)
      simp only [pow_zero, Nat.div_one] at h0
      rw [h0, hA.apply_id]
      apply ih
      intro d hne
      have e := div_two_pow_succ k d
      rw [e]
      rw [e] at hne
      exact h (d + 1) hne

theorem chainApply_fuel {σ φ : Type} (A : MonoidActionImpl σ φ) (g : Nat → φ) :
    ∀ (t t2 k : Nat) (x : σ), k < 2 ^ t → k < 2 ^ t2 →
      chainApply A g t k x = chainApply A g t2 k x := by
  intro t
  induction t with
  | zero =>
    intro t2 k x h1 _
    have hk : k = 0 := by simpa using h1
    subst hk
    rw [chainApply_k0, chainApply_k0]
  | succ t ih =>
    intro t2 k x h1 h2
    by_cases hk : k = 0
    · subst hk; rw [chainApply_k0, chainApply_k0]
    · have ht2 : t2 ≠ 0 := by
        intro h0
        subst h0
        simp at h2
        omega
      obtain ⟨t3, rfl⟩ : ∃ t3, t2 = t3 + 1 := ⟨t2 - 1, by omega⟩
      simp only [chainApply, if_neg hk]
      apply ih
      · have ep : (2:Nat) ^ (t + 1) = 2 * 2 ^ t := by rw [pow_succ]; ring
        omega
      · have ep : (2:Nat) ^ (t3 + 1) = 2 * 2 ^ t3 := by rw [pow_succ]; ring
        omega

theorem chainApply_split {σ φ : Type} (A : MonoidActionImpl σ φ) (g : Nat → φ) :
    ∀ (d t k : Nat) (x : σ),
      chainApply A g (d + t) k x = chainApply A g t (k / 2 ^ d) (chainApply A g d k x) := by
  intro d
  induction d with
  | zero =>
    intro t k x
    rw [Nat.zero_add, pow_zero, Nat.div_one]
    rfl
  | succ d ih =>
    intro t k x
    by_cases hk : k = 0
    · subst hk
      rw [chainApply_k0, Nat.zero_div, chainApply_k0, chainApply_k0]
    · have e1 : d + 1 + t = (d + t) + 1 := by omega
      rw [e1]
      show chainApply A g ((d + t) + 1) k x = _
      have step1 : chainApply A g ((d + t) + 1) k x =
          chainApply A g (d + t) (k / 2) (A.apply x (g k)) := by
        simp only [chainApply, if_neg hk]
      have step2 : chainApply A g (d + 1) k x =
          chainApply A g d (k / 2) (A.apply x (g k)) := by
        simp only [chainApply, if_neg hk]
      rw [step1, step2, ih t (k / 2) (A.apply x (g k)), div_two_pow_succ]

theorem chainApply_snoc {σ φ : Type} (A : MonoidActionImpl σ φ) (g : Nat → φ) :
    ∀ (e k : Nat) (x : σ), 1 ≤ k / 2 ^ e →
      chainApply A g (e + 1) k x = A.apply (chainApply A g e k x) (g (k / 2 ^ e)) := by
  intro e
  induction e with
  | zero =>
    intro k x h
    simp only [pow_zero, Nat.div_one] at h ⊢
    have hk : k ≠ 0 := by omega
    simp only [chainApply, if_neg hk]
  | succ e ih =>
    intro k x h
    have hk : k ≠ 0 := by
      intro h0
      subst h0
      rw [Nat.zero_div] at h
      omega
    have step1 : chainApply A g (e + 1 + 1) k x =
        chainApply A g (e + 1) (k / 2) (A.apply x (g k)) := by
      simp only [chainApply, if_neg hk]
    have step2 : chainApply A g (e + 1) k x =
        chainApply A g e (k / 2) (A.apply x (g k)) := by
      simp only [chainApply, if_neg hk]
    have hd : 1 ≤ k / 2 / 2 ^ e := by rw [div_two_pow_succ]; exact h
    rw [step1, step2, ih (k / 2) (A.apply x (g k)) hd, div_two_pow_succ]

theorem lsc_align (l k : Nat) :
    (l % 2 ^ k = 0 → lsc l k = l / 2 ^ k) ∧ (l % 2 ^ k ≠ 0 → lsc l k = l / 2 ^ k + 1) := by
  obtain ⟨h1, h2⟩ := lsc_bounds k l
  have hpos : 0 < 2 ^ k := Nat.pos_pow_of_pos k (by omega)
  have hdm : l / 2 ^ k * 2 ^ k + l % 2 ^ k = l := Nat.div_add_mod' l (2 ^ k)
  have hmlt : l % 2 ^ k < 2 ^ k := Nat.mod_lt l hpos
  have hq1 : (l / 2 ^ k + 1) * 2 ^ k = l / 2 ^ k * 2 ^ k + 2 ^ k := by ring
  have hq2 : (l / 2 ^ k + 2) * 2 ^ k = l / 2 ^ k * 2 ^ k + 2 ^ k + 2 ^ k := by ring
  constructor
  · intro h0
    have hub : lsc l k ≤ l / 2 ^ k := by
      by_contra hc
      push_neg at hc
      have hc2 : l / 2 ^ k + 1 ≤ lsc l k := by omega
      have := Nat.mul_le_mul_right (2 ^ k) hc2
      omega
    have hlb : l / 2 ^ k ≤ lsc l k := by
      by_contra hc
      push_neg at hc
      have hc2 : lsc l k + 1 ≤ l / 2 ^ k := by omega
      have hmul := Nat.mul_le_mul_right (2 ^ k) hc2
      have he : (lsc l k + 1) * 2 ^ k = lsc l k * 2 ^ k + 2 ^ k := by ring
      omega
    omega
  · intro h0
    have hub : lsc l k ≤ l / 2 ^ k + 1 := by
      by_contra hc
      push_neg at hc
      have hc2 : l / 2 ^ k + 2 ≤ lsc l k := by omega
      have := Nat.mul_le_mul_right (2 ^ k) hc2
      omega
    have hlb : l / 2 ^ k + 1 ≤ lsc l k := by
      by_contra hc
      push_neg at hc
      have hc2 : lsc l k ≤ l / 2 ^ k := by omega
      have := Nat.mul_le_mul_right (2 ^ k) hc2
      omega
    omega

theorem push_n {σ φ : Type} (A : MonoidActionImpl σ φ) (st : LazySegTree σ φ) (k : Nat) :
    (LazySegTree.push A st k).n = st.n := rfl

theorem push_m {σ φ : Type} (A : MonoidActionImpl σ φ) (st : LazySegTree σ φ) (k : Nat) :
    (LazySegTree.push A st k).m = st.m := rfl

theorem push_data_left {σ φ : Type} (A : MonoidActionImpl σ φ) (st : LazySegTree σ φ) (k : Nat) :
    (LazySegTree.push A st k).data (2 * k) = A.apply (st.data (2 * k)) (st.func k) := by
  show upd (upd st.data (2 * k) _) (2 * k + 1) _ (2 * k) = _
  rw [upd_ne _ _ _ _ (by omega), upd_same]

theorem push_data_right {σ φ : Type} (A : MonoidActionImpl σ φ) (st : LazySegTree σ φ) (k : Nat) :
    (LazySegTree.push A st k).data (2 * k + 1) = A.apply (st.data (2 * k + 1)) (st.func k) := by
  show upd (upd st.data (2 * k) _) (2 * k + 1) _ (2 * k + 1) = _
  rw [upd_same]

theorem push_data_frame {σ φ : Type} (A : MonoidActionImpl σ φ) (st : LazySegTree σ φ)
    (k j : Nat) (h1 : j ≠ 2 * k) (h2 : j ≠ 2 * k + 1) :
    (LazySegTree.push A st k).data j = st.data j := by
  show upd (upd st.data (2 * k) _) (2 * k + 1) _ j = _
  rw [upd_ne _ _ _ _ h2, upd_ne _ _ _ _ h1]

theorem push_func_k {σ φ : Type} (A : MonoidActionImpl σ φ) (st : LazySegTree σ φ) (k : Nat)
    (hk : 1 ≤ k) : (LazySegTree.push A st k).func k = A.identity_f := by
  show upd (upd (upd st.func k A.identity_f) (2 * k) _) (2 * k + 1) _ k = _
  rw [upd_ne _ _ _ _ (by omega), upd_ne _ _ _ _ (by omega), upd_same]

theorem push_func_left {σ φ : Type} (A : MonoidActionImpl σ φ) (st : LazySegTree σ φ) (k : Nat)
    (hk : 1 ≤ k) :
    (LazySegTree.push A st k).func (2 * k) = A.op_f (st.func (2 * k)) (st.func k) := by
  show upd (upd (upd st.func k A.identity_f) (2 * k) _) (2 * k + 1) _ (2 * k) = _
  rw [upd_ne _ _ _ _ (by omega), upd_same]

theorem push_func_right {σ φ : Type} (A : MonoidActionImpl σ φ) (st : LazySegTree σ φ) (k : Nat) :
    (LazySegTree.push A st k).func (2 * k + 1) = A.op_f (st.func (2 * k + 1)) (st.func k) := by
  show upd (upd (upd st.func k A.identity_f) (2 * k) _) (2 * k + 1) _ (2 * k + 1) = _
  rw [upd_same]

theorem push_func_frame {σ φ : Type} (A : MonoidActionImpl σ φ) (st : LazySegTree σ φ)
    (k j : Nat) (h0 : j ≠ k) (h1 : j ≠ 2 * k) (h2 : j ≠ 2 * k + 1) :
    (LazySegTree.push A st k).func j = st.func j := by
  show upd (upd (upd st.func k A.identity_f) (2 * k) _) (2 * k + 1) _ j = _
  rw [upd_ne _ _ _ _ h2, upd_ne _ _ _ _ h1, upd_ne _ _ _ _ h0]

theorem push_inv {σ φ : Type} {A : MonoidActionImpl σ φ} (hA : IsAction A)
    (st : LazySegTree σ φ) (m k : Nat) (hInv : LazyInv A m st.data st.func)
    (hk1 : 1 ≤ k) (hkm : k < m) :
    LazyInv A m (LazySegTree.push A st k).data (LazySegTree.push A st k).func := by
  intro j hj1 hj2
  by_cases hjk : j = k
  · subst hjk
    rw [push_data_frame A st j j (by omega) (by omega), push_data_left, push_data_right,
      push_func_k A st j hj1, hA.apply_id, ← hA.apply_hom]
    exact hInv j hj1 hj2
  · by_cases hj2k : j = 2 * k
    · subst hj2k
      rw [push_data_left, push_func_left A st k hk1,
        push_data_frame A st k (2 * (2 * k)) (by omega) (by omega),
        push_data_frame A st k (2 * (2 * k) + 1) (by omega) (by omega),
        hA.apply_comp]
      rw [← hInv (2 * k) (by omega) hj2]
    · by_cases hj2k1 : j = 2 * k + 1
      · subst hj2k1
        rw [push_data_right, push_func_right,
          push_data_frame A st k (2 * (2 * k + 1)) (by omega) (by omega),
          push_data_frame A st k (2 * (2 * k + 1) + 1) (by omega) (by omega),
          hA.apply_comp]
        rw [← hInv (2 * k + 1) (by omega) hj2]
      · rw [push_data_frame A st k j hj2k hj2k1, push_func_frame A st k j hjk hj2k hj2k1,
          push_data_frame A st k (2 * j) (by omega) (by omega),
          push_data_frame A st k (2 * j + 1) (by omega) (by omega)]
        exact hInv j hj1 hj2

theorem push_chain {σ φ : Type} {A : MonoidActionImpl σ φ} (hA : IsAction A)
    (st : LazySegTree σ φ) (k : Nat) (hk1 : 1 ≤ k) :
    ∀ (d t j : Nat) (x : σ), 1 ≤ d → d + 1 ≤ t → j / 2 ^ d = k →
      chainApply A (LazySegTree.push A st k).func t j x = chainApply A st.func t j x := by
  intro d
  induction d with
  | zero => intro t j x h; omega
  | succ d ih =>
    intro t j x _ ht hj
    by_cases hd0 : d = 0
    · subst hd0
      rw [pow_one] at hj
      have hj2 : j = 2 * k ∨ j = 2 * k + 1 := by omega
      have hjne : j ≠ 0 := by omega
      obtain ⟨t2, rfl⟩ : ∃ t2, t = t2 + 1 + 1 := ⟨t - 2, by omega⟩
      have step1 : ∀ (g : Nat → φ), chainApply A g (t2 + 1 + 1) j x =
          chainApply A g (t2 + 1) (j / 2) (A.apply x (g j)) := by
        intro g
        simp only [chainApply, if_neg hjne]
      rw [step1, step1, hj]
      have hkne : k ≠ 0 := by omega
      have step2 : ∀ (g : Nat → φ) (y : σ), chainApply A g (t2 + 1) k y =
          chainApply A g t2 (k / 2) (A.apply y (g k)) := by
        intro g y
        simp only [chainApply, if_neg hkne]
      rw [step2, step2, push_func_k A st k hk1, hA.apply_id]
      have efj : (LazySegTree.push A st k).func j = A.op_f (st.func j) (st.func k) := by
        rcases hj2 with h | h
        · subst h; exact push_func_left A st k hk1
        · subst h; exact push_func_right A st k
      rw [efj, hA.apply_comp]
      apply chainApply_congr
      intro e _ hne
      have ee : k / 2 / 2 ^ e = k / 2 ^ (e + 1) := div_two_pow_succ k e
      rw [ee]
      rw [ee] at hne
      have hlt : k / 2 ^ (e + 1) < k :=
        Nat.div_lt_self (by omega) (by have := Nat.one_le_two_pow (n := e); simp [pow_succ]; omega)
      exact push_func_frame A st k (k / 2 ^ (e + 1)) (by omega) (by omega) (by omega)
    · have hd1 : 1 ≤ d := by omega
      have hpos : 1 ≤ 2 ^ (d + 1) := Nat.one_le_two_pow
      have hjge : 2 ^ (d + 1) ≤ j := by
        rcases Nat.lt_or_ge j (2 ^ (d + 1)) with hlt | hge
        · rw [Nat.div_eq_of_lt hlt] at hj; omega
        · exact hge
      have hjne : j ≠ 0 := by
        have : (2:Nat) ^ (d + 1) ≥ 1 := Nat.one_le_two_pow
        omega
      have hjk : j ≠ k := by
        intro h
        subst h
        have : j / 2 ^ (d + 1) < j := Nat.div_lt_self (by omega)
          (by have := Nat.one_le_two_pow (n := d); simp [pow_succ]; omega)
        omega
      have hdd : ∀ x2 : Nat, x2 / 2 ^ (d + 1) = x2 / 2 / 2 ^ d := fun x2 =>
        (div_two_pow_succ x2 d).symm
      have hj2k : j ≠ 2 * k := by
        intro h
        subst h
        rw [hdd] at hj
        have e2 : 2 * k / 2 = k := by omega
        rw [e2] at hj
        have : k / 2 ^ d < k := Nat.div_lt_self (by omega)
          (by have h2 : (2:Nat) ≤ 2 ^ d := by
                calc (2:Nat) = 2 ^ 1 := by norm_num
                _ ≤ 2 ^ d := Nat.pow_le_pow_right (by omega) (by omega)
              omega)
        omega
      have hj2k1 : j ≠ 2 * k + 1 := by
        intro h
        subst h
        rw [hdd] at hj
        have e2 : (2 * k + 1) / 2 = k := by omega
        rw [e2] at hj
        have : k / 2 ^ d < k := Nat.div_lt_self (by omega)
          (by have h2 : (2:Nat) ≤ 2 ^ d := by
                calc (2:Nat) = 2 ^ 1 := by norm_num
                _ ≤ 2 ^ d := Nat.pow_le_pow_right (by omega) (by omega)
              omega)
        omega
      obtain ⟨t2, rfl⟩ : ∃ t2, t = t2 + 1 := ⟨t - 1, by omega⟩
      have step1 : ∀ (g : Nat → φ), chainApply A g (t2 + 1) j x =
          chainApply A g t2 (j / 2) (A.apply x (g j)) := by
        intro g
        simp only [chainApply, if_neg hjne]
      rw [step1, step1, push_func_frame A st k j hjk hj2k hj2k1]
      exact ih t2 (j / 2) _ hd1 (by omega) (by rw [div_two_pow_succ]; exact hj)

theorem push_abs {σ φ : Type} {A : MonoidActionImpl σ φ} (hA : IsAction A)
    (st : LazySegTree σ φ) (L k p : Nat) (hm : st.m = 2 ^ L) (hk1 : 1 ≤ k) (hkm : k < st.m)
    (hp : p < 2 * st.m) :
    absLeaf A (LazySegTree.push A st k) p = absLeaf A st p := by
  have hm1 : 1 ≤ st.m := by rw [hm]; exact Nat.one_le_two_pow
  by_cases hanc : ∃ d, 1 ≤ d ∧ p / 2 ^ d = k
  · obtain ⟨d, hd1, hd2⟩ := hanc
    by_cases hdone : d = 1
    · subst hdone
      rw [pow_one] at hd2
      have hp2 : p = 2 * k ∨ p = 2 * k + 1 := by omega
      have hpdata : (LazySegTree.push A st k).data p = A.apply (st.data p) (st.func k) := by
        rcases hp2 with h | h
        · subst h; exact push_data_left A st k
        · subst h; exact push_data_right A st k
      show chainApply A (LazySegTree.push A st k).func st.m (p / 2)
          ((LazySegTree.push A st k).data p) = chainApply A st.func st.m (p / 2) (st.data p)
      rw [hpdata, hd2]
      have hkne : k ≠ 0 := by omega
      obtain ⟨m2, em⟩ : ∃ m2, st.m = m2 + 1 := ⟨st.m - 1, by omega⟩
      rw [em]
      have step : ∀ (g : Nat → φ) (y : σ), chainApply A g (m2 + 1) k y =
          chainApply A g m2 (k / 2) (A.apply y (g k)) := by
        intro g y
        simp only [chainApply, if_neg hkne]
      rw [step, step, push_func_k A st k hk1, hA.apply_id]
      apply chainApply_congr
      intro e _ hne
      have ee : k / 2 / 2 ^ e = k / 2 ^ (e + 1) := div_two_pow_succ k e
      rw [ee]
      rw [ee] at hne
      have hlt : k / 2 ^ (e + 1) < k := Nat.div_lt_self (by omega)
        (by have := Nat.one_le_two_pow (n := e); simp [pow_succ]; omega)
      exact push_func_frame A st k (k / 2 ^ (e + 1)) (by omega) (by omega) (by omega)
    · have hd2' : 2 ≤ d := by omega
      have hpne2k : p ≠ 2 * k ∧ p ≠ 2 * k + 1 := by
        constructor
        · intro h
          subst h
          have e1 : 2 * k / 2 ^ d = 2 * k / 2 / 2 ^ (d - 1) := by
            rw [div_two_pow_succ]
            rw [show d - 1 + 1 = d by omega]
          have e2 : 2 * k / 2 = k := by omega
          rw [e1, e2] at hd2
          have : k / 2 ^ (d - 1) < k := Nat.div_lt_self (by omega)
            (by have h2 : (2:Nat) ≤ 2 ^ (d - 1) := by
                  calc (2:Nat) = 2 ^ 1 := by norm_num
                  _ ≤ 2 ^ (d - 1) := Nat.pow_le_pow_right (by omega) (by omega)
                omega)
          omega
        · intro h
          subst h
          have e1 : (2 * k + 1) / 2 ^ d = (2 * k + 1) / 2 / 2 ^ (d - 1) := by
            rw [div_two_pow_succ]
            rw [show d - 1 + 1 = d by omega]
          have e2 : (2 * k + 1) / 2 = k := by omega
          rw [e1, e2] at hd2
          have : k / 2 ^ (d - 1) < k := Nat.div_lt_self (by omega)
            (by have h2 : (2:Nat) ≤ 2 ^ (d - 1) := by
                  calc (2:Nat) = 2 ^ 1 := by norm_num
                  _ ≤ 2 ^ (d - 1) := Nat.pow_le_pow_right (by omega) (by omega)
                omega)
          omega
      show chainApply A (LazySegTree.push A st k).func st.m (p / 2)
          ((LazySegTree.push A st k).data p) = chainApply A st.func st.m (p / 2) (st.data p)
      rw [push_data_frame A st k p hpne2k.1 hpne2k.2]
      have hdL : d ≤ L := by
        by_contra hc
        push_neg at hc
        have hge : 2 ^ (L + 1) ≤ 2 ^ d := Nat.pow_le_pow_right (by omega) (by omega)
        have hple : 2 ^ d ≤ p := by
          rcases Nat.lt_or_ge p (2 ^ d) with hlt | h
          · rw [Nat.div_eq_of_lt hlt] at hd2; omega
          · exact h
        have : 2 * st.m = 2 ^ (L + 1) := by rw [hm, pow_succ]; ring
        omega
      apply push_chain hA st k hk1 (d - 1) st.m (p / 2) (st.data p) (by omega) ?_ ?_
      · have hLm : L < 2 ^ L := Nat.lt_two_pow L
        omega
      · rw [div_two_pow_succ, show d - 1 + 1 = d by omega]
        exact hd2
  · push_neg at hanc
    have hpd : (LazySegTree.push A st k).data p = st.data p := by
      apply push_data_frame
      · intro h
        subst h
        exact absurd (by rw [pow_one]; omega : 2 * k / 2 ^ 1 = k) (hanc 1 (by omega))
      · intro h
        subst h
        exact absurd (by rw [pow_one]; omega : (2 * k + 1) / 2 ^ 1 = k) (hanc 1 (by omega))
    show chainApply A (LazySegTree.push A st k).func st.m (p / 2)
        ((LazySegTree.push A st k).data p) = chainApply A st.func st.m (p / 2) (st.data p)
    rw [hpd]
    apply chainApply_congr
    intro e _ hne
    have ee : p / 2 / 2 ^ e = p / 2 ^ (e + 1) := div_two_pow_succ p e
    rw [ee]
    rw [ee] at hne
    apply push_func_frame
    · intro h
      exact absurd h (hanc (e + 1) (by omega))
    · intro h
      have hkey : p / 2 ^ (e + 1 + 1) = k := by
        have e2 : p / 2 ^ (e + 1) / 2 = p / 2 ^ (e + 1 + 1) := by
          rw [Nat.div_div_eq_div_mul, ← pow_succ]
        rw [← e2, h]
        omega
      exact absurd hkey (hanc (e + 1 + 1) (by omega))
    · intro h
      have hkey : p / 2 ^ (e + 1 + 1) = k := by
        have e2 : p / 2 ^ (e + 1) / 2 = p / 2 ^ (e + 1 + 1) := by
          rw [Nat.div_div_eq_div_mul, ← pow_succ]
        rw [← e2, h]
        omega
      exact absurd hkey (hanc (e + 1 + 1) (by omega))

theorem align_iff (x k : Nat) : (x / 2 ^ k) * 2 ^ k = x ↔ x % 2 ^ k = 0 := by
  have h := Nat.div_add_mod' x (2 ^ k)
  have hlt : x % 2 ^ k < 2 ^ k := Nat.mod_lt x (Nat.pos_pow_of_pos k (by omega))
  constructor
  · intro h2; omega
  · intro h2; omega

theorem pow_mod_pow_zero (L k : Nat) (h : k ≤ L) : 2 ^ L % 2 ^ k = 0 :=
  Nat.mod_eq_zero_of_dvd (pow_dvd_pow 2 h)

theorem pushed_node_ge (L k x : Nat) (hk : k ≤ L) (hx : 2 ^ L ≤ x) : 2 ^ (L - k) ≤ x / 2 ^ k := by
  have h1 : (2:Nat) ^ L / 2 ^ k ≤ x / 2 ^ k := Nat.div_le_div_right hx
  rw [Nat.pow_div hk (by omega)] at h1
  exact h1

theorem pushed_node_lt (L k x : Nat) (hk1 : 1 ≤ k) (hkL : k ≤ L) (hx : x < 2 ^ (L + 1)) :
    x / 2 ^ k < 2 ^ L := by
  have h1 : x / 2 ^ k < 2 ^ (L + 1 - k) := by
    rw [Nat.div_lt_iff_lt_mul (Nat.pos_pow_of_pos k (by omega))]
    calc x < 2 ^ (L + 1) := hx
    _ = 2 ^ (L + 1 - k) * 2 ^ k := by rw [← pow_add]; congr 1; omega
  have h2 : (2:Nat) ^ (L + 1 - k) ≤ 2 ^ L := Nat.pow_le_pow_right (by omega) (by omega)
  omega

theorem pushStep_nm {σ φ : Type} (A : MonoidActionImpl σ φ) (l r k : Nat)
    (st : LazySegTree σ φ) :
    (pushStep A l r k st).n = st.n ∧ (pushStep A l r k st).m = st.m := by
  unfold pushStep
  split_ifs <;> exact ⟨rfl, rfl⟩

theorem pushStep_bound_l (L l k : Nat) (hk1 : 1 ≤ k) (hkL : k ≤ L) (hl : 2 ^ L ≤ l)
    (hlr : l ≤ 2 ^ (L + 1)) (hc : (l / 2 ^ k) * 2 ^ k ≠ l) :
    2 ^ (L - k) ≤ l / 2 ^ k ∧ l / 2 ^ k < 2 ^ L := by
  have hmod : l % 2 ^ k ≠ 0 := fun h => hc ((align_iff l k).mpr h)
  have hlt : l < 2 ^ (L + 1) := by
    rcases Nat.lt_or_ge l (2 ^ (L + 1)) with h | h
    · exact h
    · exfalso
      have he : l = 2 ^ (L + 1) := by omega
      rw [he] at hmod
      exact hmod (pow_mod_pow_zero (L + 1) k (by omega))
  exact ⟨pushed_node_ge L k l hkL hl, pushed_node_lt L k l hk1 hkL hlt⟩

theorem pushStep_bound_r (L l r k : Nat) (hk1 : 1 ≤ k) (hkL : k ≤ L) (hl : 2 ^ L ≤ l)
    (hlr : l ≤ r) (hr : r ≤ 2 ^ (L + 1)) (hc : (r / 2 ^ k) * 2 ^ k ≠ r) :
    2 ^ (L - k) ≤ (r - 1) / 2 ^ k ∧ (r - 1) / 2 ^ k < 2 ^ L := by
  have hmod : r % 2 ^ k ≠ 0 := fun h => hc ((align_iff r k).mpr h)
  have hrg : 2 ^ L + 1 ≤ r := by
    rcases Nat.lt_or_ge (2 ^ L) r with h | h
    · omega
    · exfalso
      have he : r = 2 ^ L := by
        have := hl.trans hlr
        omega
      rw [he] at hmod
      exact hmod (pow_mod_pow_zero L k hkL)
  exact ⟨pushed_node_ge L k (r - 1) hkL (by omega),
    pushed_node_lt L k (r - 1) hk1 hkL (by omega)⟩

theorem pushStep_inv {σ φ : Type} {A : MonoidActionImpl σ φ} (hA : IsAction A)
    (L l r k : Nat) (st : LazySegTree σ φ) (hm : st.m = 2 ^ L) (hk1 : 1 ≤ k) (hkL : k ≤ L)
    (hl : 2 ^ L ≤ l) (hlr : l ≤ r) (hr : r ≤ 2 ^ (L + 1))
    (hInv : LazyInv A st.m st.data st.func) :
    LazyInv A st.m (pushStep A l r k st).data (pushStep A l r k st).func := by
  have h2p : (1:Nat) ≤ 2 ^ (L - k) := Nat.one_le_two_pow
  unfold pushStep
  by_cases c1 : (l / 2 ^ k) * 2 ^ k ≠ l
  · simp only [if_pos c1]
    have hb1 := pushStep_bound_l L l k hk1 hkL hl (hlr.trans hr) c1
    have h1 := push_inv hA st st.m (l / 2 ^ k) hInv (by omega) (by rw [hm]; exact hb1.2)
    by_cases c2 : (r / 2 ^ k) * 2 ^ k ≠ r
    · simp only [if_pos c2]
      have hb2 := pushStep_bound_r L l r k hk1 hkL hl hlr hr c2
      exact push_inv hA _ st.m ((r - 1) / 2 ^ k) h1 (by omega) (by rw [hm]; exact hb2.2)
    · simp only [if_neg c2]
      exact h1
  · simp only [if_neg c1]
    by_cases c2 : (r / 2 ^ k) * 2 ^ k ≠ r
    · simp only [if_pos c2]
      have hb2 := pushStep_bound_r L l r k hk1 hkL hl hlr hr c2
      exact push_inv hA st st.m ((r - 1) / 2 ^ k) hInv (by omega) (by rw [hm]; exact hb2.2)
    · simp only [if_neg c2]
      exact hInv

theorem pushStep_abs {σ φ : Type} {A : MonoidActionImpl σ φ} (hA : IsAction A)
    (L l r k : Nat) (st : LazySegTree σ φ) (hm : st.m = 2 ^ L) (hk1 : 1 ≤ k) (hkL : k ≤ L)
    (hl : 2 ^ L ≤ l) (hlr : l ≤ r) (hr : r ≤ 2 ^ (L + 1)) (p : Nat) (hp : p < 2 * st.m) :
    absLeaf A (pushStep A l r k st) p = absLeaf A st p := by
  have h2p : (1:Nat) ≤ 2 ^ (L - k) := Nat.one_le_two_pow
  unfold pushStep
  by_cases c1 : (l / 2 ^ k) * 2 ^ k ≠ l
  · simp only [if_pos c1]
    have hb1 := pushStep_bound_l L l k hk1 hkL hl (hlr.trans hr) c1
    have e1 := push_abs hA st L (l / 2 ^ k) p hm (by omega) (by rw [hm]; exact hb1.2) hp
    by_cases c2 : (r / 2 ^ k) * 2 ^ k ≠ r
    · simp only [if_pos c2]
      have hb2 := pushStep_bound_r L l r k hk1 hkL hl hlr hr c2
      have e2 := push_abs hA (LazySegTree.push A st (l / 2 ^ k)) L ((r - 1) / 2 ^ k) p
        (by rw [push_m]; exact hm) (by omega) (by rw [push_m, hm]; exact hb2.2)
        (by rw [push_m]; exact hp)
      rw [e2, e1]
    · simp only [if_neg c2]
      exact e1
  · simp only [if_neg c1]
    by_cases c2 : (r / 2 ^ k) * 2 ^ k ≠ r
    · simp only [if_pos c2]
      have hb2 := pushStep_bound_r L l r k hk1 hkL hl hlr hr c2
      exact push_abs hA st L ((r - 1) / 2 ^ k) p hm (by omega) (by rw [hm]; exact hb2.2) hp
    · simp only [if_neg c2]

theorem pushed_node_lt2 (L k x : Nat) (hx : x < 2 ^ (L + 1)) : x / 2 ^ k < 2 ^ (L + 1 - k) := by
  rcases le_or_lt k (L + 1) with hk | hk
  · rw [Nat.div_lt_iff_lt_mul (Nat.pos_pow_of_pos k (by omega))]
    calc x < 2 ^ (L + 1) := hx
    _ = 2 ^ (L + 1 - k) * 2 ^ k := by rw [← pow_add]; congr 1; omega
  · have h1 : x / 2 ^ k = 0 := Nat.div_eq_of_lt (by
      calc x < 2 ^ (L + 1) := hx
      _ ≤ 2 ^ k := Nat.pow_le_pow_right (by omega) (by omega))
    rw [h1]
    exact Nat.pos_pow_of_pos _ (by omega)

theorem pushStep_func_low {σ φ : Type} (A : MonoidActionImpl σ φ) (L l r k : Nat)
    (st : LazySegTree σ φ) (hk1 : 1 ≤ k) (hkL : k ≤ L)
    (hl : 2 ^ L ≤ l) (hlr : l ≤ r) (hr : r ≤ 2 ^ (L + 1)) (j : Nat) (hj : j < 2 ^ (L - k)) :
    (pushStep A l r k st).func j = st.func j := by
  unfold pushStep
  by_cases c1 : (l / 2 ^ k) * 2 ^ k ≠ l
  · simp only [if_pos c1]
    have hb1 := pushStep_bound_l L l k hk1 hkL hl (hlr.trans hr) c1
    have e1 : (LazySegTree.push A st (l / 2 ^ k)).func j = st.func j :=
      push_func_frame A st _ j (by omega) (by omega) (by omega)
    by_cases c2 : (r / 2 ^ k) * 2 ^ k ≠ r
    · simp only [if_pos c2]
      have hb2 := pushStep_bound_r L l r k hk1 hkL hl hlr hr c2
      rw [push_func_frame A _ _ j (by omega) (by omega) (by omega), e1]
    · simp only [if_neg c2]
      exact e1
  · simp only [if_neg c1]
    by_cases c2 : (r / 2 ^ k) * 2 ^ k ≠ r
    · simp only [if_pos c2]
      have hb2 := pushStep_bound_r L l r k hk1 hkL hl hlr hr c2
      exact push_func_frame A st _ j (by omega) (by omega) (by omega)
    · simp only [if_neg c2]

theorem pushStep_clean {σ φ : Type} (A : MonoidActionImpl σ φ) (L l r k : Nat)
    (st : LazySegTree σ φ) (hk1 : 1 ≤ k) (hkL : k ≤ L)
    (hl : 2 ^ L ≤ l) (hlr : l ≤ r) (hr : r ≤ 2 ^ (L + 1)) :
    (l % 2 ^ k ≠ 0 → (pushStep A l r k st).func (l / 2 ^ k) = A.identity_f) ∧
    (r % 2 ^ k ≠ 0 → (pushStep A l r k st).func ((r - 1) / 2 ^ k) = A.identity_f) := by
  have hpow : (2:Nat) ^ (L + 1 - k) = 2 * 2 ^ (L - k) := by
    rw [show L + 1 - k = (L - k) + 1 by omega, pow_succ]
    ring
  have h2p : (1:Nat) ≤ 2 ^ (L - k) := Nat.one_le_two_pow
  constructor
  · intro hmod
    have c1 : (l / 2 ^ k) * 2 ^ k ≠ l := fun h => hmod ((align_iff l k).mp h)
    have hb1 := pushStep_bound_l L l k hk1 hkL hl (hlr.trans hr) c1
    have hllt : l / 2 ^ k < 2 ^ (L + 1 - k) := pushed_node_lt2 L k l (by
      rcases Nat.lt_or_ge l (2 ^ (L + 1)) with h | h
      · exact h
      · exfalso
        have he : l = 2 ^ (L + 1) := by omega
        rw [he] at hmod
        exact hmod (pow_mod_pow_zero (L + 1) k (by omega)))
    unfold pushStep
    simp only [if_pos c1]
    by_cases c2 : (r / 2 ^ k) * 2 ^ k ≠ r
    · simp only [if_pos c2]
      have hb2 := pushStep_bound_r L l r k hk1 hkL hl hlr hr c2
      by_cases heq : l / 2 ^ k = (r - 1) / 2 ^ k
      · rw [heq]
        exact push_func_k A (LazySegTree.push A st ((r - 1) / 2 ^ k)) ((r - 1) / 2 ^ k) (by omega)
      · rw [push_func_frame A (LazySegTree.push A st (l / 2 ^ k)) ((r - 1) / 2 ^ k)
          (l / 2 ^ k) heq (by omega) (by omega)]
        exact push_func_k A st (l / 2 ^ k) (by omega)
    · simp only [if_neg c2]
      exact push_func_k A st (l / 2 ^ k) (by omega)
  · intro hmod
    have c2 : (r / 2 ^ k) * 2 ^ k ≠ r := fun h => hmod ((align_iff r k).mp h)
    have hb2 := pushStep_bound_r L l r k hk1 hkL hl hlr hr c2
    unfold pushStep
    by_cases c1 : (l / 2 ^ k) * 2 ^ k ≠ l
    · simp only [if_pos c1, if_pos c2]
      exact push_func_k A (LazySegTree.push A st (l / 2 ^ k)) ((r - 1) / 2 ^ k) (by omega)
    · simp only [if_neg c1, if_pos c2]
      exact push_func_k A st ((r - 1) / 2 ^ k) (by omega)

theorem pdl_spec {σ φ : Type} {A : MonoidActionImpl σ φ} (hA : IsAction A) (L l r : Nat)
    (hlr : l ≤ r) (hl : 2 ^ L ≤ l) (hr : r ≤ 2 ^ (L + 1)) :
    ∀ (t : Nat) (st : LazySegTree σ φ), t ≤ L → st.m = 2 ^ L →
      (pushDownLoop A l r t st).n = st.n ∧
      (pushDownLoop A l r t st).m = st.m ∧
      (LazyInv A st.m st.data st.func →
        LazyInv A st.m (pushDownLoop A l r t st).data (pushDownLoop A l r t st).func) ∧
      (∀ p, p < 2 * st.m → absLeaf A (pushDownLoop A l r t st) p = absLeaf A st p) ∧
      (∀ j, j < 2 ^ (L - t) → (pushDownLoop A l r t st).func j = st.func j) ∧
      (∀ k, 1 ≤ k → k ≤ t →
        (l % 2 ^ k ≠ 0 → (pushDownLoop A l r t st).func (l / 2 ^ k) = A.identity_f) ∧
        (r % 2 ^ k ≠ 0 → (pushDownLoop A l r t st).func ((r - 1) / 2 ^ k) = A.identity_f)) := by
  intro t
  induction t with
  | zero =>
    intro st _ _
    exact ⟨rfl, rfl, fun h => h, fun p _ => rfl, fun j _ => rfl, fun k hk1 hk2 => by omega⟩
  | succ t ih =>
    intro st ht hm
    have hm1 : (pushStep A l r (t + 1) st).m = st.m := (pushStep_nm A l r (t + 1) st).2
    have hn1 : (pushStep A l r (t + 1) st).n = st.n := (pushStep_nm A l r (t + 1) st).1
    obtain ⟨ihn, ihm, ihinv, ihabs, ihframe, ihclean⟩ :=
      ih (pushStep A l r (t + 1) st) (by omega) (by rw [hm1, hm])
    have hunf : pushDownLoop A l r (t + 1) st = pushDownLoop A l r t (pushStep A l r (t + 1) st) :=
      rfl
    rw [hunf]
    refine ⟨ihn.trans hn1, ihm.trans hm1, ?_, ?_, ?_, ?_⟩
    · intro h
      have h1 : LazyInv A st.m (pushStep A l r (t + 1) st).data (pushStep A l r (t + 1) st).func :=
        pushStep_inv hA L l r (t + 1) st hm (by omega) (by omega) hl hlr hr h
      have h2 := ihinv (by rw [hm1]; exact h1)
      rw [hm1] at h2
      exact h2
    · intro p hp
      have e1 := ihabs p (by rw [hm1]; exact hp)
      rw [e1]
      exact pushStep_abs hA L l r (t + 1) st hm (by omega) (by omega) hl hlr hr p hp
    · intro j hj
      have hj2 : j < 2 ^ (L - t) := by
        have : (2:Nat) ^ (L - (t + 1)) ≤ 2 ^ (L - t) := Nat.pow_le_pow_right (by omega) (by omega)
        omega
      rw [ihframe j hj2]
      exact pushStep_func_low A L l r (t + 1) st (by omega) (by omega) hl hlr hr j hj
    · intro k hk1 hk2
      by_cases hkt : k ≤ t
      · exact ihclean k hk1 hkt
      · have hke : k = t + 1 := by omega
        subst hke
        have hr1 : (1:Nat) ≤ 2 ^ L := Nat.one_le_two_pow
        constructor
        · intro hmod
          have hllt : l < 2 ^ (L + 1) := by
            rcases Nat.lt_or_ge l (2 ^ (L + 1)) with h | h
            · exact h
            · exfalso
              have he : l = 2 ^ (L + 1) := by omega
              rw [he] at hmod
              exact hmod (pow_mod_pow_zero (L + 1) (t + 1) (by omega))
          have hlow : l / 2 ^ (t + 1) < 2 ^ (L - t) := by
            have hz := pushed_node_lt2 L (t + 1) l hllt
            rw [show L + 1 - (t + 1) = L - t by omega] at hz
            exact hz
          rw [ihframe _ hlow]
          exact (pushStep_clean A L l r (t + 1) st hk1 (by omega) hl hlr hr).1 hmod
        · intro hmod
          have hlow : (r - 1) / 2 ^ (t + 1) < 2 ^ (L - t) := by
            have hz := pushed_node_lt2 L (t + 1) (r - 1) (by omega)
            rw [show L + 1 - (t + 1) = L - t by omega] at hz
            exact hz
          rw [ihframe _ hlow]
          exact (pushStep_clean A L l r (t + 1) st hk1 (by omega) hl hlr hr).2 hmod

theorem valueMonoid_is {σ φ : Type} {A : MonoidActionImpl σ φ} (hA : IsAction A) :
    IsMonoid A.valueMonoid :=
  ⟨hA.assoc_s, hA.id_op_s, hA.op_id_s⟩

theorem valueMonoid_op {σ φ : Type} (A : MonoidActionImpl σ φ) (x y : σ) :
    A.valueMonoid.op x y = A.op_s x y := rfl

theorem valueMonoid_id {σ φ : Type} (A : MonoidActionImpl σ φ) :
    A.valueMonoid.identity = A.identity_s := rfl

theorem foldRangeAux_apply {σ φ : Type} {A : MonoidActionImpl σ φ} (hA : IsAction A)
    (v : Nat → σ) (f : φ) :
    ∀ (t lo : Nat),
      A.apply (foldRangeAux A.valueMonoid v (t + 1) lo) f =
        foldRangeAux A.valueMonoid (fun i => A.apply (v i) f) (t + 1) lo := by
  intro t
  induction t with
  | zero =>
    intro lo
    show A.apply (A.valueMonoid.op (v lo) A.valueMonoid.identity) f =
      A.valueMonoid.op (A.apply (v lo) f) A.valueMonoid.identity
    rw [valueMonoid_op, valueMonoid_op, valueMonoid_id, hA.op_id_s, hA.op_id_s]
  | succ t ih =>
    intro lo
    show A.apply (A.valueMonoid.op (v lo) (foldRangeAux A.valueMonoid v (t + 1) (lo + 1))) f = _
    rw [valueMonoid_op, hA.apply_hom, ih (lo + 1)]
    rfl

theorem foldRange_apply {σ φ : Type} {A : MonoidActionImpl σ φ} (hA : IsAction A)
    (v : Nat → σ) (f : φ) (lo hi : Nat) (h : lo < hi) :
    A.apply (foldRange A.valueMonoid v lo hi) f =
      foldRange A.valueMonoid (fun i => A.apply (v i) f) lo hi := by
  unfold foldRange
  rw [show hi - lo = (hi - lo - 1) + 1 by omega]
  exact foldRangeAux_apply hA v f (hi - lo - 1) lo

theorem lazy_subtree_fold {σ φ : Type} {A : MonoidActionImpl σ φ} (hA : IsAction A)
    (m : Nat) (d : Nat → σ) (g : Nat → φ) (hInv : LazyInv A m d g) (hm : 1 ≤ m) :
    ∀ (e b : Nat), 1 ≤ b → m ≤ b * 2 ^ e → (b + 1) * 2 ^ e ≤ 2 * m →
      d b = foldRange A.valueMonoid
        (fun p => chainApply A g e (p / 2) (d p)) (b * 2 ^ e) ((b + 1) * 2 ^ e) := by
  intro e
  induction e with
  | zero =>
    intro b hb h1 h2
    simp only [pow_zero, mul_one]
    rw [foldRange_single (valueMonoid_is hA)]
    rfl
  | succ e ih =>
    intro b hb h1 h2
    have ep : (2:Nat) ^ (e + 1) = 2 * 2 ^ e := by rw [pow_succ]; ring
    have hp : 1 ≤ 2 ^ e := Nat.one_le_two_pow
    have e1 : b * 2 ^ (e + 1) = 2 * b * 2 ^ e := by rw [ep]; ring
    have e2 : (b + 1) * 2 ^ (e + 1) = (2 * b + 1 + 1) * 2 ^ e := by rw [ep]; ring
    have hbm : b < m := by
      by_contra hge
      push_neg at hge
      have c1 : (m + 1) * 2 ^ (e + 1) ≤ (b + 1) * 2 ^ (e + 1) :=
        Nat.mul_le_mul_right _ (by omega)
      have c2 : (m + 1) * 2 ^ (e + 1) = 2 * m * 2 ^ e + 2 * 2 ^ e := by rw [ep]; ring
      have c3 : 2 * m < 2 * m * 2 ^ e + 2 * 2 ^ e := by nlinarith
      omega
    have hInvb := hInv b hb hbm
    have ihl := ih (2 * b) (by omega) (by rw [e1] at h1; exact h1)
      (by
        have hh : (2 * b + 1) * 2 ^ e ≤ (2 * b + 1 + 1) * 2 ^ e := Nat.mul_le_mul_right _ (by omega)
        rw [e2] at h2; omega)
    have ihr := ih (2 * b + 1)
      (by omega)
      (by
        have hh : 2 * b * 2 ^ e ≤ (2 * b + 1) * 2 ^ e := Nat.mul_le_mul_right _ (by omega)
        rw [e1] at h1; omega)
      (by rw [e2] at h2; exact h2)
    have hlt1 : 2 * b * 2 ^ e < (2 * b + 1) * 2 ^ e := by
      have ee : (2 * b + 1) * 2 ^ e = 2 * b * 2 ^ e + 2 ^ e := by ring
      omega
    have hlt2 : (2 * b + 1) * 2 ^ e < (2 * b + 1 + 1) * 2 ^ e := by
      have ee : (2 * b + 1 + 1) * 2 ^ e = (2 * b + 1) * 2 ^ e + 2 ^ e := by ring
      omega
    have hnode : ∀ p : Nat, 2 * b * 2 ^ e ≤ p → p < (2 * b + 1 + 1) * 2 ^ e →
        A.apply (chainApply A g e (p / 2) (d p)) (g b) =
          chainApply A g (e + 1) (p / 2) (d p) := by
      intro p hp1 hp2
      have hpb : p / 2 ^ (e + 1) = b := by
        apply Nat.div_eq_of_lt_le
        · rw [← e1] at hp1
          calc b * 2 ^ (e + 1) = b * 2 ^ (e + 1) := rfl
          _ ≤ p := hp1
        · rw [← e2] at hp2
          exact hp2
      have h1q : 1 ≤ p / 2 / 2 ^ e := by
        rw [div_two_pow_succ, hpb]
        omega
      rw [chainApply_snoc A g e (p / 2) (d p) h1q, div_two_pow_succ, hpb]
    have hcg1 : foldRange A.valueMonoid
        (fun i => A.apply (chainApply A g e (i / 2) (d i)) (g b)) (2 * b * 2 ^ e)
          ((2 * b + 1) * 2 ^ e) =
        foldRange A.valueMonoid (fun p => chainApply A g (e + 1) (p / 2) (d p)) (2 * b * 2 ^ e)
          ((2 * b + 1) * 2 ^ e) :=
      foldRange_congr _ _ _ _ _ (fun p hp1 hp2 => hnode p hp1 (by omega))
    have hcg2 : foldRange A.valueMonoid
        (fun i => A.apply (chainApply A g e (i / 2) (d i)) (g b)) ((2 * b + 1) * 2 ^ e)
          ((2 * b + 1 + 1) * 2 ^ e) =
        foldRange A.valueMonoid (fun p => chainApply A g (e + 1) (p / 2) (d p))
          ((2 * b + 1) * 2 ^ e) ((2 * b + 1 + 1) * 2 ^ e) :=
      foldRange_congr _ _ _ _ _ (fun p hp1 hp2 => hnode p (by omega) hp2)
    rw [hInvb, ihl, ihr]
    show A.apply (A.valueMonoid.op _ _) (g b) = _
    rw [valueMonoid_op, hA.apply_hom,
      foldRange_apply hA _ (g b) (2 * b * 2 ^ e) ((2 * b + 1) * 2 ^ e) hlt1,
      foldRange_apply hA _ (g b) ((2 * b + 1) * 2 ^ e) ((2 * b + 1 + 1) * 2 ^ e) hlt2,
      hcg1, hcg2, e1, e2,
      foldRange_split (valueMonoid_is hA) (fun p => chainApply A g (e + 1) (p / 2) (d p))
        (2 * b * 2 ^ e) ((2 * b + 1) * 2 ^ e) ((2 * b + 1 + 1) * 2 ^ e)
        (by omega) (by omega)]
    rfl

theorem lsc_cross (l k dd : Nat) (hodd : lsc l k % 2 = 1) (hdd : 1 ≤ dd) :
    lsc l k / 2 ^ dd = l / 2 ^ (k + dd) ∧ l % 2 ^ (k + dd) ≠ 0 := by
  have halign := lsc_align l k
  by_cases hmod : l % 2 ^ k = 0
  · have he := halign.1 hmod
    constructor
    · rw [he, div_div_pow]
    · intro hz
      obtain ⟨c, hc⟩ := Nat.dvd_of_mod_eq_zero hz
      have hdiv : l / 2 ^ k = 2 ^ dd * c := by
        rw [hc, pow_add, mul_assoc, Nat.mul_div_cancel_left _ (Nat.pos_pow_of_pos k (by omega))]
      rw [he, hdiv] at hodd
      have h2 : (2:Nat) ∣ 2 ^ dd := dvd_pow_self 2 (by omega)
      obtain ⟨u, hu⟩ := h2
      rw [hu] at hodd
      have hmul : 2 * u * c = 2 * (u * c) := by ring
      rw [hmul] at hodd
      omega
  · have he := halign.2 hmod
    constructor
    · have hsd : (l / 2 ^ k + 1) / 2 ^ dd = l / 2 ^ k / 2 ^ dd := by
        apply succ_div_pow2
        rw [← he]
        exact odd_mod_pow (lsc l k) dd hodd hdd
      rw [he, hsd, div_div_pow]
    · exact mod_pow_mono l k (k + dd) (by omega) hmod

theorem rsc_cross (r k dd : Nat) (hq1 : 1 ≤ r / 2 ^ k) (hodd : (r / 2 ^ k) % 2 = 1)
    (hdd : 1 ≤ dd) :
    (r / 2 ^ k - 1) / 2 ^ dd = (r - 1) / 2 ^ (k + dd) ∧ r % 2 ^ (k + dd) ≠ 0 := by
  have hrel : r % 2 ^ (k + dd) ≠ 0 := by
    intro hz
    obtain ⟨c, hc⟩ := Nat.dvd_of_mod_eq_zero hz
    have hdiv : r / 2 ^ k = 2 ^ dd * c := by
      rw [hc, pow_add, mul_assoc, Nat.mul_div_cancel_left _ (Nat.pos_pow_of_pos k (by omega))]
    rw [hdiv] at hodd
    have h2 : (2:Nat) ∣ 2 ^ dd := dvd_pow_self 2 (by omega)
    obtain ⟨u, hu⟩ := h2
    rw [hu] at hodd
    have hmul : 2 * u * c = 2 * (u * c) := by ring
    rw [hmul] at hodd
    omega
  refine ⟨?_, hrel⟩
  have hqodd : (r / 2 ^ k) % 2 ^ dd ≠ 0 := odd_mod_pow _ dd hodd hdd
  have hstep1 : (r / 2 ^ k - 1) / 2 ^ dd = r / 2 ^ k / 2 ^ dd := by
    have he : r / 2 ^ k - 1 + 1 = r / 2 ^ k := by omega
    have hmz : (r / 2 ^ k - 1 + 1) % 2 ^ dd ≠ 0 := by rw [he]; exact hqodd
    have hres := succ_div_pow2 (r / 2 ^ k - 1) dd hmz
    rw [he] at hres
    exact hres.symm
  have hr1 : 1 ≤ r := by
    by_contra hc
    push_neg at hc
    have hr0 : r = 0 := by omega
    rw [hr0, Nat.zero_div] at hq1
    omega
  have hstep2 : (r - 1) / 2 ^ (k + dd) = r / 2 ^ (k + dd) := by
    have he : r - 1 + 1 = r := by omega
    have hmz : (r - 1 + 1) % 2 ^ (k + dd) ≠ 0 := by rw [he]; exact hrel
    have hres := succ_div_pow2 (r - 1) (k + dd) hmz
    rw [he] at hres
    exact hres.symm
  rw [hstep1, hstep2, div_div_pow]

theorem bchar_bounds (L l0 r0 b k : Nat) (hl : 2 ^ L ≤ l0) (hr : r0 ≤ 2 ^ (L + 1))
    (hB : BChar l0 r0 b k) :
    1 ≤ b ∧ 2 ^ L ≤ b * 2 ^ k ∧ (b + 1) * 2 ^ k ≤ r0 ∧ l0 ≤ b * 2 ^ k ∧ k ≤ L := by
  obtain ⟨hg, hcases⟩ := hB
  obtain ⟨hlb1, hlb2⟩ := lsc_bounds k l0
  have hdml : r0 / 2 ^ k * 2 ^ k ≤ r0 := Nat.div_mul_le_self _ _
  have hble : lsc l0 k ≤ b ∧ b + 1 ≤ r0 / 2 ^ k := by
    rcases hcases with ⟨he, _⟩ | ⟨he, _⟩
    · subst he; omega
    · subst he; omega
  have h1 : l0 ≤ b * 2 ^ k := by
    have := Nat.mul_le_mul_right (2 ^ k) hble.1
    omega
  have h2 : (b + 1) * 2 ^ k ≤ r0 := by
    have := Nat.mul_le_mul_right (2 ^ k) hble.2
    omega
  have hL1 : (1:Nat) ≤ 2 ^ L := Nat.one_le_two_pow
  have hb1 : 1 ≤ b := by
    by_contra hc
    push_neg at hc
    have hb0 : b = 0 := by omega
    rw [hb0, Nat.zero_mul] at h1
    omega
  have hkL : k ≤ L := by
    by_contra hc
    push_neg at hc
    have hp1 : (2:Nat) ^ (L + 1) ≤ 2 ^ k := Nat.pow_le_pow_right (by omega) (by omega)
    have hp2 : 2 * 2 ^ k ≤ (b + 1) * 2 ^ k := Nat.mul_le_mul_right _ (by omega)
    omega
  exact ⟨hb1, by omega, h2, h1, hkL⟩

theorem bchar_anc_clean {σ φ : Type} (A : MonoidActionImpl σ φ) (st : LazySegTree σ φ)
    (L l0 r0 b k : Nat) (hl : 2 ^ L ≤ l0) (hr : r0 ≤ 2 ^ (L + 1))
    (hclean : ∀ k2, 1 ≤ k2 → k2 ≤ L →
      (l0 % 2 ^ k2 ≠ 0 → st.func (l0 / 2 ^ k2) = A.identity_f) ∧
      (r0 % 2 ^ k2 ≠ 0 → st.func ((r0 - 1) / 2 ^ k2) = A.identity_f))
    (hB : BChar l0 r0 b k) :
    ∀ dd, 1 ≤ dd → b / 2 ^ dd ≠ 0 → st.func (b / 2 ^ dd) = A.identity_f := by
  intro dd hdd hne
  have hbnd := bchar_bounds L l0 r0 b k hl hr hB
  obtain ⟨hg, hcases⟩ := hB
  have hblt : b < 2 ^ (L + 1 - k) := by
    have hq : r0 / 2 ^ k ≤ 2 ^ (L + 1 - k) := by
      have hmono : r0 / 2 ^ k ≤ 2 ^ (L + 1) / 2 ^ k := Nat.div_le_div_right hr
      rw [Nat.pow_div (by omega) (by omega)] at hmono
      exact hmono
    omega
  have hdb : 2 ^ dd ≤ b := by
    rcases Nat.lt_or_ge b (2 ^ dd) with hlt | hge
    · rw [Nat.div_eq_of_lt hlt] at hne; omega
    · exact hge
  have hddL : k + dd ≤ L := by
    by_contra hc
    push_neg at hc
    have hp1 : (2:Nat) ^ (L + 1 - k) ≤ 2 ^ dd := Nat.pow_le_pow_right (by omega) (by omega)
    omega
  rcases hcases with ⟨he, hodd⟩ | ⟨he, hodd⟩
  · subst he
    obtain ⟨ediv, emod⟩ := lsc_cross l0 k dd hodd hdd
    rw [ediv]
    exact (hclean (k + dd) (by omega) hddL).1 emod
  · subst he
    have hq1 : 1 ≤ r0 / 2 ^ k := by omega
    obtain ⟨ediv, emod⟩ := rsc_cross r0 k dd hq1 hodd hdd
    rw [ediv]
    exact (hclean (k + dd) (by omega) hddL).2 emod

theorem lazy_node_absfold {σ φ : Type} {A : MonoidActionImpl σ φ} (hA : IsAction A)
    (st : LazySegTree σ φ) (L l0 r0 : Nat) (hm : st.m = 2 ^ L)
    (hInv : LazyInv A st.m st.data st.func)
    (hl : 2 ^ L ≤ l0) (hr : r0 ≤ 2 ^ (L + 1))
    (hclean : ∀ k2, 1 ≤ k2 → k2 ≤ L →
      (l0 % 2 ^ k2 ≠ 0 → st.func (l0 / 2 ^ k2) = A.identity_f) ∧
      (r0 % 2 ^ k2 ≠ 0 → st.func ((r0 - 1) / 2 ^ k2) = A.identity_f))
    (k b : Nat) (hB : BChar l0 r0 b k) :
    st.data b = foldRange A.valueMonoid (fun p => absLeaf A st p) (b * 2 ^ k) ((b + 1) * 2 ^ k) := by
  have hbnd := bchar_bounds L l0 r0 b k hl hr hB
  have hm1 : 1 ≤ st.m := by rw [hm]; exact Nat.one_le_two_pow
  have hLm : L < 2 ^ L := Nat.lt_two_pow L
  have hsub := lazy_subtree_fold hA st.m st.data st.func hInv hm1 k b hbnd.1
    (by rw [hm]; exact hbnd.2.1) (by rw [hm]; omega)
  rw [hsub]
  apply foldRange_congr
  intro p hp1 hp2
  -- absLeaf st p = chainApply with full fuel; reduce to fuel k then identity ancestors
  show chainApply A st.func k (p / 2) (st.data p) = chainApply A st.func st.m (p / 2) (st.data p)
  have hkm : k + (st.m - k) = st.m := by omega
  have hsplit := chainApply_split A st.func k (st.m - k) (p / 2) (st.data p)
  rw [hkm] at hsplit
  rw [hsplit]
  have hpb : p / 2 ^ (k + 1) = b / 2 := by
    have hpk : p / 2 ^ k = b := by
      apply Nat.div_eq_of_lt_le
      · exact hp1
      · exact hp2
    rw [show k + 1 = k + 1 from rfl, ← div_div_pow p k 1, hpk, pow_one]
  have hnode : p / 2 / 2 ^ k = b / 2 := by
    rw [div_two_pow_succ, hpb]
  rw [hnode]
  rw [chainApply_all_id hA st.func (st.m - k) (b / 2) _ ?_]
  intro dd hdd
  have hdd2 : b / 2 / 2 ^ dd = b / 2 ^ (dd + 1) := div_two_pow_succ b dd
  rw [hdd2]
  rw [hdd2] at hdd
  exact bchar_anc_clean A st L l0 r0 b k hl hr hclean hB (dd + 1) (by omega) hdd

theorem lazy_range_fold_spec {σ φ : Type} {A : MonoidActionImpl σ φ} (hA : IsAction A)
    (st : LazySegTree σ φ) (hok : LazyOk A st) (sb eb : RBound)
    (h1 : sb.startIndex ≤ RBound.endIndex st.n eb) (h2 : RBound.endIndex st.n eb ≤ st.n) :
    (LazySegTree.range_fold A st sb eb).1 =
      foldRange A.valueMonoid (fun i => absLeaf A st (i + st.m)) sb.startIndex
        (RBound.endIndex st.n eb) ∧
    LazyOk A (LazySegTree.range_fold A st sb eb).2 ∧
    (LazySegTree.range_fold A st sb eb).2.n = st.n ∧
    (LazySegTree.range_fold A st sb eb).2.m = st.m ∧
    (∀ p, p < 2 * st.m → absLeaf A (LazySegTree.range_fold A st sb eb).2 p = absLeaf A st p) := by
  obtain ⟨⟨L, hm⟩, hnm, hInv⟩ := hok
  have hctz : ctz st.m st.m = L := by rw [hm]; exact ctz_two_pow L (2 ^ L) (le_refl _)
  have hL1 : (1:Nat) ≤ 2 ^ L := Nat.one_le_two_pow
  have hpow1 : (2:Nat) ^ (L + 1) = 2 * 2 ^ L := by rw [pow_succ]; ring
  have hl : 2 ^ L ≤ sb.startIndex + st.m := by omega
  have hr : RBound.endIndex st.n eb + st.m ≤ 2 ^ (L + 1) := by omega
  have hlr : sb.startIndex + st.m ≤ RBound.endIndex st.n eb + st.m := by omega
  obtain ⟨pn, pm, pinv, pabs, _, pclean⟩ :=
    pdl_spec hA L (sb.startIndex + st.m) (RBound.endIndex st.n eb + st.m) hlr hl hr L st
      (le_refl L) hm
  have hst2 : (LazySegTree.range_fold A st sb eb).2 =
      pushDownLoop A (sb.startIndex + st.m) (RBound.endIndex st.n eb + st.m) (ctz st.m st.m)
        st := rfl
  rw [hctz] at hst2
  have hInv1 := pinv hInv
  refine ⟨?_, ⟨⟨L, by rw [hst2, pm, hm]⟩, by rw [hst2, pm, pn]; omega, ?_⟩,
    by rw [hst2, pn], by rw [hst2, pm], ?_⟩
  · -- fold value
    have hfold : (LazySegTree.range_fold A st sb eb).1 =
        foldLoop A.valueMonoid
          (pushDownLoop A (sb.startIndex + st.m) (RBound.endIndex st.n eb + st.m) L st).data
          (RBound.endIndex st.n eb + st.m) (sb.startIndex + st.m)
          (RBound.endIndex st.n eb + st.m) A.identity_s A.identity_s := by
      show foldLoop A.valueMonoid
          (pushDownLoop A (sb.startIndex + st.m) (RBound.endIndex st.n eb + st.m)
            (ctz st.m st.m) st).data
          (RBound.endIndex st.n eb + st.m) (sb.startIndex + st.m)
          (RBound.endIndex st.n eb + st.m) A.identity_s A.identity_s = _
      rw [hctz]
    rw [hfold]
    have hclean2 : ∀ k2, 1 ≤ k2 → k2 ≤ L →
        ((sb.startIndex + st.m) % 2 ^ k2 ≠ 0 →
          (pushDownLoop A (sb.startIndex + st.m) (RBound.endIndex st.n eb + st.m) L st).func
            ((sb.startIndex + st.m) / 2 ^ k2) = A.identity_f) ∧
        ((RBound.endIndex st.n eb + st.m) % 2 ^ k2 ≠ 0 →
          (pushDownLoop A (sb.startIndex + st.m) (RBound.endIndex st.n eb + st.m) L st).func
            ((RBound.endIndex st.n eb + st.m - 1) / 2 ^ k2) = A.identity_f) :=
      fun k2 hk1 hk2 => pclean k2 hk1 hk2
    have hmain := foldLoop_eq (valueMonoid_is hA)
      (pushDownLoop A (sb.startIndex + st.m) (RBound.endIndex st.n eb + st.m) L st).data
      (fun p => absLeaf A
        (pushDownLoop A (sb.startIndex + st.m) (RBound.endIndex st.n eb + st.m) L st) p)
      (RBound.endIndex st.n eb + st.m) 0 (sb.startIndex + st.m)
      (RBound.endIndex st.n eb + st.m) A.identity_s A.identity_s (le_refl _) hlr ?_
    · rw [hmain]
      have hid : A.valueMonoid.identity = A.identity_s := rfl
      rw [← hid, (valueMonoid_is hA).id_op]
      have e0 : (2:Nat) ^ 0 = 1 := pow_zero 2
      rw [e0, mul_one, mul_one, (valueMonoid_is hA).op_id]
      rw [foldRange_shift A.valueMonoid _ st.m sb.startIndex (RBound.endIndex st.n eb)]
      apply foldRange_congr
      intro j hj1 hj2
      exact pabs (j + st.m) (by omega)
    · intro k b hk hb
      have ez : 0 + k = k := by omega
      rw [ez]
      have hmp : (pushDownLoop A (sb.startIndex + st.m) (RBound.endIndex st.n eb + st.m)
          L st).m = 2 ^ L := by rw [pm, hm]
      have hInvp : LazyInv A
          (pushDownLoop A (sb.startIndex + st.m) (RBound.endIndex st.n eb + st.m) L st).m
          (pushDownLoop A (sb.startIndex + st.m) (RBound.endIndex st.n eb + st.m) L st).data
          (pushDownLoop A (sb.startIndex + st.m) (RBound.endIndex st.n eb + st.m) L st).func := by
        rw [pm]; exact hInv1
      exact lazy_node_absfold hA _ L (sb.startIndex + st.m) (RBound.endIndex st.n eb + st.m)
        hmp hInvp hl hr hclean2 k b ⟨hk, hb⟩
  · -- invariant of the returned state
    rw [hst2]
    have hmr : (pushDownLoop A (sb.startIndex + st.m) (RBound.endIndex st.n eb + st.m)
        L st).m = st.m := pm
    rw [hmr]
    exact hInv1
  · -- abstract leaves preserved
    intro p hp
    rw [hst2]
    exact pabs p hp

theorem bnodes_lt : ∀ (fuel l r : Nat), ∀ b ∈ bnodes fuel l r, b < r := by
  intro fuel
  induction fuel with
  | zero => intro l r b hb; simp [bnodes] at hb
  | succ fuel ih =>
    intro l r b hb
    by_cases hlt : l < r
    · simp only [bnodes, if_pos hlt, List.mem_append] at hb
      rcases hb with (h1 | h2) | h3
      · by_cases hp : l % 2 = 1
        · rw [if_pos hp] at h1; simp at h1; omega
        · rw [if_neg hp] at h1; simp at h1
      · by_cases hp : r % 2 = 1
        · rw [if_pos hp] at h2; simp at h2; omega
        · rw [if_neg hp] at h2; simp at h2
      · have hlt2 := ih _ _ b h3
        by_cases hp : r % 2 = 1
        · rw [if_pos hp] at hlt2; omega
        · rw [if_neg hp] at hlt2; omega
    · simp only [bnodes, if_neg hlt] at hb
      simp at hb

theorem applyStepL_char {σ φ : Type} (A : MonoidActionImpl σ φ) (f : φ) (l : Nat)
    (st : LazySegTree σ φ) :
    (applyStepL A f l st).n = st.n ∧ (applyStepL A f l st).m = st.m ∧
    ∀ j : Nat,
      ((applyStepL A f l st).data j =
        if l % 2 = 1 ∧ j = l then A.apply (st.data j) f else st.data j) ∧
      ((applyStepL A f l st).func j =
        if l % 2 = 1 ∧ j = l then A.op_f (st.func j) f else st.func j) := by
  by_cases hp : l % 2 = 1
  · simp only [applyStepL, if_pos hp]
    refine ⟨trivial, trivial, fun j => ⟨?_, ?_⟩⟩
    · show upd st.data l (A.apply (st.data l) f) j = _
      by_cases hj : j = l
      · subst hj; rw [upd_same, if_pos ⟨hp, rfl⟩]
      · rw [upd_ne _ _ _ _ hj, if_neg (by tauto)]
    · show upd st.func l (A.op_f (st.func l) f) j = _
      by_cases hj : j = l
      · subst hj; rw [upd_same, if_pos ⟨hp, rfl⟩]
      · rw [upd_ne _ _ _ _ hj, if_neg (by tauto)]
  · simp only [applyStepL, if_neg hp]
    refine ⟨trivial, trivial, fun j => ⟨?_, ?_⟩⟩ <;> rw [if_neg (by tauto)]

theorem applyStepR_char {σ φ : Type} (A : MonoidActionImpl σ φ) (f : φ) (r : Nat)
    (st : LazySegTree σ φ) :
    (applyStepR A f r st).n = st.n ∧ (applyStepR A f r st).m = st.m ∧
    ∀ j : Nat,
      ((applyStepR A f r st).data j =
        if r % 2 = 1 ∧ j = r - 1 then A.apply (st.data j) f else st.data j) ∧
      ((applyStepR A f r st).func j =
        if r % 2 = 1 ∧ j = r - 1 then A.op_f (st.func j) f else st.func j) := by
  by_cases hp : r % 2 = 1
  · simp only [applyStepR, if_pos hp]
    refine ⟨trivial, trivial, fun j => ⟨?_, ?_⟩⟩
    · show upd st.data (r - 1) (A.apply (st.data (r - 1)) f) j = _
      by_cases hj : j = r - 1
      · subst hj; rw [upd_same, if_pos ⟨hp, rfl⟩]
      · rw [upd_ne _ _ _ _ hj, if_neg (by tauto)]
    · show upd st.func (r - 1) (A.op_f (st.func (r - 1)) f) j = _
      by_cases hj : j = r - 1
      · subst hj; rw [upd_same, if_pos ⟨hp, rfl⟩]
      · rw [upd_ne _ _ _ _ hj, if_neg (by tauto)]
  · simp only [applyStepR, if_neg hp]
    refine ⟨trivial, trivial, fun j => ⟨?_, ?_⟩⟩ <;> rw [if_neg (by tauto)]

theorem applyLoop_char {σ φ : Type} (A : MonoidActionImpl σ φ) (f : φ) :
    ∀ (fuel l r : Nat) (st : LazySegTree σ φ), r ≤ 2 * l + 1 →
      (applyLoop A f fuel l r st).n = st.n ∧
      (applyLoop A f fuel l r st).m = st.m ∧
      ∀ j : Nat,
        ((applyLoop A f fuel l r st).data j =
          if j ∈ bnodes fuel l r then A.apply (st.data j) f else st.data j) ∧
        ((applyLoop A f fuel l r st).func j =
          if j ∈ bnodes fuel l r then A.op_f (st.func j) f else st.func j) := by
  intro fuel
  induction fuel with
  | zero =>
    intro l r st _
    refine ⟨rfl, rfl, fun j => ⟨?_, ?_⟩⟩ <;> simp [bnodes, applyLoop]
  | succ fuel ih =>
    intro l r st hg
    by_cases hlt : l < r
    · have hunf : applyLoop A f (fuel + 1) l r st =
          applyLoop A f fuel ((if l % 2 = 1 then l + 1 else l) / 2)
            ((if r % 2 = 1 then r - 1 else r) / 2)
            (applyStepR A f r (applyStepL A f l st)) := by
        simp only [applyLoop, if_pos hlt]
      have hrle : (if r % 2 = 1 then r - 1 else r) / 2 ≤ l := by
        by_cases hp : r % 2 = 1
        · rw [if_pos hp]; omega
        · rw [if_neg hp]; omega
      have hg2 : (if r % 2 = 1 then r - 1 else r) / 2 ≤
          2 * ((if l % 2 = 1 then l + 1 else l) / 2) + 1 := by
        by_cases hpl : l % 2 = 1 <;> by_cases hpr : r % 2 = 1
        · rw [if_pos hpl, if_pos hpr]; omega
        · rw [if_pos hpl, if_neg hpr]; omega
        · rw [if_neg hpl, if_pos hpr]; omega
        · rw [if_neg hpl, if_neg hpr]; omega
      obtain ⟨_, _, hLj⟩ := applyStepL_char A f l st
      obtain ⟨hRn, hRm, hRj⟩ := applyStepR_char A f r (applyStepL A f l st)
      have hmem : ∀ j : Nat, j ∈ bnodes (fuel + 1) l r ↔
          ((l % 2 = 1 ∧ j = l) ∨ (r % 2 = 1 ∧ j = r - 1) ∨
            j ∈ bnodes fuel ((if l % 2 = 1 then l + 1 else l) / 2)
              ((if r % 2 = 1 then r - 1 else r) / 2)) := by
        intro j
        simp only [bnodes, if_pos hlt, List.mem_append]
        by_cases hpl : l % 2 = 1 <;> by_cases hpr : r % 2 = 1 <;>
          simp [hpl, hpr] <;> tauto
      rw [hunf]
      obtain ⟨ihn2, ihm2, ihj2⟩ := ih ((if l % 2 = 1 then l + 1 else l) / 2)
        ((if r % 2 = 1 then r - 1 else r) / 2) (applyStepR A f r (applyStepL A f l st)) hg2
      refine ⟨by rw [ihn2, hRn, (applyStepL_char A f l st).1],
        by rw [ihm2, hRm, (applyStepL_char A f l st).2.1], ?_⟩
      intro j
      have hchar : ((applyStepR A f r (applyStepL A f l st)).data j =
            if (l % 2 = 1 ∧ j = l) ∨ (r % 2 = 1 ∧ j = r - 1)
              then A.apply (st.data j) f else st.data j) ∧
          ((applyStepR A f r (applyStepL A f l st)).func j =
            if (l % 2 = 1 ∧ j = l) ∨ (r % 2 = 1 ∧ j = r - 1)
              then A.op_f (st.func j) f else st.func j) := by
      -- the two hit conditions are mutually exclusive: `l` odd and `r` odd
      -- with `l < r` force `r - 1 > l`
        obtain ⟨hLd, hLf⟩ := hLj j
        obtain ⟨hRd, hRf⟩ := hRj j
        by_cases h1 : l % 2 = 1 ∧ j = l
        · have hne : ¬ (r % 2 = 1 ∧ j = r - 1) := by
            intro h2
            omega
          rw [hRd, if_neg hne, hLd, if_pos h1, hRf, if_neg hne, hLf, if_pos h1]
          rw [if_pos (Or.inl h1), if_pos (Or.inl h1)]
          exact ⟨rfl, rfl⟩
        · by_cases h2 : r % 2 = 1 ∧ j = r - 1
          · rw [hRd, if_pos h2, hLd, if_neg h1, hRf, if_pos h2, hLf, if_neg h1]
            rw [if_pos (Or.inr h2), if_pos (Or.inr h2)]
            exact ⟨rfl, rfl⟩
          · rw [hRd, if_neg h2, hLd, if_neg h1, hRf, if_neg h2, hLf, if_neg h1]
            rw [if_neg (by tauto), if_neg (by tauto)]
            exact ⟨rfl, rfl⟩
      obtain ⟨ihd, ihf⟩ := ihj2 j
      by_cases hj : j ∈ bnodes fuel ((if l % 2 = 1 then l + 1 else l) / 2)
          ((if r % 2 = 1 then r - 1 else r) / 2)
      · have hjlt : j < (if r % 2 = 1 then r - 1 else r) / 2 := bnodes_lt _ _ _ j hj
        have hne1 : ¬ (l % 2 = 1 ∧ j = l) := by intro h; omega
        have hne2 : ¬ (r % 2 = 1 ∧ j = r - 1) := by intro h; omega
        have hnh : ¬ ((l % 2 = 1 ∧ j = l) ∨ (r % 2 = 1 ∧ j = r - 1)) := fun h => h.elim hne1 hne2
        have hmm := (hmem j).mpr (Or.inr (Or.inr hj))
        rw [ihd, if_pos hj, hchar.1, if_neg hnh, if_pos hmm, ihf, if_pos hj, hchar.2,
          if_neg hnh, if_pos hmm]
        exact ⟨rfl, rfl⟩
      · rw [ihd, if_neg hj, hchar.1, ihf, if_neg hj, hchar.2]
        by_cases hh : (l % 2 = 1 ∧ j = l) ∨ (r % 2 = 1 ∧ j = r - 1)
        · have hmm := (hmem j).mpr (by tauto)
          rw [if_pos hh, if_pos hh, if_pos hmm, if_pos hmm]
          exact ⟨rfl, rfl⟩
        · have hmm : ¬ j ∈ bnodes (fuel + 1) l r := by rw [hmem j]; tauto
          rw [if_neg hh, if_neg hh, if_neg hmm, if_neg hmm]
          exact ⟨rfl, rfl⟩
    · have hunf : applyLoop A f (fuel + 1) l r st = st := by
        simp only [applyLoop, if_neg hlt]
      rw [hunf]
      refine ⟨rfl, rfl, fun j => ⟨?_, ?_⟩⟩ <;>
        rw [if_neg (by simp [bnodes, if_neg hlt])]

theorem bnodes_iff_bchar : ∀ (fuel l r b : Nat), r ≤ fuel →
    (b ∈ bnodes fuel l r ↔ ∃ k, BChar l r b k) := by
  intro fuel
  induction fuel with
  | zero =>
    intro l r b hr
    have hr0 : r = 0 := by omega
    subst hr0
    constructor
    · intro h
      simp [bnodes] at h
    · rintro ⟨k, hg, _⟩
      rw [Nat.zero_div] at hg
      omega
  | succ fuel ih =>
    intro l r b hr
    by_cases hlt : l < r
    · have hrhalf : (if r % 2 = 1 then r - 1 else r) / 2 = r / 2 := by
        by_cases hp : r % 2 = 1
        · simp only [if_pos hp]; omega
        · simp only [if_neg hp]
      have hr2 : (if r % 2 = 1 then r - 1 else r) / 2 ≤ fuel := by rw [hrhalf]; omega
      have edd : ∀ k : Nat, (if r % 2 = 1 then r - 1 else r) / 2 / 2 ^ k = r / 2 ^ (k + 1) := by
        intro k
        rw [hrhalf, div_two_pow_succ]
      have hconv : ∀ k : Nat, BChar l r b (k + 1) ↔
          BChar ((if l % 2 = 1 then l + 1 else l) / 2)
            ((if r % 2 = 1 then r - 1 else r) / 2) b k := by
        intro k
        unfold BChar
        rw [lsc_succ, edd k]
      have hhead : ((l % 2 = 1 ∧ b = l) ∨ (r % 2 = 1 ∧ b = r - 1)) ↔ BChar l r b 0 := by
        unfold BChar
        rw [lsc_zero, pow_zero, Nat.div_one]
        constructor
        · rintro (⟨h1, h2⟩ | ⟨h1, h2⟩)
          · exact ⟨hlt, Or.inl ⟨h2, by omega⟩⟩
          · exact ⟨hlt, Or.inr ⟨h2, h1⟩⟩
        · rintro ⟨_, (⟨h1, h2⟩ | ⟨h1, h2⟩)⟩
          · exact Or.inl ⟨by omega, h1⟩
          · exact Or.inr ⟨h2, h1⟩
      have hmemb : b ∈ bnodes (fuel + 1) l r ↔
          ((l % 2 = 1 ∧ b = l) ∨ (r % 2 = 1 ∧ b = r - 1) ∨
            b ∈ bnodes fuel ((if l % 2 = 1 then l + 1 else l) / 2)
              ((if r % 2 = 1 then r - 1 else r) / 2)) := by
        simp only [bnodes, if_pos hlt, List.mem_append]
        by_cases hpl : l % 2 = 1 <;> by_cases hpr : r % 2 = 1 <;>
          simp [hpl, hpr] <;> tauto
      rw [hmemb, ih _ _ b hr2]
      constructor
      · rintro (h1 | h2 | ⟨k, hk⟩)
        · exact ⟨0, hhead.mp (Or.inl h1)⟩
        · exact ⟨0, hhead.mp (Or.inr h2)⟩
        · exact ⟨k + 1, (hconv k).mpr hk⟩
      · rintro ⟨k, hk⟩
        cases k with
        | zero =>
          rcases hhead.mpr hk with h | h
          · exact Or.inl h
          · exact Or.inr (Or.inl h)
        | succ k => exact Or.inr (Or.inr ⟨k, (hconv k).mp hk⟩)
    · constructor
      · intro h
        simp only [bnodes, if_neg hlt] at h
        simp at h
      · rintro ⟨k, hg, _⟩
        have hlb := lsc_bounds k l
        have hdl : l / 2 ^ k ≤ lsc l k := by
          by_contra hc
          push_neg at hc
          have h1 : lsc l k + 1 ≤ l / 2 ^ k := by omega
          have h2 := Nat.mul_le_mul_right (2 ^ k) h1
          have h3 : l / 2 ^ k * 2 ^ k ≤ l := Nat.div_mul_le_self _ _
          have h4 : (1:Nat) ≤ 2 ^ k := Nat.one_le_two_pow
          have h5 : (lsc l k + 1) * 2 ^ k = lsc l k * 2 ^ k + 2 ^ k := by ring
          omega
        have hdr : r / 2 ^ k ≤ l / 2 ^ k := Nat.div_le_div_right (by omega)
        omega

theorem slot_level_unique (L k1 k2 x : Nat) (h1a : 2 ^ (L - k1) ≤ x) (h1b : x < 2 ^ (L + 1 - k1))
    (h2a : 2 ^ (L - k2) ≤ x) (h2b : x < 2 ^ (L + 1 - k2)) (hk1 : k1 ≤ L) (hk2 : k2 ≤ L) :
    k1 = k2 := by
  by_contra hne
  rcases Nat.lt_or_ge k1 k2 with h | h
  · have hp : (2:Nat) ^ (L + 1 - k2) ≤ 2 ^ (L - k1) := Nat.pow_le_pow_right (by omega) (by omega)
    omega
  · have hk12 : k2 < k1 := by omega
    have hp : (2:Nat) ^ (L + 1 - k1) ≤ 2 ^ (L - k2) := Nat.pow_le_pow_right (by omega) (by omega)
    omega

theorem bchar_slot_range (L l0 r0 b k : Nat) (hl : 2 ^ L ≤ l0) (hr : r0 ≤ 2 ^ (L + 1))
    (hB : BChar l0 r0 b k) : 2 ^ (L - k) ≤ b ∧ b < 2 ^ (L + 1 - k) := by
  obtain ⟨hb1, hbl, hbr, hlb, hkL⟩ := bchar_bounds L l0 r0 b k hl hr hB
  have h4 : (1:Nat) ≤ 2 ^ k := Nat.one_le_two_pow
  constructor
  · by_contra hc
    push_neg at hc
    have h1 : b + 1 ≤ 2 ^ (L - k) := by omega
    have h2 := Nat.mul_le_mul_right (2 ^ k) h1
    have h3 : 2 ^ (L - k) * 2 ^ k = 2 ^ L := by rw [← pow_add]; congr 1; omega
    have h5 : (b + 1) * 2 ^ k = b * 2 ^ k + 2 ^ k := by ring
    omega
  · by_contra hc
    push_neg at hc
    have h2 := Nat.mul_le_mul_right (2 ^ k) hc
    have h3 : 2 ^ (L + 1 - k) * 2 ^ k = 2 ^ (L + 1) := by rw [← pow_add]; congr 1; omega
    have h5 : (b + 1) * 2 ^ k = b * 2 ^ k + 2 ^ k := by ring
    omega

theorem wslot_range (L l0 r0 k j : Nat) (hl : 2 ^ L ≤ l0) (hlr : l0 ≤ r0)
    (hr : r0 ≤ 2 ^ (L + 1)) (hk1 : 1 ≤ k) (hkL : k ≤ L)
    (hj : (j = l0 / 2 ^ k ∧ l0 % 2 ^ k ≠ 0) ∨ (j = (r0 - 1) / 2 ^ k ∧ r0 % 2 ^ k ≠ 0)) :
    2 ^ (L - k) ≤ j ∧ j < 2 ^ (L + 1 - k) := by
  have hkpos : 0 < 2 ^ k := Nat.pos_pow_of_pos k (by omega)
  have e1 : 2 ^ (L - k) * 2 ^ k = 2 ^ L := by rw [← pow_add]; congr 1; omega
  have e2 : 2 ^ (L + 1 - k) * 2 ^ k = 2 ^ (L + 1) := by rw [← pow_add]; congr 1; omega
  rcases hj with ⟨he, hmod⟩ | ⟨he, hmod⟩
  · have hne : l0 ≠ 2 ^ (L + 1) := by
      intro hEq
      rw [hEq] at hmod
      exact hmod (pow_mod_pow_zero (L + 1) k (by omega))
    subst he
    constructor
    · rw [Nat.le_div_iff_mul_le hkpos]
      omega
    · rw [Nat.div_lt_iff_lt_mul hkpos]
      omega
  · have hr1 : 1 ≤ r0 := by
      rcases Nat.eq_zero_or_pos r0 with h0 | h0
      · rw [h0] at hmod; simp at hmod
      · exact h0
    have hne : r0 ≠ 2 ^ L := by
      intro hEq
      rw [hEq] at hmod
      exact hmod (pow_mod_pow_zero L k (by omega))
    subst he
    constructor
    · rw [Nat.le_div_iff_mul_le hkpos]
      omega
    · rw [Nat.div_lt_iff_lt_mul hkpos]
      omega

theorem bchar_not_wchar (L l0 r0 b k : Nat) (hl : 2 ^ L ≤ l0) (hlr : l0 ≤ r0)
    (hr : r0 ≤ 2 ^ (L + 1)) (hB : BChar l0 r0 b k) : ¬ WChar l0 r0 L b := by
  rintro ⟨k2, hk21, hk2L, hw⟩
  have hbr := bchar_slot_range L l0 r0 b k hl hr hB
  have hkL : k ≤ L := (bchar_bounds L l0 r0 b k hl hr hB).2.2.2.2
  have hwr := wslot_range L l0 r0 k2 b hl hlr hr hk21 hk2L hw
  have hkk : k = k2 := slot_level_unique L k k2 b hbr.1 hbr.2 hwr.1 hwr.2 hkL hk2L
  subst hkk
  obtain ⟨hg, hbc⟩ := hB
  rcases hw with ⟨he, hmod⟩ | ⟨he, hmod⟩
  · have hlsc : lsc l0 k = l0 / 2 ^ k + 1 := (lsc_align l0 k).2 hmod
    rcases hbc with ⟨hbe, _⟩ | ⟨hbe, _⟩ <;> omega
  · have hr1 : 1 ≤ r0 := by
      rcases Nat.eq_zero_or_pos r0 with h0 | h0
      · rw [h0] at hmod; simp at hmod
      · exact h0
    have he2 : (r0 - 1) / 2 ^ k = r0 / 2 ^ k := by
      have he3 : r0 - 1 + 1 = r0 := by omega
      have hmz : (r0 - 1 + 1) % 2 ^ k ≠ 0 := by rw [he3]; exact hmod
      have hres := succ_div_pow2 (r0 - 1) k hmz
      rw [he3] at hres
      exact hres.symm
    rcases hbc with ⟨hbe, _⟩ | ⟨hbe, _⟩ <;> omega

theorem bchar_anc_wchar (L l0 r0 b k dd : Nat) (hl : 2 ^ L ≤ l0) (hlr : l0 ≤ r0)
    (hr : r0 ≤ 2 ^ (L + 1)) (hB : BChar l0 r0 b k) (hdd : 1 ≤ dd) (hne : 1 ≤ b / 2 ^ dd) :
    WChar l0 r0 L (b / 2 ^ dd) := by
  have hbr := bchar_slot_range L l0 r0 b k hl hr hB
  have hdb : 2 ^ dd ≤ b := by
    by_contra hc
    push_neg at hc
    rw [Nat.div_eq_of_lt hc] at hne
    omega
  have hkddL : k + dd ≤ L := by
    by_contra hc
    push_neg at hc
    have hp : (2:Nat) ^ (L + 1 - k) ≤ 2 ^ dd := Nat.pow_le_pow_right (by omega) (by omega)
    omega
  obtain ⟨hg, hbc⟩ := hB
  rcases hbc with ⟨hbe, hodd⟩ | ⟨hbe, hodd⟩
  · subst hbe
    obtain ⟨ediv, emod⟩ := lsc_cross l0 k dd hodd hdd
    exact ⟨k + dd, by omega, hkddL, Or.inl ⟨ediv, emod⟩⟩
  · subst hbe
    have hq1 : 1 ≤ r0 / 2 ^ k := by omega
    obtain ⟨ediv, emod⟩ := rsc_cross r0 k dd hq1 hodd hdd
    exact ⟨k + dd, by omega, hkddL, Or.inr ⟨ediv, emod⟩⟩

theorem wchar_parent (L l0 r0 j : Nat) (hl : 2 ^ L ≤ l0) (hlr : l0 ≤ r0)
    (hr : r0 ≤ 2 ^ (L + 1)) (hw : WChar l0 r0 L j) (hj2 : 1 ≤ j / 2) :
    WChar l0 r0 L (j / 2) := by
  obtain ⟨k, hk1, hkL, hc⟩ := hw
  have hwr := wslot_range L l0 r0 k j hl hlr hr hk1 hkL hc
  have hkL2 : k + 1 ≤ L := by
    have hj4 : 2 ≤ j := by omega
    by_contra hcc
    push_neg at hcc
    have hke : k = L := by omega
    have hub : j < 2 ^ (L + 1 - k) := hwr.2
    rw [hke, show L + 1 - L = 1 by omega, pow_one] at hub
    omega
  rcases hc with ⟨he, hmod⟩ | ⟨he, hmod⟩
  · refine ⟨k + 1, by omega, hkL2, Or.inl ⟨?_, mod_pow_mono l0 k (k + 1) (by omega) hmod⟩⟩
    have e0 := div_div_pow l0 k 1
    rw [pow_one] at e0
    rw [he, e0]
  · refine ⟨k + 1, by omega, hkL2, Or.inr ⟨?_, mod_pow_mono r0 k (k + 1) (by omega) hmod⟩⟩
    have e0 := div_div_pow (r0 - 1) k 1
    rw [pow_one] at e0
    rw [he, e0]

theorem wchar_anc (L l0 r0 j : Nat) (hl : 2 ^ L ≤ l0) (hlr : l0 ≤ r0)
    (hr : r0 ≤ 2 ^ (L + 1)) (hw : WChar l0 r0 L j) :
    ∀ dd : Nat, 1 ≤ j / 2 ^ dd → WChar l0 r0 L (j / 2 ^ dd) := by
  intro dd
  induction dd with
  | zero =>
    intro h1
    simpa using hw
  | succ dd ih =>
    intro h1
    have e0 := div_div_pow j dd 1
    rw [pow_one] at e0
    rw [← e0] at h1 ⊢
    have h2 : 1 ≤ j / 2 ^ dd := by omega
    exact wchar_parent L l0 r0 (j / 2 ^ dd) hl hlr hr (ih h2) h1

theorem bchar_incomp (L l0 r0 b k c k2 dd : Nat) (hl : 2 ^ L ≤ l0) (hlr : l0 ≤ r0)
    (hr : r0 ≤ 2 ^ (L + 1)) (hB1 : BChar l0 r0 b k) (hB2 : BChar l0 r0 c k2)
    (hdd : 1 ≤ dd) (hanc : b = c / 2 ^ dd) : False := by
  have hb1 : 1 ≤ b := (bchar_bounds L l0 r0 b k hl hr hB1).1
  have hw : WChar l0 r0 L b := by
    rw [hanc] at hb1 ⊢
    exact bchar_anc_wchar L l0 r0 c k2 dd hl hlr hr hB2 hdd hb1
  exact bchar_not_wchar L l0 r0 b k hl hlr hr hB1 hw

theorem bchar_above_wchar (L l0 r0 b k c dd : Nat) (hl : 2 ^ L ≤ l0) (hlr : l0 ≤ r0)
    (hr : r0 ≤ 2 ^ (L + 1)) (hB : BChar l0 r0 b k) (hW : WChar l0 r0 L c)
    (hdd : 1 ≤ dd) (hanc : b = c / 2 ^ dd) : False := by
  have hb1 : 1 ≤ b := (bchar_bounds L l0 r0 b k hl hr hB).1
  have hw2 : WChar l0 r0 L b := by
    rw [hanc] at hb1 ⊢
    exact wchar_anc L l0 r0 c hl hlr hr hW dd hb1
  exact bchar_not_wchar L l0 r0 b k hl hlr hr hB hw2

theorem bchar_covers (L l0 r0 b k p : Nat) (hl : 2 ^ L ≤ l0) (hr : r0 ≤ 2 ^ (L + 1))
    (hB : BChar l0 r0 b k) (h1 : b * 2 ^ k ≤ p) (h2 : p < (b + 1) * 2 ^ k) :
    l0 ≤ p ∧ p < r0 := by
  obtain ⟨_, _, hbr, hlb, _⟩ := bchar_bounds L l0 r0 b k hl hr hB
  omega

theorem div_slot_range (L dd p : Nat) (h1 : 2 ^ L ≤ p) (h2 : p < 2 ^ (L + 1)) (hdd : dd ≤ L) :
    2 ^ (L - dd) ≤ p / 2 ^ dd ∧ p / 2 ^ dd < 2 ^ (L + 1 - dd) := by
  have hkpos : 0 < 2 ^ dd := Nat.pos_pow_of_pos dd (by omega)
  constructor
  · rw [Nat.le_div_iff_mul_le hkpos]
    have e : 2 ^ (L - dd) * 2 ^ dd = 2 ^ L := by rw [← pow_add]; congr 1; omega
    omega
  · rw [Nat.div_lt_iff_lt_mul hkpos]
    have e : 2 ^ (L + 1 - dd) * 2 ^ dd = 2 ^ (L + 1) := by rw [← pow_add]; congr 1; omega
    omega

theorem bchar_pin (L l0 r0 p dd k : Nat) (hl : 2 ^ L ≤ l0) (hlr : l0 ≤ r0)
    (hr : r0 ≤ 2 ^ (L + 1)) (hp1 : 2 ^ L ≤ p) (hp2 : p < 2 ^ (L + 1))
    (hB : BChar l0 r0 (p / 2 ^ dd) k) : k = dd := by
  have hb1 : 1 ≤ p / 2 ^ dd := (bchar_bounds L l0 r0 _ k hl hr hB).1
  have hddL : dd ≤ L := by
    by_contra hc
    push_neg at hc
    have hp : (2:Nat) ^ (L + 1) ≤ 2 ^ dd := Nat.pow_le_pow_right (by omega) (by omega)
    have h0 : p / 2 ^ dd = 0 := Nat.div_eq_of_lt (by omega)
    omega
  have hps := div_slot_range L dd p hp1 hp2 hddL
  have hbs := bchar_slot_range L l0 r0 _ k hl hr hB
  have hkL : k ≤ L := (bchar_bounds L l0 r0 _ k hl hr hB).2.2.2.2
  exact slot_level_unique L k dd _ hbs.1 hbs.2 hps.1 hps.2 hkL hddL

theorem bchar_unique_hit (L l0 r0 p k d k2 : Nat) (hl : 2 ^ L ≤ l0) (hlr : l0 ≤ r0)
    (hr : r0 ≤ 2 ^ (L + 1)) (hp1 : 2 ^ L ≤ p) (hp2 : p < 2 ^ (L + 1))
    (hBk : BChar l0 r0 (p / 2 ^ k) k) (hne : d ≠ k) (hBd : BChar l0 r0 (p / 2 ^ d) k2) :
    False := by
  have hpin := bchar_pin L l0 r0 p d k2 hl hlr hr hp1 hp2 hBd
  rw [hpin] at hBd
  rcases Nat.lt_or_ge d k with hdk | hdk
  · have he : p / 2 ^ k = (p / 2 ^ d) / 2 ^ (k - d) := by
      rw [div_div_pow, show d + (k - d) = k by omega]
    exact bchar_incomp L l0 r0 (p / 2 ^ k) k (p / 2 ^ d) d (k - d) hl hlr hr hBk hBd
      (by omega) he
  · have he : p / 2 ^ d = (p / 2 ^ k) / 2 ^ (d - k) := by
      rw [div_div_pow, show k + (d - k) = d by omega]
    exact bchar_incomp L l0 r0 (p / 2 ^ d) d (p / 2 ^ k) k (d - k) hl hlr hr hBd hBk
      (by omega) he

theorem bnodes_cover : ∀ (fuel l r p : Nat), r ≤ fuel → l ≤ p → p < r →
    ∃ k, p / 2 ^ k ∈ bnodes fuel l r := by
  intro fuel
  induction fuel with
  | zero =>
    intro l r p hr h1 h2
    omega
  | succ fuel ih =>
    intro l r p hr h1 h2
    have hlt : l < r := by omega
    by_cases hcl : l % 2 = 1 ∧ p = l
    · refine ⟨0, ?_⟩
      rw [pow_zero, Nat.div_one]
      have hm : p ∈ (if l % 2 = 1 then [l] else []) := by
        rw [if_pos hcl.1]
        simp [hcl.2]
      simp only [bnodes, if_pos hlt, List.mem_append]
      exact Or.inl (Or.inl hm)
    · by_cases hcr : r % 2 = 1 ∧ p = r - 1
      · refine ⟨0, ?_⟩
        rw [pow_zero, Nat.div_one]
        have hm : p ∈ (if r % 2 = 1 then [r - 1] else []) := by
          rw [if_pos hcr.1]
          simp [hcr.2]
        simp only [bnodes, if_pos hlt, List.mem_append]
        exact Or.inl (Or.inr hm)
      · have hl2 : (if l % 2 = 1 then l + 1 else l) / 2 ≤ p / 2 := by
          by_cases hp : l % 2 = 1
          · have hne : p ≠ l := fun he => hcl ⟨hp, he⟩
            rw [if_pos hp]
            omega
          · rw [if_neg hp]
            omega
        have hr2 : p / 2 < (if r % 2 = 1 then r - 1 else r) / 2 := by
          by_cases hp : r % 2 = 1
          · have hne : p ≠ r - 1 := fun he => hcr ⟨hp, he⟩
            rw [if_pos hp]
            omega
          · rw [if_neg hp]
            omega
        have hf2 : (if r % 2 = 1 then r - 1 else r) / 2 ≤ fuel := by
          by_cases hp : r % 2 = 1
          · rw [if_pos hp]; omega
          · rw [if_neg hp]; omega
        obtain ⟨k, hk⟩ := ih _ _ (p / 2) hf2 hl2 hr2
        refine ⟨k + 1, ?_⟩
        have e : p / 2 ^ (k + 1) = p / 2 / 2 ^ k := (div_two_pow_succ p k).symm
        rw [e]
        simp only [bnodes, if_pos hlt, List.mem_append]
        exact Or.inr hk

theorem pullStepL_char {σ φ : Type} (A : MonoidActionImpl σ φ) (l k : Nat)
    (st : LazySegTree σ φ) :
    (pullStepL A l k st).n = st.n ∧ (pullStepL A l k st).m = st.m ∧
    (pullStepL A l k st).func = st.func ∧
    ∀ j : Nat, (pullStepL A l k st).data j =
      if (l / 2 ^ k) * 2 ^ k ≠ l ∧ j = l / 2 ^ k
        then A.op_s (st.data (2 * (l / 2 ^ k))) (st.data (2 * (l / 2 ^ k) + 1))
        else st.data j := by
  by_cases hc : (l / 2 ^ k) * 2 ^ k ≠ l
  · simp only [pullStepL, if_pos hc]
    refine ⟨trivial, trivial, trivial, fun j => ?_⟩
    by_cases hj : j = l / 2 ^ k
    · subst hj
      rw [upd_same, if_pos ⟨hc, rfl⟩]
    · show upd st.data (l / 2 ^ k) _ j = _
      rw [upd_ne _ _ _ _ hj, if_neg (by tauto)]
  · simp only [pullStepL, if_neg hc]
    refine ⟨trivial, trivial, trivial, fun j => ?_⟩
    rw [if_neg (by tauto)]

theorem pullStepR_char {σ φ : Type} (A : MonoidActionImpl σ φ) (r k : Nat)
    (st : LazySegTree σ φ) :
    (pullStepR A r k st).n = st.n ∧ (pullStepR A r k st).m = st.m ∧
    (pullStepR A r k st).func = st.func ∧
    ∀ j : Nat, (pullStepR A r k st).data j =
      if (r / 2 ^ k) * 2 ^ k ≠ r ∧ j = (r - 1) / 2 ^ k
        then A.op_s (st.data (2 * ((r - 1) / 2 ^ k))) (st.data (2 * ((r - 1) / 2 ^ k) + 1))
        else st.data j := by
  by_cases hc : (r / 2 ^ k) * 2 ^ k ≠ r
  · simp only [pullStepR, if_pos hc]
    refine ⟨trivial, trivial, trivial, fun j => ?_⟩
    by_cases hj : j = (r - 1) / 2 ^ k
    · subst hj
      rw [upd_same, if_pos ⟨hc, rfl⟩]
    · show upd st.data ((r - 1) / 2 ^ k) _ j = _
      rw [upd_ne _ _ _ _ hj, if_neg (by tauto)]
  · simp only [pullStepR, if_neg hc]
    refine ⟨trivial, trivial, trivial, fun j => ?_⟩
    rw [if_neg (by tauto)]

theorem align_cond_iff (x d : Nat) (hd : 0 < 2 ^ d) :
    ((x / 2 ^ d) * 2 ^ d ≠ x ↔ x % 2 ^ d ≠ 0) := by
  have hdm := Nat.div_add_mod x (2 ^ d)
  have hcomm : (x / 2 ^ d) * 2 ^ d = 2 ^ d * (x / 2 ^ d) := Nat.mul_comm _ _
  rw [hcomm]
  omega

theorem pul_spec {σ φ : Type} (A : MonoidActionImpl σ φ) (L l r : Nat)
    (hlr : l ≤ r) (hl : 2 ^ L ≤ l) (hr : r ≤ 2 ^ (L + 1)) :
    ∀ (t : Nat) (st : LazySegTree σ φ), t ≤ L →
      (pullUpLoop A l r t st).n = st.n ∧
      (pullUpLoop A l r t st).m = st.m ∧
      (pullUpLoop A l r t st).func = st.func ∧
      (∀ j, ¬ WChar l r t j → (pullUpLoop A l r t st).data j = st.data j) ∧
      (∀ j, WChar l r t j →
        (pullUpLoop A l r t st).data j =
          A.op_s ((pullUpLoop A l r t st).data (2 * j))
            ((pullUpLoop A l r t st).data (2 * j + 1))) := by
  intro t
  induction t with
  | zero =>
    intro st _
    refine ⟨rfl, rfl, rfl, fun j _ => rfl, fun j hw => ?_⟩
    obtain ⟨k, hk1, hk2, _⟩ := hw
    omega
  | succ t ih =>
    intro st ht
    obtain ⟨ihn, ihm, ihf, ihframe, ihw⟩ := ih st (by omega)
    have hpos : 0 < 2 ^ (t + 1) := Nat.pos_pow_of_pos (t + 1) (by omega)
    have hcondl := align_cond_iff l (t + 1) hpos
    have hcondr := align_cond_iff r (t + 1) hpos
    have epow : 2 ^ (L - t) = 2 * 2 ^ (L - (t + 1)) := by
      rw [show L - t = (L - (t + 1)) + 1 by omega, pow_succ]
      ring
    have hunf : pullUpLoop A l r (t + 1) st =
        pullStepR A r (t + 1) (pullStepL A l (t + 1) (pullUpLoop A l r t st)) := rfl
    obtain ⟨hLn, hLm, hLf, hLd⟩ := pullStepL_char A l (t + 1) (pullUpLoop A l r t st)
    obtain ⟨hRn, hRm, hRf, hRd⟩ :=
      pullStepR_char A r (t + 1) (pullStepL A l (t + 1) (pullUpLoop A l r t st))
    have hRd2 : ∀ x : Nat, (pullUpLoop A l r (t + 1) st).data x =
        if (r / 2 ^ (t + 1)) * 2 ^ (t + 1) ≠ r ∧ x = (r - 1) / 2 ^ (t + 1)
          then A.op_s
            ((pullStepL A l (t + 1) (pullUpLoop A l r t st)).data (2 * ((r - 1) / 2 ^ (t + 1))))
            ((pullStepL A l (t + 1) (pullUpLoop A l r t st)).data
              (2 * ((r - 1) / 2 ^ (t + 1)) + 1))
          else (pullStepL A l (t + 1) (pullUpLoop A l r t st)).data x := by
      intro x
      rw [hunf]
      exact hRd x
    have hjl_low : l % 2 ^ (t + 1) ≠ 0 → l / 2 ^ (t + 1) < 2 ^ (L - t) := by
      intro hmod
      have hw := wslot_range L l r (t + 1) (l / 2 ^ (t + 1)) hl hlr hr (by omega) (by omega)
        (Or.inl ⟨rfl, hmod⟩)
      rw [show L + 1 - (t + 1) = L - t by omega] at hw
      exact hw.2
    have hjr_low : r % 2 ^ (t + 1) ≠ 0 → (r - 1) / 2 ^ (t + 1) < 2 ^ (L - t) := by
      intro hmod
      have hw := wslot_range L l r (t + 1) ((r - 1) / 2 ^ (t + 1)) hl hlr hr (by omega) (by omega)
        (Or.inr ⟨rfl, hmod⟩)
      rw [show L + 1 - (t + 1) = L - t by omega] at hw
      exact hw.2
    have hjl_high : l % 2 ^ (t + 1) ≠ 0 → 2 ^ (L - (t + 1)) ≤ l / 2 ^ (t + 1) := by
      intro hmod
      exact (wslot_range L l r (t + 1) (l / 2 ^ (t + 1)) hl hlr hr (by omega) (by omega)
        (Or.inl ⟨rfl, hmod⟩)).1
    have hjr_high : r % 2 ^ (t + 1) ≠ 0 → 2 ^ (L - (t + 1)) ≤ (r - 1) / 2 ^ (t + 1) := by
      intro hmod
      exact (wslot_range L l r (t + 1) ((r - 1) / 2 ^ (t + 1)) hl hlr hr (by omega) (by omega)
        (Or.inr ⟨rfl, hmod⟩)).1
    have hwhigh : ∀ j : Nat, WChar l r t j → 2 ^ (L - t) ≤ j := by
      intro j hw
      obtain ⟨k, hk1, hkt, hc⟩ := hw
      have h1 := (wslot_range L l r k j hl hlr hr hk1 (by omega) hc).1
      have h2 : (2 : Nat) ^ (L - t) ≤ 2 ^ (L - k) := Nat.pow_le_pow_right (by omega) (by omega)
      omega
    have hnLhigh : ∀ x : Nat, 2 ^ (L - t) ≤ x →
        ¬ ((l / 2 ^ (t + 1)) * 2 ^ (t + 1) ≠ l ∧ x = l / 2 ^ (t + 1)) := by
      intro x hx
      rintro ⟨h1, h2⟩
      have hmod := hcondl.mp h1
      have hlow := hjl_low hmod
      omega
    have hnRhigh : ∀ x : Nat, 2 ^ (L - t) ≤ x →
        ¬ ((r / 2 ^ (t + 1)) * 2 ^ (t + 1) ≠ r ∧ x = (r - 1) / 2 ^ (t + 1)) := by
      intro x hx
      rintro ⟨h1, h2⟩
      have hmod := hcondr.mp h1
      have hlow := hjr_low hmod
      omega
    have hhigh : ∀ x : Nat, 2 ^ (L - t) ≤ x →
        (pullUpLoop A l r (t + 1) st).data x = (pullUpLoop A l r t st).data x := by
      intro x hx
      rw [hRd2 x, if_neg (hnRhigh x hx), hLd x, if_neg (hnLhigh x hx)]
    refine ⟨?_, ?_, ?_, ?_, ?_⟩
    · rw [hunf, hRn, hLn, ihn]
    · rw [hunf, hRm, hLm, ihm]
    · rw [hunf, hRf, hLf, ihf]
    · intro j hnw
      have hnwt : ¬ WChar l r t j := by
        rintro ⟨k, hk1, hkt, hc⟩
        exact hnw ⟨k, hk1, by omega, hc⟩
      have hn1 : ¬ ((l / 2 ^ (t + 1)) * 2 ^ (t + 1) ≠ l ∧ j = l / 2 ^ (t + 1)) := by
        rintro ⟨h1, h2⟩
        exact hnw ⟨t + 1, by omega, le_refl _, Or.inl ⟨h2, hcondl.mp h1⟩⟩
      have hn2 : ¬ ((r / 2 ^ (t + 1)) * 2 ^ (t + 1) ≠ r ∧ j = (r - 1) / 2 ^ (t + 1)) := by
        rintro ⟨h1, h2⟩
        exact hnw ⟨t + 1, by omega, le_refl _, Or.inr ⟨h2, hcondr.mp h1⟩⟩
      rw [hRd2 j, if_neg hn2, hLd j, if_neg hn1]
      exact ihframe j hnwt
    · intro j hw
      by_cases hwt : WChar l r t j
      · have hjhigh := hwhigh j hwt
        have hch1 : 2 ^ (L - t) ≤ 2 * j := by omega
        have hch2 : 2 ^ (L - t) ≤ 2 * j + 1 := by omega
        rw [hhigh j hjhigh, hhigh (2 * j) hch1, hhigh (2 * j + 1) hch2]
        exact ihw j hwt
      · obtain ⟨k, hk1, hk2, hc⟩ := hw
        have hkeq : k = t + 1 := by
          by_contra hne
          exact hwt ⟨k, hk1, by omega, hc⟩
        rw [hkeq] at hc
        rcases hc with ⟨hje, hmod⟩ | ⟨hje, hmod⟩
        · subst hje
          have hcl : (l / 2 ^ (t + 1)) * 2 ^ (t + 1) ≠ l := hcondl.mpr hmod
          have hjhi := hjl_high hmod
          have hch1 : 2 ^ (L - t) ≤ 2 * (l / 2 ^ (t + 1)) := by omega
          have hch2 : 2 ^ (L - t) ≤ 2 * (l / 2 ^ (t + 1)) + 1 := by omega
          by_cases hjj : (r / 2 ^ (t + 1)) * 2 ^ (t + 1) ≠ r ∧
              l / 2 ^ (t + 1) = (r - 1) / 2 ^ (t + 1)
          · rw [hRd2 (l / 2 ^ (t + 1)), if_pos hjj, ← hjj.2,
              hRd2 (2 * (l / 2 ^ (t + 1))), if_neg (hnRhigh _ hch1),
              hRd2 (2 * (l / 2 ^ (t + 1)) + 1), if_neg (hnRhigh _ hch2)]
          · rw [hRd2 (l / 2 ^ (t + 1)), if_neg hjj, hLd (l / 2 ^ (t + 1)),
              if_pos ⟨hcl, rfl⟩,
              hRd2 (2 * (l / 2 ^ (t + 1))), if_neg (hnRhigh _ hch1),
              hLd (2 * (l / 2 ^ (t + 1))), if_neg (hnLhigh _ hch1),
              hRd2 (2 * (l / 2 ^ (t + 1)) + 1), if_neg (hnRhigh _ hch2),
              hLd (2 * (l / 2 ^ (t + 1)) + 1), if_neg (hnLhigh _ hch2)]
        · subst hje
          have hclr : (r / 2 ^ (t + 1)) * 2 ^ (t + 1) ≠ r := hcondr.mpr hmod
          have hjhi := hjr_high hmod
          have hch1 : 2 ^ (L - t) ≤ 2 * ((r - 1) / 2 ^ (t + 1)) := by omega
          have hch2 : 2 ^ (L - t) ≤ 2 * ((r - 1) / 2 ^ (t + 1)) + 1 := by omega
          rw [hRd2 ((r - 1) / 2 ^ (t + 1)), if_pos ⟨hclr, rfl⟩,
            hRd2 (2 * ((r - 1) / 2 ^ (t + 1))), if_neg (hnRhigh _ hch1),
            hRd2 (2 * ((r - 1) / 2 ^ (t + 1)) + 1), if_neg (hnRhigh _ hch2)]

theorem lazy_range_apply_core {σ φ : Type} {A : MonoidActionImpl σ φ} (hA : IsAction A)
    (L : Nat) (st : LazySegTree σ φ) (hm : st.m = 2 ^ L)
    (hInv : LazyInv A st.m st.data st.func) (l r : Nat) (f : φ)
    (hl : 2 ^ L ≤ l) (hlr : l ≤ r) (hr : r ≤ 2 ^ (L + 1)) :
    (pullUpLoop A l r L (applyLoop A f r l r (pushDownLoop A l r L st))).n = st.n ∧
    (pullUpLoop A l r L (applyLoop A f r l r (pushDownLoop A l r L st))).m = st.m ∧
    LazyInv A st.m
      (pullUpLoop A l r L (applyLoop A f r l r (pushDownLoop A l r L st))).data
      (pullUpLoop A l r L (applyLoop A f r l r (pushDownLoop A l r L st))).func ∧
    ∀ p, 2 ^ L ≤ p → p < 2 ^ (L + 1) →
      absLeaf A (pullUpLoop A l r L (applyLoop A f r l r (pushDownLoop A l r L st))) p =
        if l ≤ p ∧ p < r then A.apply (absLeaf A st p) f else absLeaf A st p := by
  obtain ⟨pn, pm, pinv, pabs, pframe, pclean⟩ := pdl_spec hA L l r hlr hl hr L st (le_refl L) hm
  have hInv1 : LazyInv A st.m (pushDownLoop A l r L st).data (pushDownLoop A l r L st).func :=
    pinv hInv
  have hg : r ≤ 2 * l + 1 := by
    have e : (2:Nat) ^ (L + 1) = 2 * 2 ^ L := by rw [pow_succ]; ring
    omega
  obtain ⟨a_n, a_m, a_j⟩ := applyLoop_char A f r l r (pushDownLoop A l r L st) hg
  obtain ⟨u_n, u_m, u_f, uframe, uw⟩ :=
    pul_spec A L l r hlr hl hr L (applyLoop A f r l r (pushDownLoop A l r L st)) (le_refl L)
  have hBif : ∀ x : Nat, x ∈ bnodes r l r ↔ ∃ k, BChar l r x k :=
    fun x => bnodes_iff_bchar r l r x (le_refl r)
  -- characterizations of the state after `applyLoop`
  have hd2B : ∀ x : Nat, (∃ k2, BChar l r x k2) →
      (applyLoop A f r l r (pushDownLoop A l r L st)).data x =
        A.apply ((pushDownLoop A l r L st).data x) f := by
    intro x hx
    rw [(a_j x).1, if_pos ((hBif x).mpr hx)]
  have hd2N : ∀ x : Nat, (¬ ∃ k2, BChar l r x k2) →
      (applyLoop A f r l r (pushDownLoop A l r L st)).data x =
        (pushDownLoop A l r L st).data x := by
    intro x hx
    rw [(a_j x).1, if_neg (fun hmem => hx ((hBif x).mp hmem))]
  have hf2B : ∀ x : Nat, (∃ k2, BChar l r x k2) →
      (applyLoop A f r l r (pushDownLoop A l r L st)).func x =
        A.op_f ((pushDownLoop A l r L st).func x) f := by
    intro x hx
    rw [(a_j x).2, if_pos ((hBif x).mpr hx)]
  have hf2N : ∀ x : Nat, (¬ ∃ k2, BChar l r x k2) →
      (applyLoop A f r l r (pushDownLoop A l r L st)).func x =
        (pushDownLoop A l r L st).func x := by
    intro x hx
    rw [(a_j x).2, if_neg (fun hmem => hx ((hBif x).mp hmem))]
  -- no W slot is a leaf slot
  have hWleaf : ∀ x : Nat, 2 ^ L ≤ x → ¬ WChar l r L x := by
    intro x hx
    rintro ⟨k2, hk21, hk2L, hc⟩
    have hub := (wslot_range L l r k2 x hl hlr hr hk21 hk2L hc).2
    have hmono : (2:Nat) ^ (L + 1 - k2) ≤ 2 ^ L := Nat.pow_le_pow_right (by omega) (by omega)
    omega
  -- no strict ancestor of a boundary node is a boundary node
  have hnoBanc : ∀ (b k dd : Nat), BChar l r b k → 1 ≤ dd →
      ¬ ∃ k2, BChar l r (b / 2 ^ dd) k2 := by
    intro b k dd hB hdd
    rintro ⟨k2, hB2⟩
    exact bchar_incomp L l r (b / 2 ^ dd) k2 b k dd hl hlr hr hB2 hB hdd rfl
  -- children of a node that is neither W nor a boundary node are neither
  have hfb : ∀ j : Nat, (∃ k2, BChar l r j k2) →
      (pullUpLoop A l r L (applyLoop A f r l r (pushDownLoop A l r L st))).func j =
        A.op_f ((pushDownLoop A l r L st).func j) f := by
    intro j hj
    rw [u_f]
    exact hf2B j hj
  have hfn : ∀ j : Nat, (¬ ∃ k2, BChar l r j k2) →
      (pullUpLoop A l r L (applyLoop A f r l r (pushDownLoop A l r L st))).func j =
        (pushDownLoop A l r L st).func j := by
    intro j hj
    rw [u_f]
    exact hf2N j hj
  have hdNN : ∀ x : Nat, (¬ ∃ k2, BChar l r x k2) → ¬ WChar l r L x →
      (pullUpLoop A l r L (applyLoop A f r l r (pushDownLoop A l r L st))).data x =
        (pushDownLoop A l r L st).data x := by
    intro x hxB hxW
    rw [uframe x hxW]
    exact hd2N x hxB
  refine ⟨by rw [u_n, a_n, pn], by rw [u_m, a_m, pm], ?_, ?_⟩
  · -- the internal-node invariant after range_apply
    intro j hj1 hjm
    by_cases hBj : ∃ k, BChar l r j k
    · obtain ⟨k, hBk⟩ := hBj
      have hnW : ¬ WChar l r L j := bchar_not_wchar L l r j k hl hlr hr hBk
      have hd3j :
          (pullUpLoop A l r L (applyLoop A f r l r (pushDownLoop A l r L st))).data j =
            A.apply ((pushDownLoop A l r L st).data j) f := by
        rw [uframe j hnW]
        exact hd2B j ⟨k, hBk⟩
      have e21 : (2 * j) / 2 ^ 1 = j := by rw [pow_one]; omega
      have e22 : (2 * j + 1) / 2 ^ 1 = j := by rw [pow_one]; omega
      have hc1B : ¬ ∃ k2, BChar l r (2 * j) k2 := by
        rintro ⟨k2, hB2⟩
        exact bchar_incomp L l r j k (2 * j) k2 1 hl hlr hr hBk hB2 (by omega) e21.symm
      have hc2B : ¬ ∃ k2, BChar l r (2 * j + 1) k2 := by
        rintro ⟨k2, hB2⟩
        exact bchar_incomp L l r j k (2 * j + 1) k2 1 hl hlr hr hBk hB2 (by omega) e22.symm
      have hc1W : ¬ WChar l r L (2 * j) := by
        intro hW
        exact bchar_above_wchar L l r j k (2 * j) 1 hl hlr hr hBk hW (by omega) e21.symm
      have hc2W : ¬ WChar l r L (2 * j + 1) := by
        intro hW
        exact bchar_above_wchar L l r j k (2 * j + 1) 1 hl hlr hr hBk hW (by omega) e22.symm
      rw [hd3j, hfb j ⟨k, hBk⟩, hdNN (2 * j) hc1B hc1W, hdNN (2 * j + 1) hc2B hc2W,
        hA.apply_comp, ← hInv1 j hj1 hjm]
    · by_cases hWj : WChar l r L j
      · have hd3j := uw j hWj
        have hf3j :
            (pullUpLoop A l r L (applyLoop A f r l r (pushDownLoop A l r L st))).func j =
              (pushDownLoop A l r L st).func j := hfn j hBj
        have hfid : (pushDownLoop A l r L st).func j = A.identity_f := by
          obtain ⟨k2, hk21, hk2L, hc⟩ := hWj
          rcases hc with ⟨hje, hmod⟩ | ⟨hje, hmod⟩
          · rw [hje]
            exact (pclean k2 hk21 hk2L).1 hmod
          · rw [hje]
            exact (pclean k2 hk21 hk2L).2 hmod
        rw [hf3j, hfid, hA.apply_id]
        exact hd3j
      · have hc1W : ¬ WChar l r L (2 * j) := by
          intro hW
          have hp : (2 * j) / 2 = j := by omega
          have := wchar_parent L l r (2 * j) hl hlr hr hW (by omega)
          rw [hp] at this
          exact hWj this
        have hc2W : ¬ WChar l r L (2 * j + 1) := by
          intro hW
          have hp : (2 * j + 1) / 2 = j := by omega
          have := wchar_parent L l r (2 * j + 1) hl hlr hr hW (by omega)
          rw [hp] at this
          exact hWj this
        have hc1B : ¬ ∃ k2, BChar l r (2 * j) k2 := by
          rintro ⟨k2, hB2⟩
          have e21 : (2 * j) / 2 ^ 1 = j := by rw [pow_one]; omega
          have hW := bchar_anc_wchar L l r (2 * j) k2 1 hl hlr hr hB2 (by omega)
            (by rw [e21]; omega)
          rw [e21] at hW
          exact hWj hW
        have hc2B : ¬ ∃ k2, BChar l r (2 * j + 1) k2 := by
          rintro ⟨k2, hB2⟩
          have e22 : (2 * j + 1) / 2 ^ 1 = j := by rw [pow_one]; omega
          have hW := bchar_anc_wchar L l r (2 * j + 1) k2 1 hl hlr hr hB2 (by omega)
            (by rw [e22]; omega)
          rw [e22] at hW
          exact hWj hW
        rw [hdNN j hBj hWj, hdNN (2 * j) hc1B hc1W, hdNN (2 * j + 1) hc2B hc2W, hfn j hBj]
        exact hInv1 j hj1 hjm
  · -- the abstract leaf values after range_apply
    intro p hp1 hp2
    have hm3 : (pullUpLoop A l r L (applyLoop A f r l r (pushDownLoop A l r L st))).m =
        2 ^ L := by rw [u_m, a_m, pm, hm]
    have hpW : ¬ WChar l r L p := hWleaf p hp1
    have habs1 : absLeaf A st p = absLeaf A (pushDownLoop A l r L st) p := by
      have e : (2:Nat) ^ (L + 1) = 2 * 2 ^ L := by rw [pow_succ]; ring
      exact (pabs p (by omega)).symm
    rw [habs1]
    have hanc_g1_id : ∀ (b k : Nat), BChar l r b k → ∀ dd, 1 ≤ dd → b / 2 ^ dd ≠ 0 →
        (pushDownLoop A l r L st).func (b / 2 ^ dd) = A.identity_f := by
      intro b k hB
      exact bchar_anc_clean A (pushDownLoop A l r L st) L l r b k hl hr
        (fun k2 hk1 hk2 => pclean k2 hk1 hk2) hB
    by_cases hin : l ≤ p ∧ p < r
    · obtain ⟨kk, hmem⟩ := bnodes_cover r l r p (le_refl r) hin.1 hin.2
      obtain ⟨k0, hB0⟩ := (hBif (p / 2 ^ kk)).mp hmem
      have hpin := bchar_pin L l r p kk k0 hl hlr hr hp1 hp2 hB0
      rw [hpin] at hB0
      rw [if_pos hin]
      -- every other ancestor level of `p` carries no boundary node
      have hnoB : ∀ d : Nat, d ≠ kk → ¬ ∃ k2, BChar l r (p / 2 ^ d) k2 := by
        intro d hd
        rintro ⟨k2, hB2⟩
        exact bchar_unique_hit L l r p kk d k2 hl hlr hr hp1 hp2 hB0 hd hB2
      -- the pending operators of strict ancestors of the hit node are
      -- unchanged and identity; ancestors strictly inside the hit
      -- subtree are unchanged
      show chainApply A
          (pullUpLoop A l r L (applyLoop A f r l r (pushDownLoop A l r L st))).func
          (pullUpLoop A l r L (applyLoop A f r l r (pushDownLoop A l r L st))).m
          (p / 2)
          ((pullUpLoop A l r L (applyLoop A f r l r (pushDownLoop A l r L st))).data p) =
        A.apply (chainApply A (pushDownLoop A l r L st).func (pushDownLoop A l r L st).m
          (p / 2) ((pushDownLoop A l r L st).data p)) f
      rw [hm3, pm, hm]
      cases kk with
      | zero =>
        rw [pow_zero, Nat.div_one] at hB0
        have hd3p :
            (pullUpLoop A l r L (applyLoop A f r l r (pushDownLoop A l r L st))).data p =
              A.apply ((pushDownLoop A l r L st).data p) f := by
          rw [uframe p hpW]
          exact hd2B p ⟨0, hB0⟩
        have hB0e : BChar l r (p / 2 ^ 0) 0 := by rw [pow_zero, Nat.div_one]; exact hB0
        have hid3 : ∀ d : Nat, (p / 2) / 2 ^ d ≠ 0 →
            (pullUpLoop A l r L (applyLoop A f r l r (pushDownLoop A l r L st))).func
              ((p / 2) / 2 ^ d) = A.identity_f := by
          intro d hne
          rw [div_two_pow_succ] at hne ⊢
          rw [hfn (p / 2 ^ (d + 1)) (hnoB (d + 1) (by omega))]
          have he : p / 2 ^ (d + 1) = p / 2 ^ 0 / 2 ^ (d + 1) := by
            rw [pow_zero, Nat.div_one]
          rw [he] at hne ⊢
          exact hanc_g1_id (p / 2 ^ 0) 0 hB0e (d + 1) (by omega) hne
        have hid1 : ∀ d : Nat, (p / 2) / 2 ^ d ≠ 0 →
            (pushDownLoop A l r L st).func ((p / 2) / 2 ^ d) = A.identity_f := by
          intro d hne
          rw [div_two_pow_succ] at hne ⊢
          have he : p / 2 ^ (d + 1) = p / 2 ^ 0 / 2 ^ (d + 1) := by
            rw [pow_zero, Nat.div_one]
          rw [he] at hne ⊢
          exact hanc_g1_id (p / 2 ^ 0) 0 hB0e (d + 1) (by omega) hne
        rw [hd3p, chainApply_all_id hA _ _ _ _ hid3, chainApply_all_id hA _ _ _ _ hid1]
      | succ kq =>
        have hd3p :
            (pullUpLoop A l r L (applyLoop A f r l r (pushDownLoop A l r L st))).data p =
              (pushDownLoop A l r L st).data p := by
          have h0 := hnoB 0 (by omega)
          rw [pow_zero, Nat.div_one] at h0
          exact hdNN p h0 hpW
        rw [hd3p]
        have hkkL : kq + 1 ≤ L := (bchar_bounds L l r _ _ hl hr hB0).2.2.2.2
        have hLlt : L < 2 ^ L := Nat.lt_two_pow L
        have hsum : (kq + 1) + (2 ^ L - (kq + 1)) = 2 ^ L := by omega
        have hsplit3 := chainApply_split A
          (pullUpLoop A l r L (applyLoop A f r l r (pushDownLoop A l r L st))).func
          (kq + 1) (2 ^ L - (kq + 1)) (p / 2) ((pushDownLoop A l r L st).data p)
        have hsplit1 := chainApply_split A (pushDownLoop A l r L st).func
          (kq + 1) (2 ^ L - (kq + 1)) (p / 2) ((pushDownLoop A l r L st).data p)
        rw [hsum] at hsplit3 hsplit1
        rw [hsplit3, hsplit1]
        have hpb : (p / 2) / 2 ^ (kq + 1) = (p / 2 ^ (kq + 1)) / 2 := by
          rw [div_two_pow_succ]
          have e0 := div_div_pow p (kq + 1) 1
          rw [pow_one] at e0
          rw [e0]
        -- the inner chain: strict descendants of the hit node are untouched,
        -- the hit node itself got `f` composed into its pending operator
        have hb1 : 1 ≤ p / 2 ^ (kq + 1) := (bchar_bounds L l r _ _ hl hr hB0).1
        have hsn : 1 ≤ (p / 2) / 2 ^ kq := by rw [div_two_pow_succ]; omega
        have hsnoc3 := chainApply_snoc A
          (pullUpLoop A l r L (applyLoop A f r l r (pushDownLoop A l r L st))).func
          kq (p / 2) ((pushDownLoop A l r L st).data p) hsn
        have hsnoc1 := chainApply_snoc A (pushDownLoop A l r L st).func
          kq (p / 2) ((pushDownLoop A l r L st).data p) hsn
        have hdb : (p / 2) / 2 ^ kq = p / 2 ^ (kq + 1) := div_two_pow_succ p kq
        have hcongr_inner : chainApply A
            (pullUpLoop A l r L (applyLoop A f r l r (pushDownLoop A l r L st))).func
            kq (p / 2) ((pushDownLoop A l r L st).data p) =
          chainApply A (pushDownLoop A l r L st).func
            kq (p / 2) ((pushDownLoop A l r L st).data p) := by
          apply chainApply_congr
          intro d hd hne
          rw [div_two_pow_succ]
          exact hfn (p / 2 ^ (d + 1)) (hnoB (d + 1) (by omega))
        have hfbhit :
            (pullUpLoop A l r L (applyLoop A f r l r (pushDownLoop A l r L st))).func
              (p / 2 ^ (kq + 1)) =
            A.op_f ((pushDownLoop A l r L st).func (p / 2 ^ (kq + 1))) f :=
          hfb (p / 2 ^ (kq + 1)) ⟨kq + 1, hB0⟩
        rw [hsnoc3, hsnoc1, hdb, hcongr_inner, hfbhit, hA.apply_comp]
        -- the outer chain: strict ancestors of the hit node are untouched
        -- and identity on both sides
        have hanc3 : ∀ d : Nat, ((p / 2 ^ (kq + 1)) / 2) / 2 ^ d ≠ 0 →
            (pullUpLoop A l r L (applyLoop A f r l r (pushDownLoop A l r L st))).func
              (((p / 2 ^ (kq + 1)) / 2) / 2 ^ d) = A.identity_f := by
          intro d hne
          have he : ((p / 2 ^ (kq + 1)) / 2) / 2 ^ d = (p / 2 ^ (kq + 1)) / 2 ^ (d + 1) := by
            rw [div_two_pow_succ]
          rw [he] at hne ⊢
          have he2 : (p / 2 ^ (kq + 1)) / 2 ^ (d + 1) = p / 2 ^ ((kq + 1) + (d + 1))  := by
            rw [div_div_pow]
          rw [he2] at hne ⊢
          have hnB := hnoB ((kq + 1) + (d + 1)) (by omega)
          rw [show p / 2 ^ ((kq + 1) + (d + 1)) = (p / 2 ^ (kq + 1)) / 2 ^ (d + 1) by
            rw [div_div_pow]] at hnB hne ⊢
          rw [hfn _ hnB]
          exact hanc_g1_id (p / 2 ^ (kq + 1)) (kq + 1) hB0 (d + 1) (by omega) hne
        have hanc1 : ∀ d : Nat, ((p / 2 ^ (kq + 1)) / 2) / 2 ^ d ≠ 0 →
            (pushDownLoop A l r L st).func (((p / 2 ^ (kq + 1)) / 2) / 2 ^ d) =
              A.identity_f := by
          intro d hne
          have he : ((p / 2 ^ (kq + 1)) / 2) / 2 ^ d = (p / 2 ^ (kq + 1)) / 2 ^ (d + 1) := by
            rw [div_two_pow_succ]
          rw [he] at hne ⊢
          exact hanc_g1_id (p / 2 ^ (kq + 1)) (kq + 1) hB0 (d + 1) (by omega) hne
        rw [hpb]
        rw [chainApply_all_id hA _ _ _ _ hanc3, chainApply_all_id hA _ _ _ _ hanc1]
    · rw [if_neg hin]
      -- `p` lies outside the range: no ancestor of `p` is a boundary node
      have hnoB : ∀ d : Nat, ¬ ∃ k2, BChar l r (p / 2 ^ d) k2 := by
        intro d
        rintro ⟨k2, hB2⟩
        have hpin := bchar_pin L l r p d k2 hl hlr hr hp1 hp2 hB2
        rw [hpin] at hB2
        have hdm := Nat.div_add_mod p (2 ^ d)
        have hmlt : p % 2 ^ d < 2 ^ d := Nat.mod_lt p (Nat.pos_pow_of_pos d (by omega))
        have hcm : (p / 2 ^ d) * 2 ^ d = 2 ^ d * (p / 2 ^ d) := Nat.mul_comm _ _
        have he1 : (p / 2 ^ d) * 2 ^ d ≤ p := by omega
        have he2 : p < (p / 2 ^ d + 1) * 2 ^ d := by
          have e : (p / 2 ^ d + 1) * 2 ^ d = (p / 2 ^ d) * 2 ^ d + 2 ^ d := by ring
          omega
        have hcov := bchar_covers L l r (p / 2 ^ d) d p hl hr hB2 he1 he2
        exact hin ⟨hcov.1, hcov.2⟩
      have hd3p :
          (pullUpLoop A l r L (applyLoop A f r l r (pushDownLoop A l r L st))).data p =
            (pushDownLoop A l r L st).data p := by
        apply hdNN p ?_ hpW
        have he : p = p / 2 ^ 0 := by rw [pow_zero, Nat.div_one]
        rw [he]
        exact hnoB 0
      show chainApply A
          (pullUpLoop A l r L (applyLoop A f r l r (pushDownLoop A l r L st))).func
          (pullUpLoop A l r L (applyLoop A f r l r (pushDownLoop A l r L st))).m
          (p / 2)
          ((pullUpLoop A l r L (applyLoop A f r l r (pushDownLoop A l r L st))).data p) =
        chainApply A (pushDownLoop A l r L st).func (pushDownLoop A l r L st).m
          (p / 2) ((pushDownLoop A l r L st).data p)
      rw [hm3, pm, hm, hd3p]
      apply chainApply_congr
      intro d hd hne
      rw [div_two_pow_succ]
      exact hfn (p / 2 ^ (d + 1)) (hnoB (d + 1))

theorem lazy_range_apply_spec {σ φ : Type} {A : MonoidActionImpl σ φ} (hA : IsAction A)
    (st : LazySegTree σ φ) (hok : LazyOk A st) (sb eb : RBound) (f : φ)
    (h1 : sb.startIndex ≤ RBound.endIndex st.n eb) (h2 : RBound.endIndex st.n eb ≤ st.n) :
    (LazySegTree.range_apply A st sb eb f).n = st.n ∧
    (LazySegTree.range_apply A st sb eb f).m = st.m ∧
    LazyOk A (LazySegTree.range_apply A st sb eb f) ∧
    ∀ p, st.m ≤ p → p < 2 * st.m →
      absLeaf A (LazySegTree.range_apply A st sb eb f) p =
        if sb.startIndex + st.m ≤ p ∧ p < RBound.endIndex st.n eb + st.m
          then A.apply (absLeaf A st p) f else absLeaf A st p := by
  obtain ⟨⟨L, hm⟩, hnm, hInv⟩ := hok
  have hctz : ctz st.m st.m = L := by rw [hm]; exact ctz_two_pow L (2 ^ L) (le_refl _)
  have hL1 : (1:Nat) ≤ 2 ^ L := Nat.one_le_two_pow
  have hpow1 : (2:Nat) ^ (L + 1) = 2 * 2 ^ L := by rw [pow_succ]; ring
  have hre : LazySegTree.range_apply A st sb eb f =
      pullUpLoop A (sb.startIndex + st.m) (RBound.endIndex st.n eb + st.m) L
        (applyLoop A f (RBound.endIndex st.n eb + st.m) (sb.startIndex + st.m)
          (RBound.endIndex st.n eb + st.m)
          (pushDownLoop A (sb.startIndex + st.m) (RBound.endIndex st.n eb + st.m) L st)) := by
    show pullUpLoop A (sb.startIndex + st.m) (RBound.endIndex st.n eb + st.m) (ctz st.m st.m)
      (applyLoop A f (RBound.endIndex st.n eb + st.m) (sb.startIndex + st.m)
        (RBound.endIndex st.n eb + st.m)
        (pushDownLoop A (sb.startIndex + st.m) (RBound.endIndex st.n eb + st.m)
          (ctz st.m st.m) st)) = _
    rw [hctz]
  obtain ⟨cn, cm, cinv, cabs⟩ := lazy_range_apply_core hA L st hm hInv
    (sb.startIndex + st.m) (RBound.endIndex st.n eb + st.m) f (by omega) (by omega) (by omega)
  rw [hre]
  refine ⟨cn, cm, ⟨⟨L, by rw [cm, hm]⟩, by rw [cm, cn]; omega, ?_⟩, ?_⟩
  · rw [cm]
    exact cinv
  · intro p hp1 hp2
    exact cabs p (by omega) (by omega)

theorem lazy_from_slice_ok {σ φ : Type} {A : MonoidActionImpl σ φ} (hA : IsAction A)
    (a : List σ) :
    (LazySegTree.from_slice A a).n = a.length ∧
    (LazySegTree.from_slice A a).m = nextPowerOfTwo a.length ∧
    LazyOk A (LazySegTree.from_slice A a) ∧
    ∀ i, i < a.length →
      absLeaf A (LazySegTree.from_slice A a) (i + nextPowerOfTwo a.length) =
        a.getD i A.identity_s := by
  have hdata : (LazySegTree.from_slice A a).data = (SegTree.from_vec A.valueMonoid a).data :=
    rfl
  have hfunc : ∀ j : Nat, (LazySegTree.from_slice A a).func j = A.identity_f := fun _ => rfl
  have hm : (LazySegTree.from_slice A a).m = nextPowerOfTwo a.length := rfl
  have hn : (LazySegTree.from_slice A a).n = a.length := rfl
  obtain ⟨_, _, hseginv, _⟩ := SegOk_from_vec (valueMonoid_is hA) a
  refine ⟨hn, hm, ⟨⟨npotExp a.length a.length, hm⟩, by rw [hn, hm]; exact npot_ge a.length, ?_⟩,
    ?_⟩
  · intro k hk1 hk2
    rw [hfunc k, hA.apply_id, hdata]
    rw [hm] at hk2
    exact hseginv k hk1 hk2
  · intro i hi
    show chainApply A (LazySegTree.from_slice A a).func (LazySegTree.from_slice A a).m
      ((i + nextPowerOfTwo a.length) / 2)
      ((LazySegTree.from_slice A a).data (i + nextPowerOfTwo a.length)) = _
    rw [chainApply_all_id hA _ _ _ _ (fun d _ => hfunc _), hdata,
      from_vec_leaf A.valueMonoid a (i + nextPowerOfTwo a.length) (by omega),
      if_pos (by omega)]
    congr 1
    omega

theorem applyOpsTree_spec {σ φ : Type} {A : MonoidActionImpl σ φ} (hA : IsAction A) :
    ∀ (ops : List (Nat × Nat × φ)) (st : LazySegTree σ φ) (arr : Nat → σ),
      LazyOk A st → opsValid st.n ops →
      (∀ i, i < st.n → absLeaf A st (i + st.m) = arr i) →
      (applyOpsTree A ops st).n = st.n ∧ (applyOpsTree A ops st).m = st.m ∧
      LazyOk A (applyOpsTree A ops st) ∧
      ∀ i, i < st.n → absLeaf A (applyOpsTree A ops st) (i + st.m) =
        applyOpsNaive A ops arr i := by
  intro ops
  induction ops with
  | nil =>
    intro st arr hok _ habs
    exact ⟨rfl, rfl, hok, habs⟩
  | cons op ops ih =>
    intro st arr hok hval habs
    obtain ⟨l, r, f⟩ := op
    have hvh := hval (l, r, f) (by simp)
    have h1 : (RBound.included l).startIndex ≤ RBound.endIndex st.n (RBound.excluded r) := by
      simp only [RBound.startIndex, RBound.endIndex]
      exact hvh.1
    have h2 : RBound.endIndex st.n (RBound.excluded r) ≤ st.n := by
      simp only [RBound.endIndex]
      exact hvh.2
    obtain ⟨sn, sm, sok, sabs⟩ :=
      lazy_range_apply_spec hA st hok (RBound.included l) (RBound.excluded r) f h1 h2
    have hnm : st.n ≤ st.m := hok.2.1
    have hval2 : opsValid (LazySegTree.range_apply A st (RBound.included l)
        (RBound.excluded r) f).n ops := by
      rw [sn]
      intro o ho
      exact hval o (by simp [ho])
    have habs2 : ∀ i, i < (LazySegTree.range_apply A st (RBound.included l)
        (RBound.excluded r) f).n →
        absLeaf A (LazySegTree.range_apply A st (RBound.included l) (RBound.excluded r) f)
          (i + (LazySegTree.range_apply A st (RBound.included l) (RBound.excluded r) f).m) =
        naiveApply A arr l r f i := by
      intro i hi
      rw [sn] at hi
      rw [sm]
      have hs := sabs (i + st.m) (by omega) (by omega)
      simp only [RBound.startIndex, RBound.endIndex] at hs
      rw [hs]
      unfold naiveApply
      by_cases hc : l ≤ i ∧ i < r
      · rw [if_pos (by omega), if_pos hc, habs i hi]
      · rw [if_neg (by omega), if_neg hc, habs i hi]
    have hrec := ih (LazySegTree.range_apply A st (RBound.included l) (RBound.excluded r) f)
      (naiveApply A arr l r f) sok hval2 habs2
    have hunf : applyOpsTree A ((l, r, f) :: ops) st =
        applyOpsTree A ops
          (LazySegTree.range_apply A st (RBound.included l) (RBound.excluded r) f) := rfl
    have hunf2 : ∀ i : Nat, applyOpsNaive A ((l, r, f) :: ops) arr i =
        applyOpsNaive A ops (naiveApply A arr l r f) i := fun _ => rfl
    rw [hunf]
    refine ⟨hrec.1.trans sn, hrec.2.1.trans sm, hrec.2.2.1, ?_⟩
    intro i hi
    rw [hunf2 i]
    have hres := hrec.2.2.2 i (by rw [sn]; exact hi)
    rw [sm] at hres
    exact hres

/-- C1: for every initial sequence, every list of valid `range_apply`
operations over a conforming monoid action, and every valid query range,
the lazy tree's `range_fold` returns the same value as folding (with
`op_s`, left-to-right) the naive reference array obtained by applying
each operator element-wise to every position of its range. -/
theorem claim_C1 {σ φ : Type} {A : MonoidActionImpl σ φ} (hA : IsAction A) (a : List σ)
    (ops : List (Nat × Nat × φ)) (hops : opsValid a.length ops) (sb eb : RBound)
    (h1 : sb.startIndex ≤ RBound.endIndex a.length eb)
    (h2 : RBound.endIndex a.length eb ≤ a.length) :
    (LazySegTree.range_fold A (applyOpsTree A ops (LazySegTree.from_slice A a)) sb eb).1 =
      foldRange A.valueMonoid (applyOpsNaive A ops (fun i => a.getD i A.identity_s))
        sb.startIndex (RBound.endIndex a.length eb) := by
  obtain ⟨fn, fm, fok, fabs⟩ := lazy_from_slice_ok hA a
  have hops2 : opsValid (LazySegTree.from_slice A a).n ops := by rw [fn]; exact hops
  have habs0 : ∀ i, i < (LazySegTree.from_slice A a).n →
      absLeaf A (LazySegTree.from_slice A a) (i + (LazySegTree.from_slice A a).m) =
        (fun i => a.getD i A.identity_s) i := by
    intro i hi
    rw [fm]
    exact fabs i (by rw [fn] at hi; exact hi)
  obtain ⟨tn, tm, tok, tabs⟩ := applyOpsTree_spec hA ops (LazySegTree.from_slice A a)
    (fun i => a.getD i A.identity_s) fok hops2 habs0
  have htn : (applyOpsTree A ops (LazySegTree.from_slice A a)).n = a.length := tn.trans fn
  have htm : (applyOpsTree A ops (LazySegTree.from_slice A a)).m =
      (LazySegTree.from_slice A a).m := tm
  obtain ⟨fv, _, _, _, _⟩ := lazy_range_fold_spec hA
    (applyOpsTree A ops (LazySegTree.from_slice A a)) tok sb eb
    (by rw [htn]; exact h1) (by rw [htn]; exact h2)
  rw [fv]
  simp only [htn, htm]
  apply foldRange_congr
  intro j hj1 hj2
  have hjn : j < (LazySegTree.from_slice A a).n := by rw [fn]; omega
  have hres := tabs j hjn
  rw [fn] at hjn
  exact hres

/-- C10: `range_fold` on the lazy tree is observationally pure under the
action axioms: it returns the fold of the abstract sequence, and running
it first does not change the value a second `range_fold` returns. -/
theorem claim_C10 {σ φ : Type} {A : MonoidActionImpl σ φ} (hA : IsAction A)
    (st : LazySegTree σ φ) (hok : LazyOk A st) (sb1 eb1 sb2 eb2 : RBound)
    (h11 : sb1.startIndex ≤ RBound.endIndex st.n eb1)
    (h12 : RBound.endIndex st.n eb1 ≤ st.n)
    (h21 : sb2.startIndex ≤ RBound.endIndex st.n eb2)
    (h22 : RBound.endIndex st.n eb2 ≤ st.n) :
    (LazySegTree.range_fold A st sb1 eb1).1 =
      foldRange A.valueMonoid (fun i => absLeaf A st (i + st.m)) sb1.startIndex
        (RBound.endIndex st.n eb1) ∧
    (LazySegTree.range_fold A (LazySegTree.range_fold A st sb1 eb1).2 sb2 eb2).1 =
      (LazySegTree.range_fold A st sb2 eb2).1 := by
  obtain ⟨v1, ok1, n1, m1, abs1⟩ := lazy_range_fold_spec hA st hok sb1 eb1 h11 h12
  refine ⟨v1, ?_⟩
  obtain ⟨v2, _, _, _, _⟩ := lazy_range_fold_spec hA (LazySegTree.range_fold A st sb1 eb1).2
    ok1 sb2 eb2 (by rw [n1]; exact h21) (by rw [n1]; exact h22)
  obtain ⟨v0, _, _, _, _⟩ := lazy_range_fold_spec hA st hok sb2 eb2 h21 h22
  rw [v2, v0]
  simp only [n1, m1]
  apply foldRange_congr
  intro j hj1 hj2
  have hnm : st.n ≤ st.m := hok.2.1
  exact abs1 (j + st.m) (by omega)

theorem claim_C1_witness :
    (LazySegTree.range_fold maxAddAction
      (applyOpsTree maxAddAction [(0, 1, 5)] (LazySegTree.from_slice maxAddAction [1, 2]))
      RBound.unbounded RBound.unbounded).1 =
    foldRange maxAddAction.valueMonoid
      (applyOpsNaive maxAddAction [(0, 1, 5)] (fun i => [1, 2].getD i 0)) 0 2 := by
  have h := claim_C1 maxAddAction_is [1, 2] [(0, 1, 5)]
    (by intro o ho; simp at ho; subst ho; exact ⟨by decide, by decide⟩)
    RBound.unbounded RBound.unbounded (by decide) (by decide)
  exact h

theorem claim_C10_witness :
    (LazySegTree.range_fold maxAddAction
      (LazySegTree.range_fold maxAddAction (LazySegTree.from_slice maxAddAction [1, 2])
        RBound.unbounded RBound.unbounded).2 RBound.unbounded RBound.unbounded).1 =
    (LazySegTree.range_fold maxAddAction (LazySegTree.from_slice maxAddAction [1, 2])
      RBound.unbounded RBound.unbounded).1 :=
  (claim_C10 maxAddAction_is (LazySegTree.from_slice maxAddAction [1, 2])
    ((lazy_from_slice_ok maxAddAction_is [1, 2]).2.2.1)
    RBound.unbounded RBound.unbounded RBound.unbounded RBound.unbounded
    (by decide) (by decide) (by decide) (by decide)).2

/-- C8: building either structure with `n` identity elements and folding
the whole range returns the identity: the static tree via `all_fold` and
via `range_fold` over the full range, and the lazy tree via `range_fold`
over the full range. -/
theorem claim_C8 {α σ φ : Type} {M : MonoidImpl α} (hM : IsMonoid M)
    {A : MonoidActionImpl σ φ} (hA : IsAction A) (n : Nat) :
    SegTree.all_fold (SegTree.new M n) = M.identity ∧
    SegTree.range_fold M (SegTree.new M n) RBound.unbounded RBound.unbounded = M.identity ∧
    (LazySegTree.range_fold A (LazySegTree.new A n) RBound.unbounded RBound.unbounded).1 =
      A.identity_s := by
  refine ⟨rfl, ?_, ?_⟩
  · have hspec := range_fold_spec hM (SegTree.new M n) (SegOk_new hM n) RBound.unbounded
      RBound.unbounded (by simp [RBound.startIndex, RBound.endIndex])
      (by simp [RBound.endIndex])
    rw [hspec]
    apply foldRange_all_id hM
    intro j _ _
    rfl
  · have hinv : LazyInv A (LazySegTree.new A n).m (LazySegTree.new A n).data
        (LazySegTree.new A n).func := by
      intro k _ _
      show A.identity_s = A.apply (A.op_s A.identity_s A.identity_s) A.identity_f
      rw [hA.apply_id, hA.id_op_s]
    have hok : LazyOk A (LazySegTree.new A n) := ⟨⟨npotExp n n, rfl⟩, npot_ge n, hinv⟩
    obtain ⟨fv, _, _, _, _⟩ := lazy_range_fold_spec hA (LazySegTree.new A n) hok
      RBound.unbounded RBound.unbounded (by simp [RBound.startIndex, RBound.endIndex])
      (by simp [RBound.endIndex])
    rw [fv]
    have hid : A.valueMonoid.identity = A.identity_s := rfl
    rw [← hid]
    apply foldRange_all_id (valueMonoid_is hA)
    intro j _ _
    show chainApply A (LazySegTree.new A n).func (LazySegTree.new A n).m
      ((j + (LazySegTree.new A n).m) / 2)
      ((LazySegTree.new A n).data (j + (LazySegTree.new A n).m)) = A.valueMonoid.identity
    rw [chainApply_all_id hA _ _ _ _ (fun d _ => rfl)]
    rfl

theorem claim_C8_witness :
    SegTree.all_fold (SegTree.new natAddMonoid 3) = 0 ∧
    SegTree.range_fold natAddMonoid (SegTree.new natAddMonoid 3) RBound.unbounded
      RBound.unbounded = 0 ∧
    (LazySegTree.range_fold maxAddAction (LazySegTree.new maxAddAction 3) RBound.unbounded
      RBound.unbounded).1 = 0 :=
  claim_C8 natAddMonoid_is maxAddAction_is 3

/-- C5: every guarded operation fails (modelled as `none`, the
`debug_assert!` firing) exactly when its contract is violated: a point
index outside `[0, n)`, or a normalized range with `l > r` or `r > n`;
on a valid argument it always returns a result, so no other failure mode
exists. -/
theorem claim_C5 {α σ φ : Type} (M : MonoidImpl α) (st : SegTree α) (i : Nat) (x : α)
    (A : MonoidActionImpl σ φ) (lt : LazySegTree σ φ) (sb eb : RBound) (f : φ) :
    (SegTree.setChecked M st i x = none ↔ ¬ i < st.n) ∧
    (SegTree.getChecked st i = none ↔ ¬ i < st.n) ∧
    (SegTree.range_foldChecked M st sb eb = none ↔
      ¬ (sb.startIndex ≤ RBound.endIndex st.n eb ∧ RBound.endIndex st.n eb ≤ st.n)) ∧
    (LazySegTree.range_foldChecked A lt sb eb = none ↔
      ¬ (sb.startIndex ≤ RBound.endIndex lt.n eb ∧ RBound.endIndex lt.n eb ≤ lt.n)) ∧
    (LazySegTree.range_applyChecked A lt sb eb f = none ↔
      ¬ (sb.startIndex ≤ RBound.endIndex lt.n eb ∧ RBound.endIndex lt.n eb ≤ lt.n)) := by
  refine ⟨?_, ?_, ?_, ?_, ?_⟩
  · unfold SegTree.setChecked
    by_cases h : i < st.n
    · simp [h]
    · simp [h]
  · unfold SegTree.getChecked
    by_cases h : i < st.n
    · simp [h]
    · simp [h]
  · show (if sb.startIndex + st.m ≤ RBound.endIndex st.n eb + st.m ∧
        RBound.endIndex st.n eb + st.m ≤ st.n + st.m
      then some (SegTree.range_fold M st sb eb) else none) = none ↔ _
    by_cases h : sb.startIndex + st.m ≤ RBound.endIndex st.n eb + st.m ∧
        RBound.endIndex st.n eb + st.m ≤ st.n + st.m
    · rw [if_pos h]
      constructor
      · intro hc
        exact absurd hc (by simp)
      · intro hc
        exact absurd (by omega) hc
    · rw [if_neg h]
      constructor
      · intro _ hc
        exact h (by omega)
      · intro _
        rfl
  · show (if sb.startIndex + lt.m ≤ RBound.endIndex lt.n eb + lt.m ∧
        RBound.endIndex lt.n eb + lt.m ≤ lt.n + lt.m
      then some (LazySegTree.range_fold A lt sb eb) else none) = none ↔ _
    by_cases h : sb.startIndex + lt.m ≤ RBound.endIndex lt.n eb + lt.m ∧
        RBound.endIndex lt.n eb + lt.m ≤ lt.n + lt.m
    · rw [if_pos h]
      constructor
      · intro hc
        exact absurd hc (by simp)
      · intro hc
        exact absurd (by omega) hc
    · rw [if_neg h]
      constructor
      · intro _ hc
        exact h (by omega)
      · intro _
        rfl
  · show (if sb.startIndex + lt.m ≤ RBound.endIndex lt.n eb + lt.m ∧
        RBound.endIndex lt.n eb + lt.m ≤ lt.n + lt.m
      then some (LazySegTree.range_apply A lt sb eb f) else none) = none ↔ _
    by_cases h : sb.startIndex + lt.m ≤ RBound.endIndex lt.n eb + lt.m ∧
        RBound.endIndex lt.n eb + lt.m ≤ lt.n + lt.m
    · rw [if_pos h]
      constructor
      · intro hc
        exact absurd hc (by simp)
      · intro hc
        exact absurd (by omega) hc
    · rw [if_neg h]
      constructor
      · intro _ hc
        exact h (by omega)
      · intro _
        rfl

theorem agree_push {σ φ : Type} (A : MonoidActionImpl σ φ) (m : Nat)
    (st1 st2 : LazySegTree σ φ) (h : AgreeBelow m st1 st2) (k : Nat) (hk : k < m) :
    AgreeBelow m (LazySegTree.push A st1 k) (LazySegTree.push A st2 k) := by
  obtain ⟨hn, hm1, hm2, hd, hf⟩ := h
  have hde : st1.data = st2.data := funext hd
  have hfk : st1.func k = st2.func k := hf k hk
  refine ⟨hn, hm1, hm2, ?_, ?_⟩
  · intro j
    simp only [LazySegTree.push]
    rw [hde, hfk]
  · intro j hj
    simp only [LazySegTree.push]
    by_cases h1 : j = 2 * k + 1
    · subst h1
      rw [upd_same, upd_same, hf (2 * k + 1) hj, hfk]
    · rw [upd_ne _ _ _ _ h1, upd_ne _ _ _ _ h1]
      by_cases h2 : j = 2 * k
      · subst h2
        rw [upd_same, upd_same, hf (2 * k) hj, hfk]
      · rw [upd_ne _ _ _ _ h2, upd_ne _ _ _ _ h2]
        by_cases h3 : j = k
        · subst h3
          rw [upd_same, upd_same]
        · rw [upd_ne _ _ _ _ h3, upd_ne _ _ _ _ h3]
          exact hf j hj

theorem pushed_slot_lt (m x kk : Nat) (hx : x ≤ 2 * m) (hkk : 1 ≤ kk)
    (hmod : x % 2 ^ kk ≠ 0) : x / 2 ^ kk < m := by
  have hx1 : 1 ≤ x := by
    rcases Nat.eq_zero_or_pos x with h0 | h0
    · rw [h0] at hmod; simp at hmod
    · exact h0
  have hm1 : 1 ≤ m := by omega
  rcases Nat.lt_or_ge kk 2 with h2 | h2
  · have hke : kk = 1 := by omega
    subst hke
    rw [pow_one] at hmod ⊢
    omega
  · have h4 : (4:Nat) ≤ 2 ^ kk := by
      have : (2:Nat) ^ 2 ≤ 2 ^ kk := Nat.pow_le_pow_right (by omega) h2
      norm_num at this
      omega
    have hled : x / 2 ^ kk ≤ x / 4 := Nat.div_le_div_left h4 (by omega)
    omega

theorem agree_pushStep {σ φ : Type} (A : MonoidActionImpl σ φ) (m l r kk : Nat)
    (st1 st2 : LazySegTree σ φ) (h : AgreeBelow m st1 st2)
    (hl2m : l ≤ 2 * m) (hr2m : r ≤ 2 * m) (hkk : 1 ≤ kk) :
    AgreeBelow m (pushStep A l r kk st1) (pushStep A l r kk st2) := by
  have hpos : 0 < 2 ^ kk := Nat.pos_pow_of_pos kk (by omega)
  have hstep1 : AgreeBelow m
      (if (l / 2 ^ kk) * 2 ^ kk ≠ l then LazySegTree.push A st1 (l / 2 ^ kk) else st1)
      (if (l / 2 ^ kk) * 2 ^ kk ≠ l then LazySegTree.push A st2 (l / 2 ^ kk) else st2) := by
    by_cases hc : (l / 2 ^ kk) * 2 ^ kk ≠ l
    · rw [if_pos hc, if_pos hc]
      have hmod := (align_cond_iff l kk hpos).mp hc
      exact agree_push A m st1 st2 h _ (pushed_slot_lt m l kk hl2m hkk hmod)
    · rw [if_neg hc, if_neg hc]
      exact h
  show AgreeBelow m
    (if (r / 2 ^ kk) * 2 ^ kk ≠ r then LazySegTree.push A _ ((r - 1) / 2 ^ kk) else _)
    (if (r / 2 ^ kk) * 2 ^ kk ≠ r then LazySegTree.push A _ ((r - 1) / 2 ^ kk) else _)
  by_cases hc : (r / 2 ^ kk) * 2 ^ kk ≠ r
  · rw [if_pos hc, if_pos hc]
    have hmod := (align_cond_iff r kk hpos).mp hc
    have hr1 : 1 ≤ r := by
      rcases Nat.eq_zero_or_pos r with h0 | h0
      · rw [h0] at hmod; simp at hmod
      · exact h0
    have hlt : (r - 1) / 2 ^ kk < m := by
      have hm1 : 1 ≤ m := by omega
      have h2kk : (2:Nat) ≤ 2 ^ kk := by
        have : (2:Nat) ^ 1 ≤ 2 ^ kk := Nat.pow_le_pow_right (by omega) hkk
        rw [pow_one] at this
        exact this
      have hled : (r - 1) / 2 ^ kk ≤ (r - 1) / 2 := Nat.div_le_div_left h2kk (by omega)
      omega
    exact agree_push A m _ _ hstep1 _ hlt
  · rw [if_neg hc, if_neg hc]
    exact hstep1

theorem agree_pushDownLoop {σ φ : Type} (A : MonoidActionImpl σ φ) (m l r : Nat)
    (hl2m : l ≤ 2 * m) (hr2m : r ≤ 2 * m) :
    ∀ (t : Nat) (st1 st2 : LazySegTree σ φ), AgreeBelow m st1 st2 →
      AgreeBelow m (pushDownLoop A l r t st1) (pushDownLoop A l r t st2) := by
  intro t
  induction t with
  | zero => intro st1 st2 h; exact h
  | succ t ih =>
    intro st1 st2 h
    exact ih _ _ (agree_pushStep A m l r (t + 1) st1 st2 h hl2m hr2m (by omega))

theorem agree_applyStepL {σ φ : Type} (A : MonoidActionImpl σ φ) (m : Nat) (f : φ) (l : Nat)
    (st1 st2 : LazySegTree σ φ) (h : AgreeBelow m st1 st2) :
    AgreeBelow m (applyStepL A f l st1) (applyStepL A f l st2) := by
  obtain ⟨hn, hm1, hm2, hd, hf⟩ := h
  have hde : st1.data = st2.data := funext hd
  by_cases hp : l % 2 = 1
  · simp only [applyStepL, if_pos hp]
    refine ⟨hn, hm1, hm2, ?_, ?_⟩
    · intro j
      show upd st1.data l (A.apply (st1.data l) f) j = upd st2.data l (A.apply (st2.data l) f) j
      rw [hde]
    · intro j hj
      show upd st1.func l (A.op_f (st1.func l) f) j = upd st2.func l (A.op_f (st2.func l) f) j
      by_cases hjl : j = l
      · subst hjl
        rw [upd_same, upd_same, hf j hj]
      · rw [upd_ne _ _ _ _ hjl, upd_ne _ _ _ _ hjl]
        exact hf j hj
  · simp only [applyStepL, if_neg hp]
    exact ⟨hn, hm1, hm2, hd, hf⟩

theorem agree_applyStepR {σ φ : Type} (A : MonoidActionImpl σ φ) (m : Nat) (f : φ) (r : Nat)
    (st1 st2 : LazySegTree σ φ) (h : AgreeBelow m st1 st2) :
    AgreeBelow m (applyStepR A f r st1) (applyStepR A f r st2) := by
  obtain ⟨hn, hm1, hm2, hd, hf⟩ := h
  have hde : st1.data = st2.data := funext hd
  by_cases hp : r % 2 = 1
  · simp only [applyStepR, if_pos hp]
    refine ⟨hn, hm1, hm2, ?_, ?_⟩
    · intro j
      show upd st1.data (r - 1) (A.apply (st1.data (r - 1)) f) j =
        upd st2.data (r - 1) (A.apply (st2.data (r - 1)) f) j
      rw [hde]
    · intro j hj
      show upd st1.func (r - 1) (A.op_f (st1.func (r - 1)) f) j =
        upd st2.func (r - 1) (A.op_f (st2.func (r - 1)) f) j
      by_cases hjl : j = r - 1
      · subst hjl
        rw [upd_same, upd_same, hf (r - 1) hj]
      · rw [upd_ne _ _ _ _ hjl, upd_ne _ _ _ _ hjl]
        exact hf j hj
  · simp only [applyStepR, if_neg hp]
    exact ⟨hn, hm1, hm2, hd, hf⟩

theorem agree_applyLoop {σ φ : Type} (A : MonoidActionImpl σ φ) (m : Nat) (f : φ) :
    ∀ (fuel l r : Nat) (st1 st2 : LazySegTree σ φ), AgreeBelow m st1 st2 →
      AgreeBelow m (applyLoop A f fuel l r st1) (applyLoop A f fuel l r st2) := by
  intro fuel
  induction fuel with
  | zero => intro l r st1 st2 h; exact h
  | succ fuel ih =>
    intro l r st1 st2 h
    by_cases hlt : l < r
    · have e1 : applyLoop A f (fuel + 1) l r st1 =
          applyLoop A f fuel ((if l % 2 = 1 then l + 1 else l) / 2)
            ((if r % 2 = 1 then r - 1 else r) / 2)
            (applyStepR A f r (applyStepL A f l st1)) := by
        simp only [applyLoop, if_pos hlt]
      have e2 : applyLoop A f (fuel + 1) l r st2 =
          applyLoop A f fuel ((if l % 2 = 1 then l + 1 else l) / 2)
            ((if r % 2 = 1 then r - 1 else r) / 2)
            (applyStepR A f r (applyStepL A f l st2)) := by
        simp only [applyLoop, if_pos hlt]
      rw [e1, e2]
      exact ih _ _ _ _ (agree_applyStepR A m f r _ _ (agree_applyStepL A m f l _ _ h))
    · have e1 : applyLoop A f (fuel + 1) l r st1 = st1 := by
        simp only [applyLoop, if_neg hlt]
      have e2 : applyLoop A f (fuel + 1) l r st2 = st2 := by
        simp only [applyLoop, if_neg hlt]
      rw [e1, e2]
      exact h

theorem agree_pullStepL {σ φ : Type} (A : MonoidActionImpl σ φ) (m : Nat) (l kk : Nat)
    (st1 st2 : LazySegTree σ φ) (h : AgreeBelow m st1 st2) :
    AgreeBelow m (pullStepL A l kk st1) (pullStepL A l kk st2) := by
  obtain ⟨hn, hm1, hm2, hd, hf⟩ := h
  have hde : st1.data = st2.data := funext hd
  by_cases hc : (l / 2 ^ kk) * 2 ^ kk ≠ l
  · simp only [pullStepL, if_pos hc]
    refine ⟨hn, hm1, hm2, ?_, hf⟩
    intro j
    show upd st1.data (l / 2 ^ kk)
        (A.op_s (st1.data (2 * (l / 2 ^ kk))) (st1.data (2 * (l / 2 ^ kk) + 1))) j =
      upd st2.data (l / 2 ^ kk)
        (A.op_s (st2.data (2 * (l / 2 ^ kk))) (st2.data (2 * (l / 2 ^ kk) + 1))) j
    rw [hde]
  · simp only [pullStepL, if_neg hc]
    exact ⟨hn, hm1, hm2, hd, hf⟩

theorem agree_pullStepR {σ φ : Type} (A : MonoidActionImpl σ φ) (m : Nat) (r kk : Nat)
    (st1 st2 : LazySegTree σ φ) (h : AgreeBelow m st1 st2) :
    AgreeBelow m (pullStepR A r kk st1) (pullStepR A r kk st2) := by
  obtain ⟨hn, hm1, hm2, hd, hf⟩ := h
  have hde : st1.data = st2.data := funext hd
  by_cases hc : (r / 2 ^ kk) * 2 ^ kk ≠ r
  · simp only [pullStepR, if_pos hc]
    refine ⟨hn, hm1, hm2, ?_, hf⟩
    intro j
    show upd st1.data ((r - 1) / 2 ^ kk)
        (A.op_s (st1.data (2 * ((r - 1) / 2 ^ kk))) (st1.data (2 * ((r - 1) / 2 ^ kk) + 1))) j =
      upd st2.data ((r - 1) / 2 ^ kk)
        (A.op_s (st2.data (2 * ((r - 1) / 2 ^ kk))) (st2.data (2 * ((r - 1) / 2 ^ kk) + 1))) j
    rw [hde]
  · simp only [pullStepR, if_neg hc]
    exact ⟨hn, hm1, hm2, hd, hf⟩

theorem agree_pullUpLoop {σ φ : Type} (A : MonoidActionImpl σ φ) (m l r : Nat) :
    ∀ (t : Nat) (st1 st2 : LazySegTree σ φ), AgreeBelow m st1 st2 →
      AgreeBelow m (pullUpLoop A l r t st1) (pullUpLoop A l r t st2) := by
  intro t
  induction t with
  | zero => intro st1 st2 h; exact h
  | succ t ih =>
    intro st1 st2 h
    exact agree_pullStepR A m r (t + 1) _ _ (agree_pullStepL A m l (t + 1) _ _ (ih _ _ h))

/-- C4 counterexample: after the completed public operation
`range_apply([0,1), 5)` on a freshly built lazy tree of length 2 over the
max/plus action, the leaf slot `2` (a slot in `[m, 2m)` with `m = 2`)
holds the pending operator `5`, not the operator identity `0`: the
boundary pass of `range_apply` composes the operator into leaf pending
slots as well. -/
theorem claim_C4_counterexample :
    (LazySegTree.range_apply maxAddAction (LazySegTree.new maxAddAction 2)
      (RBound.included 0) (RBound.excluded 1) 5).func 2 = 5 ∧
    (LazySegTree.new maxAddAction 2).m ≤ 2 ∧
    2 < 2 * (LazySegTree.new maxAddAction 2).m ∧
    maxAddAction.identity_f = 0 := by
  refine ⟨?_, ?_, ?_, rfl⟩ <;> decide

/-- C4 (amended): pending operators written into leaf slots are write-only
garbage — no public operation ever reads a leaf slot's pending operator.
Two trees that agree everywhere except on the pending operators of slots
`≥ m` stay in agreement under `range_apply`, and `range_fold` computes the
same value and keeps the agreement; only internal slots `k < m` carry
meaningful pending state. -/
theorem claim_C4 {σ φ : Type} (A : MonoidActionImpl σ φ) (m : Nat)
    (st1 st2 : LazySegTree σ φ) (hagree : AgreeBelow m st1 st2)
    (hnm : st1.n ≤ m) (sb eb : RBound) (f : φ)
    (h1 : sb.startIndex ≤ RBound.endIndex st1.n eb)
    (h2 : RBound.endIndex st1.n eb ≤ st1.n) :
    AgreeBelow m (LazySegTree.range_apply A st1 sb eb f)
      (LazySegTree.range_apply A st2 sb eb f) ∧
    (LazySegTree.range_fold A st1 sb eb).1 = (LazySegTree.range_fold A st2 sb eb).1 ∧
    AgreeBelow m (LazySegTree.range_fold A st1 sb eb).2
      (LazySegTree.range_fold A st2 sb eb).2 := by
  obtain ⟨hn, hm1, hm2, hd, hf⟩ := hagree
  have hagree2 : AgreeBelow m st1 st2 := ⟨hn, hm1, hm2, hd, hf⟩
  have hl2m : sb.startIndex + m ≤ 2 * m := by omega
  have hr2m : RBound.endIndex st1.n eb + m ≤ 2 * m := by omega
  have e1 : LazySegTree.range_apply A st1 sb eb f =
      pullUpLoop A (sb.startIndex + m) (RBound.endIndex st1.n eb + m) (ctz m m)
        (applyLoop A f (RBound.endIndex st1.n eb + m) (sb.startIndex + m)
          (RBound.endIndex st1.n eb + m)
          (pushDownLoop A (sb.startIndex + m) (RBound.endIndex st1.n eb + m)
            (ctz m m) st1)) := by
    show pullUpLoop A (sb.startIndex + st1.m) (RBound.endIndex st1.n eb + st1.m)
      (ctz st1.m st1.m)
      (applyLoop A f (RBound.endIndex st1.n eb + st1.m) (sb.startIndex + st1.m)
        (RBound.endIndex st1.n eb + st1.m)
        (pushDownLoop A (sb.startIndex + st1.m) (RBound.endIndex st1.n eb + st1.m)
          (ctz st1.m st1.m) st1)) = _
    rw [hm1]
  have e2 : LazySegTree.range_apply A st2 sb eb f =
      pullUpLoop A (sb.startIndex + m) (RBound.endIndex st1.n eb + m) (ctz m m)
        (applyLoop A f (RBound.endIndex st1.n eb + m) (sb.startIndex + m)
          (RBound.endIndex st1.n eb + m)
          (pushDownLoop A (sb.startIndex + m) (RBound.endIndex st1.n eb + m)
            (ctz m m) st2)) := by
    show pullUpLoop A (sb.startIndex + st2.m) (RBound.endIndex st2.n eb + st2.m)
      (ctz st2.m st2.m)
      (applyLoop A f (RBound.endIndex st2.n eb + st2.m) (sb.startIndex + st2.m)
        (RBound.endIndex st2.n eb + st2.m)
        (pushDownLoop A (sb.startIndex + st2.m) (RBound.endIndex st2.n eb + st2.m)
          (ctz st2.m st2.m) st2)) = _
    rw [hm2, ← hn]
  have hpdl := agree_pushDownLoop A m (sb.startIndex + m) (RBound.endIndex st1.n eb + m)
    hl2m hr2m (ctz m m) st1 st2 hagree2
  have hde2 : (pushDownLoop A (sb.startIndex + m) (RBound.endIndex st1.n eb + m)
      (ctz m m) st1).data =
    (pushDownLoop A (sb.startIndex + m) (RBound.endIndex st1.n eb + m)
      (ctz m m) st2).data := funext hpdl.2.2.2.1
  have e3 : (LazySegTree.range_fold A st1 sb eb).2 =
      pushDownLoop A (sb.startIndex + m) (RBound.endIndex st1.n eb + m) (ctz m m) st1 := by
    show pushDownLoop A (sb.startIndex + st1.m) (RBound.endIndex st1.n eb + st1.m)
      (ctz st1.m st1.m) st1 = _
    rw [hm1]
  have e4 : (LazySegTree.range_fold A st2 sb eb).2 =
      pushDownLoop A (sb.startIndex + m) (RBound.endIndex st1.n eb + m) (ctz m m) st2 := by
    show pushDownLoop A (sb.startIndex + st2.m) (RBound.endIndex st2.n eb + st2.m)
      (ctz st2.m st2.m) st2 = _
    rw [hm2, ← hn]
  have e5 : (LazySegTree.range_fold A st1 sb eb).1 =
      foldLoop A.valueMonoid
        (pushDownLoop A (sb.startIndex + m) (RBound.endIndex st1.n eb + m)
          (ctz m m) st1).data
        (RBound.endIndex st1.n eb + m) (sb.startIndex + m) (RBound.endIndex st1.n eb + m)
        A.identity_s A.identity_s := by
    show foldLoop A.valueMonoid
      (pushDownLoop A (sb.startIndex + st1.m) (RBound.endIndex st1.n eb + st1.m)
        (ctz st1.m st1.m) st1).data
      (RBound.endIndex st1.n eb + st1.m) (sb.startIndex + st1.m)
      (RBound.endIndex st1.n eb + st1.m) A.identity_s A.identity_s = _
    rw [hm1]
  have e6 : (LazySegTree.range_fold A st2 sb eb).1 =
      foldLoop A.valueMonoid
        (pushDownLoop A (sb.startIndex + m) (RBound.endIndex st1.n eb + m)
          (ctz m m) st2).data
        (RBound.endIndex st1.n eb + m) (sb.startIndex + m) (RBound.endIndex st1.n eb + m)
        A.identity_s A.identity_s := by
    show foldLoop A.valueMonoid
      (pushDownLoop A (sb.startIndex + st2.m) (RBound.endIndex st2.n eb + st2.m)
        (ctz st2.m st2.m) st2).data
      (RBound.endIndex st2.n eb + st2.m) (sb.startIndex + st2.m)
      (RBound.endIndex st2.n eb + st2.m) A.identity_s A.identity_s = _
    rw [hm2, ← hn]
  refine ⟨?_, ?_, ?_⟩
  · rw [e1, e2]
    exact agree_pullUpLoop A m _ _ _ _ _
      (agree_applyLoop A m f _ _ _ _ _ hpdl)
  · rw [e5, e6, hde2]
  · rw [e3, e4]
    exact hpdl

theorem claim_C4_witness :
    (LazySegTree.range_fold maxAddAction (LazySegTree.new maxAddAction 2)
      RBound.unbounded RBound.unbounded).1 =
    (LazySegTree.range_fold maxAddAction
      { n := 2, m := 2, data := fun _ => 0, func := upd (fun _ => 0) 2 7 }
      RBound.unbounded RBound.unbounded).1 := by
  have hagree : AgreeBelow 2 (LazySegTree.new maxAddAction 2)
      { n := 2, m := 2, data := fun _ => (0:Nat), func := upd (fun _ => (0:Nat)) 2 7 } := by
    refine ⟨rfl, by decide, rfl, fun j => rfl, ?_⟩
    intro j hj
    show (0:Nat) = upd (fun _ => (0:Nat)) 2 7 j
    rw [upd_ne _ _ _ _ (by omega)]
  exact (claim_C4 maxAddAction 2 (LazySegTree.new maxAddAction 2)
    { n := 2, m := 2, data := fun _ => 0, func := upd (fun _ => 0) 2 7 }
    hagree (by decide) RBound.unbounded RBound.unbounded 7
    (by decide) (by decide)).2.1
